import Mathlib

/-!
# EndlessPacMan: the grid engine of `src/main.cpp`

A shallow embedding of the grid model, entity placement, the A* pathfinder and the
game loop of `main.cpp`, followed by the theorems that settle the claims made about them.

Conventions of the embedding.

* C++ `int` values are `Int`.  Every quantity that occurs under the hypotheses of the
  theorems below stays far inside the 32-bit range, so no wrap-around is modelled.
* A cell is the code of a `wchar_t` (a `Nat`); the map (`std::wstring`) is a `List Nat`.
  `map[i]` is `mapAt map i`: for `0 ≤ i < size` it is the stored cell and for `i = size`
  it is the terminating null character `0`, as `std::wstring::operator[]` specifies.
* `std::map<Point, T>` is a finite partial function `Point → Option T`; `find(..) == end()`
  is `= none`, and `m[k]` on a present key is the stored value.
* `std::set<Point>` is a list kept in the iteration order of `Point::operator<`.
* Loops whose number of iterations is not bounded syntactically take a fuel argument and
  return `none` when it runs out; `none` is also the result of reading an indeterminate value.
-/

namespace EndlessPacMan

/-! ## Constants and data model -/

/-- Source: `const int mapWidth = 30;` -/
def mapWidth : Int := 30

/-- Source: `const int mapHeight = 31;` -/
def mapHeight : Int := 31

/-- Source: `struct Point { int x, y; ... }`. -/
structure Point where
  x : Int
  y : Int
deriving DecidableEq, Repr

/-- Source: `Point::operator<`: x is compared first, then y. -/
def Point.lt (a b : Point) : Bool :=
  if a.x = b.x then decide (a.y < b.y) else decide (a.x < b.x)

/-- Entity chars of `enum Char : wchar_t`, as character codes. -/
def PLAYER_UP : Nat := 0x25B2
def PLAYER_DOWN : Nat := 0x25BC
def PLAYER_LEFT : Nat := 0x25C4
def PLAYER_RIGHT : Nat := 0x25BA
def ENEMY : Nat := 88
def COIN : Nat := 79
def WALL : Nat := 35
def FLOOR : Nat := 32
def PLAYER_PLACEHOLDER : Nat := 80
def NEXT_LEVEL_DOOR : Nat := 68

/-- The constant globals `enemyChar`, `coinChar`, ... (`playerChar` is mutable and is
carried in the game state instead). -/
def enemyChar : Nat := ENEMY
def coinChar : Nat := COIN
def wallChar : Nat := WALL
def floorChar : Nat := FLOOR
def playerPlaceholderChar : Nat := PLAYER_PLACEHOLDER
def nextLevelDoorChar : Nat := NEXT_LEVEL_DOOR

/-- Source: `enum Difficulty`. -/
inductive Difficulty where
  | EASY | MEDIUM | HARD | VERY_HARD | NIGHTMARE
deriving DecidableEq, Repr

/-- Source: `const enum Difficulty difficulty = HARD;` -/
def difficulty : Difficulty := Difficulty.HARD

/-- The read `map[i]` of a `std::wstring`. -/
def mapAt (map : List Nat) (i : Int) : Nat :=
  if 0 ≤ i then map.getD i.toNat 0 else 0

/-- The write `map[i] = c` of a `std::wstring` (inside the string). -/
def mapSet (map : List Nat) (i : Int) (c : Nat) : List Nat :=
  if 0 ≤ i then map.set i.toNat c else map

/-! ## Coordinate conversion -/

/-- Source: `coordConvert2T1`: `return py * mapWidth + px;` -/
def coordConvert2T1 (px py : Int) : Int :=
  py * mapWidth + px

/-- Source: `coordConvert1T2`: `x = idx % mapWidth; y = (idx - x) / mapWidth;` with the
truncating `%` and `/` of C++; the result is the vector `{x, y}`. -/
def coordConvert1T2 (idx : Int) : List Int :=
  let x := Int.tmod idx mapWidth
  let y := Int.tdiv (idx - x) mapWidth
  [x, y]

/-! ## A* pathfinding -/

/-- Source: `std::abs` on `int`. -/
def intAbs (v : Int) : Int := if v < 0 then -v else v

/-- Source: `getHeuristic`. -/
def getHeuristic (a b : Point) : Int :=
  intAbs (a.x - b.x) + intAbs (a.y - b.y)

/-- Source: `getNeighbours`: the four tests in source order (left, right, up, down), each
pushing onto the back of `neighbours`. -/
def getNeighbours (p : Point) (map : List Nat) : List Point :=
  let n0 : List Point := []
  let n1 :=
    if p.x > 0 ∧ mapAt map (coordConvert2T1 (p.x - 1) p.y) ≠ wallChar ∧ p.x > 0
        ∧ mapAt map (coordConvert2T1 (p.x - 1) p.y) ≠ coinChar
    then n0 ++ [⟨p.x - 1, p.y⟩] else n0
  let n2 :=
    if p.x < mapWidth ∧ mapAt map (coordConvert2T1 (p.x + 1) p.y) ≠ wallChar ∧ p.x < mapWidth
        ∧ mapAt map (coordConvert2T1 (p.x + 1) p.y) ≠ coinChar
    then n1 ++ [⟨p.x + 1, p.y⟩] else n1
  let n3 :=
    if p.y > 0 ∧ mapAt map (coordConvert2T1 p.x (p.y - 1)) ≠ wallChar ∧ p.y > 0
        ∧ mapAt map (coordConvert2T1 p.x (p.y - 1)) ≠ coinChar
    then n2 ++ [⟨p.x, p.y - 1⟩] else n2
  let n4 :=
    if p.y < mapHeight - 1 ∧ mapAt map (coordConvert2T1 p.x (p.y + 1)) ≠ wallChar
        ∧ p.y < mapHeight - 1 ∧ mapAt map (coordConvert2T1 p.x (p.y + 1)) ≠ coinChar
    then n3 ++ [⟨p.x, p.y + 1⟩] else n3
  n4

/-- Assignment `m[k] = v` on a `std::map<Point, T>`. -/
def mapPut {β : Type} (m : Point → Option β) (k : Point) (v : β) : Point → Option β :=
  fun q => if q = k then some v else m q

/-- Insertion into a `std::set<Point>`, kept in `operator<` order. -/
def setInsert (p : Point) : List Point → List Point
  | [] => [p]
  | q :: rest =>
    if p.lt q then p :: q :: rest
    else if q.lt p then q :: setInsert p rest
    else q :: rest

/-- Removal `openSet.erase(p)` from a `std::set<Point>`. -/
def setErase (p : Point) (s : List Point) : List Point :=
  s.filter (fun q => decide (q ≠ p))

/-- The local containers of `aStar`. -/
structure AStarState where
  openSet : List Point
  cameFrom : Point → Option Point
  gScore : Point → Option Int
  fScore : Point → Option Int

/-- Source: `std::numeric_limits<int>::max()`. -/
def intMax : Int := 2147483647

/-- One round of the scan `for (Point p : openSet) if (fScore[p] < lowestFScore) ...`; the
accumulator is `(lowestFScore, current)` and `current` is `none` while it is still
uninitialised. -/
def lowestStep (fScore : Point → Option Int) (acc : Int × Option Point) (p : Point) :
    Int × Option Point :=
  if (fScore p).getD 0 < acc.1 then ((fScore p).getD 0, some p) else acc

/-- The node of `openSet` with the lowest `fScore`, first found in iteration order. -/
def findLowest (fScore : Point → Option Int) (openSet : List Point) : Option Point :=
  (openSet.foldl (lowestStep fScore) (intMax, none)).2

/-- The body of `for (Point neighbour : getNeighbours(current, map))`. -/
def relaxNeighbour (goal current : Point) (st : AStarState) (neighbour : Point) :
    AStarState :=
  let tentativeGScore := (st.gScore current).getD 0 + 1
  if st.gScore neighbour = none ∨ tentativeGScore < (st.gScore neighbour).getD 0 then
    { openSet := if neighbour ∈ st.openSet then st.openSet else setInsert neighbour st.openSet
      cameFrom := mapPut st.cameFrom neighbour current
      gScore := mapPut st.gScore neighbour tentativeGScore
      fScore := mapPut st.fScore neighbour (tentativeGScore + getHeuristic neighbour goal) }
  else st

/-- The loop `while (cameFrom.find(current) != cameFrom.end())` that collects the path
backwards from the goal. -/
def reconstructLoop (cameFrom : Point → Option Point) :
    Nat → Point → List Point → Option (List Point)
  | 0, _, _ => none
  | fuel + 1, current, path =>
    match cameFrom current with
    | none => some path
    | some prev => reconstructLoop cameFrom fuel prev (path ++ [current])

/-- The loop `while (!openSet.empty())` of `aStar`; `some []` is the final
`return std::vector<Point>()`. -/
def aStarLoop (start goal : Point) (map : List Nat) : Nat → AStarState → Option (List Point)
  | 0, _ => none
  | fuel + 1, st =>
    if st.openSet = [] then some []
    else
      match findLowest st.fScore st.openSet with
      | none => none
      | some current =>
        if current.x = goal.x ∧ current.y = goal.y then
          match reconstructLoop st.cameFrom fuel current [] with
          | none => none
          | some path => some (path ++ [start]).reverse
        else
          aStarLoop start goal map fuel
            ((getNeighbours current map).foldl (relaxNeighbour goal current)
              { st with openSet := setErase current st.openSet })

/-- The containers of `aStar` before the loop. -/
def aStarInit (start goal : Point) : AStarState :=
  { openSet := [start]
    cameFrom := fun _ => none
    gScore := mapPut (fun _ => none) start 0
    fScore := mapPut (fun _ => none) start (getHeuristic start goal) }

/-- Fuel that covers every run of `aStar` from a start point of the grid (see
`aStar_isSome`). -/
def aStarFuel : Nat := 2 * 961 * 961 + 2000

/-- Source: `aStar`. -/
def aStar (start goal : Point) (map : List Nat) : Option (List Point) :=
  aStarLoop start goal map aStarFuel (aStarInit start goal)

/-! ## Enumerating and moving the enemies -/

/-- Source: `getEnemyIndexes`: the indexes `0 ≤ i < mapHeight * mapWidth` whose cell is the
enemy character, in increasing order. -/
def getEnemyIndexes (map : List Nat) : List Int :=
  ((List.range (mapHeight * mapWidth).toNat).map Int.ofNat).filter
    (fun i => decide (mapAt map i = enemyChar))

/-- Source: `getCurrentCoins`: `for (char c : map) if (c == coinChar) ...`.  The loop
variable is a `char`, so each `wchar_t` cell is narrowed to its low byte before the
comparison with the code of the coin character. -/
def getCurrentCoins (map : List Nat) : Int :=
  ((map.filter (fun c => decide (c % 256 = coinChar))).length : Int)

/-- Source: `isCoinHere`. -/
def isCoinHere (map : List Nat) (playerCurrentIndex : Int) : Bool :=
  decide (mapAt map playerCurrentIndex = coinChar)

/-- Source: `isEnemyHere`. -/
def isEnemyHere (map : List Nat) (playerCurrentIndex : Int) : Bool :=
  decide (mapAt map playerCurrentIndex = enemyChar)

/-- Source: `playerCrossingDoor`. -/
def playerCrossingDoor (playerCurrentIndex nextLevelDoorIndex : Int) : Bool :=
  decide (playerCurrentIndex = nextLevelDoorIndex)

/-- The body of the loop `for (int prevEnemyIndex : enemyIndexes)` of
`handleEnemyMovement`; `none` only when `aStar` has no result. -/
def moveEnemy (playerPoint : Point) (map : List Nat) (prevEnemyIndex : Int) :
    Option (List Nat) :=
  let enemyXY := coordConvert1T2 prevEnemyIndex
  let enemyX := enemyXY.getD 0 0
  let enemyY := enemyXY.getD 1 0
  let enemyPoint : Point := ⟨enemyX, enemyY⟩
  match aStar enemyPoint playerPoint map with
  | none => none
  | some path =>
    if path.length > 1 then
      let nextPoint := path.getD 1 ⟨0, 0⟩
      let newEnemyIndex := coordConvert2T1 nextPoint.x nextPoint.y
      if mapAt map newEnemyIndex = enemyChar then
        some (mapSet map prevEnemyIndex enemyChar)
      else
        some (mapSet (mapSet map prevEnemyIndex floorChar) newEnemyIndex enemyChar)
    else some map

/-- The loop over `enemyIndexes`, in the order of the vector. -/
def moveEnemies (playerPoint : Point) : List Int → List Nat → Option (List Nat)
  | [], map => some map
  | prevEnemyIndex :: rest, map =>
    match moveEnemy playerPoint map prevEnemyIndex with
    | none => none
    | some map2 => moveEnemies playerPoint rest map2

/-- Source: `handleEnemyMovement`. -/
def handleEnemyMovement (enemyIndexes : List Int) (map : List Nat) (playerCurrentIndex : Int) :
    Option (List Nat) :=
  let playerXY := coordConvert1T2 playerCurrentIndex
  let playerX := playerXY.getD 0 0
  let playerY := playerXY.getD 1 0
  let playerPoint : Point := ⟨playerX, playerY⟩
  moveEnemies playerPoint enemyIndexes map

/-! ## Entity placement -/

/-- The first loop of `generateCoins` and of `generateEnemies`: the indexes
`mapWidth ≤ i < mapHeight * mapWidth` whose cell is not the wall, enemy, player or coin
character, in increasing order. -/
def eligibleCells (map : List Nat) (playerChar : Nat) : List Int :=
  ((List.range' mapWidth.toNat (mapHeight * mapWidth - mapWidth).toNat).map Int.ofNat).filter
    (fun i => decide (mapAt map i ≠ wallChar ∧ mapAt map i ≠ enemyChar
      ∧ mapAt map i ≠ playerChar ∧ mapAt map i ≠ coinChar))

/-- The placement loop `for (int i = 0; i < num; ++i) if (i < cells.size()) map[cells[i]] = ch;
else break;`, with `n` the number of rounds left. -/
def placeLoop (cells : List Int) (ch : Nat) : Nat → Nat → List Nat → List Nat
  | 0, _, map => map
  | n + 1, i, map =>
    if i < cells.length then placeLoop cells ch n (i + 1) (mapSet map (cells.getD i 0) ch)
    else map

/-- Source: `generateCoins`; `shuffle` is the outcome of `std::shuffle` and `playerChar` the
current value of the global. -/
def generateCoins (shuffle : List Int → List Int) (playerChar : Nat) (numCoins : Int)
    (map : List Nat) : List Nat :=
  placeLoop (shuffle (eligibleCells map playerChar)) coinChar numCoins.toNat 0 map

/-- Source: `generateEnemies`; `shuffle` is the outcome of `std::shuffle` and `playerChar`
the current value of the global. -/
def generateEnemies (shuffle : List Int → List Int) (playerChar : Nat) (numEnemies : Int)
    (map : List Nat) : List Nat :=
  placeLoop (shuffle (eligibleCells map playerChar)) enemyChar numEnemies.toNat 0 map

/-! ## The game loop -/

/-- Source: `getNextLevelDoorIndex`; the result is the map and the door index. -/
def getNextLevelDoorIndex (map : List Nat) (nextLevelDoorIndex : Int) : List Nat × Int :=
  ((List.range (mapWidth * mapHeight).toNat).map Int.ofNat).foldl
    (fun (acc : List Nat × Int) i =>
      if mapAt acc.1 i = nextLevelDoorChar then (mapSet acc.1 i wallChar, i) else acc)
    (map, nextLevelDoorIndex)

/-- Source: `clearDoor`. -/
def clearDoor (map : List Nat) (nextLevelDoorIndex : Int) : List Nat :=
  mapSet map nextLevelDoorIndex floorChar

/-- The variables `getPlayerPos` writes. -/
structure PlayerPos where
  playerX : Int
  playerY : Int
  playerCurrentIndex : Int
  playerPreviousIndex : Int
deriving DecidableEq, Repr

/-- Source: `getPlayerPos`. -/
def getPlayerPos (map : List Nat) (pos : PlayerPos) : PlayerPos :=
  ((List.range (mapWidth * mapHeight).toNat).map Int.ofNat).foldl
    (fun (acc : PlayerPos) i =>
      if mapAt map i = playerPlaceholderChar then
        let playerXY := coordConvert1T2 i
        { playerX := playerXY.getD 0 0, playerY := playerXY.getD 1 0,
          playerCurrentIndex := i, playerPreviousIndex := i }
      else acc)
    pos

/-- The movement keys that `GetAsyncKeyState` reports as held in one call of
`handlePlayerMovement`. -/
structure Keys where
  W : Bool
  A : Bool
  S : Bool
  D : Bool
deriving DecidableEq, Repr

/-- The variables `handlePlayerMovement` writes. -/
structure Mover where
  playerX : Int
  playerY : Int
  playerChar : Nat
deriving DecidableEq, Repr

/-- Source: `handlePlayerMovement`: the four key tests in source order. -/
def handlePlayerMovement (keys : Keys) (m : Mover) (map : List Nat) : Mover :=
  let m1 :=
    if keys.W then
      if mapAt map (coordConvert2T1 m.playerX (m.playerY - 1)) = wallChar then
        { m with playerY := m.playerY - 1 + 1, playerChar := PLAYER_UP }
      else { m with playerY := m.playerY - 1, playerChar := PLAYER_UP }
    else m
  let m2 :=
    if keys.A then
      if mapAt map (coordConvert2T1 (m1.playerX - 1) m1.playerY) = wallChar then
        { m1 with playerX := m1.playerX - 1 + 1, playerChar := PLAYER_LEFT }
      else { m1 with playerX := m1.playerX - 1, playerChar := PLAYER_LEFT }
    else m1
  let m3 :=
    if keys.S then
      if mapAt map (coordConvert2T1 m2.playerX (m2.playerY + 1)) = wallChar then
        { m2 with playerY := m2.playerY + 1 - 1, playerChar := PLAYER_DOWN }
      else { m2 with playerY := m2.playerY + 1, playerChar := PLAYER_DOWN }
    else m2
  let m4 :=
    if keys.D then
      if mapAt map (coordConvert2T1 (m3.playerX + 1) m3.playerY) = wallChar then
        { m3 with playerX := m3.playerX + 1 - 1, playerChar := PLAYER_RIGHT }
      else { m3 with playerX := m3.playerX + 1, playerChar := PLAYER_RIGHT }
    else m3
  m4

/-- Source: the `switch (difficulty)` that sets `delay`. -/
def delayOf : Difficulty → Int
  | Difficulty.EASY => 7
  | Difficulty.MEDIUM => 5
  | Difficulty.HARD => 3
  | Difficulty.VERY_HARD => 2
  | Difficulty.NIGHTMARE => 1

/-- Source: `int delay` of `main`. -/
def delay : Int := delayOf difficulty

/-- Source: `int numEnemies = 1;` -/
def numEnemies : Int := 1

/-- Source: `int numCoins = 10;` -/
def numCoins : Int := 10

/-- What one iteration of the game loop takes from outside the program: the number of level
files, the keys held, the level files (by level number) and the outcomes of the two shuffles. -/
structure Env where
  numLevels : Int
  keys : Keys
  initMap : Int → List Nat
  shuffleCoins : List Int → List Int
  shuffleEnemies : List Int → List Int

/-- The variables of `main` that the game loop reads and writes. -/
structure Game where
  map : List Nat
  playerChar : Nat
  playerX : Int
  playerY : Int
  playerCurrentIndex : Int
  playerPreviousIndex : Int
  nextLevelDoorIndex : Int
  currentCoins : Int
  playerScore : Int
  currentLevel : Int
  counter : Int
  gameOver : Bool
deriving DecidableEq, Repr

/-- The end of an iteration: `map[playerPreviousIndex] = floorChar;
map[playerCurrentIndex] = playerChar;`. -/
def placePlayer (g : Game) : Game :=
  let map1 := mapSet g.map g.playerPreviousIndex floorChar
  { g with map := mapSet map1 g.playerCurrentIndex g.playerChar }

/-- The `else` branch of the door test: the next level is loaded and populated. -/
def nextLevel (env : Env) (g : Game) : Game :=
  let currentLevel := g.currentLevel + 1
  let map := env.initMap currentLevel
  let pos := getPlayerPos map
    { playerX := g.playerX, playerY := g.playerY,
      playerCurrentIndex := g.playerCurrentIndex,
      playerPreviousIndex := g.playerPreviousIndex }
  let map1 := generateCoins env.shuffleCoins g.playerChar numCoins map
  let map2 :=
    if numEnemies > 0 then generateEnemies env.shuffleEnemies g.playerChar numEnemies map1
    else map1
  { g with
    currentLevel := currentLevel
    map := map2
    playerX := pos.playerX
    playerY := pos.playerY
    playerCurrentIndex := pos.playerCurrentIndex
    playerPreviousIndex := pos.playerPreviousIndex
    currentCoins := numCoins
    counter := 0 }

/-- The start of an iteration: `if (counter == 0) getNextLevelDoorIndex(map,
nextLevelDoorIndex);`; the result is the map and the door index. -/
def doorPhase (g : Game) : List Nat × Int :=
  if g.counter = 0 then getNextLevelDoorIndex g.map g.nextLevelDoorIndex
  else (g.map, g.nextLevelDoorIndex)

/-- The enemy movement of an iteration: `if (counter % delay == 0) { enemyIndexes =
getEnemyIndexes(map); handleEnemyMovement(enemyIndexes, map, playerCurrentIndex); }`. -/
def enemyPhase (counter : Int) (map : List Nat) (playerCurrentIndex : Int) :
    Option (List Nat) :=
  if Int.tmod counter delay = 0 then
    handleEnemyMovement (getEnemyIndexes map) map playerCurrentIndex
  else some map

/-- The iteration from `// Check for enemy collision` to its end, on the variables as they
are after the movement of the player and of the enemies.  On the `break` of the last level
the state is returned with `gameOver` set and without the final placement of the player. -/
def resolvePhase (env : Env) (g : Game) : Game :=
  let gameOver := if isEnemyHere g.map g.playerCurrentIndex then true else g.gameOver
  let coinHere := isCoinHere g.map g.playerCurrentIndex
  let playerScore := if coinHere then g.playerScore + 1 else g.playerScore
  let currentCoins := if coinHere then g.currentCoins - 1 else g.currentCoins
  let g1 : Game :=
    { g with gameOver := gameOver, playerScore := playerScore, currentCoins := currentCoins }
  if currentCoins = 0 then
    let g2 := { g1 with map := clearDoor g1.map g1.nextLevelDoorIndex }
    if playerCrossingDoor g2.playerCurrentIndex g2.nextLevelDoorIndex then
      if g2.currentLevel = env.numLevels then
        { g2 with gameOver := true }
      else
        placePlayer (nextLevel env g2)
    else placePlayer g2
  else placePlayer g1

/-- One iteration of `while (!gameOver)` in `main` (drawing and sleeping left out).  The
result is `none` only when `aStar` has no result. -/
def loopBody (env : Env) (g : Game) : Option Game :=
  let door := doorPhase g
  let counter := g.counter + 1
  let currentCoins := getCurrentCoins door.1
  let moved := handlePlayerMovement env.keys
    { playerX := g.playerX, playerY := g.playerY, playerChar := g.playerChar } door.1
  let playerCurrentIndex := coordConvert2T1 moved.playerX moved.playerY
  match enemyPhase counter door.1 playerCurrentIndex with
  | none => none
  | some map2 =>
    some (resolvePhase env
      { map := map2
        playerChar := moved.playerChar
        playerX := moved.playerX
        playerY := moved.playerY
        playerCurrentIndex := playerCurrentIndex
        playerPreviousIndex := g.playerCurrentIndex
        nextLevelDoorIndex := door.2
        currentCoins := currentCoins
        playerScore := g.playerScore
        currentLevel := g.currentLevel
        counter := counter
        gameOver := g.gameOver })

/-! ## Notions used in the statements and proofs -/

/-- The number of cells of the map that hold the given character. -/
def countCells (ch : Nat) (map : List Nat) : Nat := map.count ch

/-- The enemy indexes of the cells of `cells`, numbered from `i` on: a single pass that gives
the result of `getEnemyIndexes` on a map of 930 cells (`getEnemyIndexes_eq_enemyScan`). -/
def enemyScan : Nat → List Nat → List Int
  | _, [] => []
  | i, c :: rest =>
    if c = enemyChar then (i : Int) :: enemyScan (i + 1) rest else enemyScan (i + 1) rest

/-- The indexes inside the old map at which the new map holds another cell. -/
def changedCells (old new : List Nat) : List Nat :=
  (List.range old.length).filter (fun i => decide (new.getD i 0 ≠ old.getD i 0))

/-- What a placement of `N` cells of character `ch` on `map` has to achieve: the new map has
the size of the old one, exactly `min(N, E)` cells have changed, `E` being the number of
eligible cells of `map`; each changed cell holds `ch`; every other cell holds what it held;
and when `E < N` every eligible cell holds `ch`. -/
def PlacementSpec (ch : Nat) (map : List Nat) (playerChar : Nat) (N : Int)
    (new : List Nat) : Prop :=
  new.length = map.length
    ∧ ((changedCells map new).length : Int)
        = min N ((eligibleCells map playerChar).length : Int)
    ∧ (∀ i ∈ changedCells map new, new.getD i 0 = ch)
    ∧ (∀ i : Nat, i ∉ changedCells map new → new.getD i 0 = map.getD i 0)
    ∧ (((eligibleCells map playerChar).length : Int) < N →
        ∀ c ∈ eligibleCells map playerChar, mapAt new c = ch)

/-- The points `aStar` can reach from a start point of the grid: `0 ≤ x ≤ 30`,
`0 ≤ y ≤ 30` (the right-neighbour test of `getNeighbours` admits `x = 30`). -/
def inU (p : Point) : Prop := 0 ≤ p.x ∧ p.x ≤ 30 ∧ 0 ≤ p.y ∧ p.y ≤ 30

/-- A point of the 30x31 grid. -/
def inGrid (p : Point) : Prop := 0 ≤ p.x ∧ p.x < 30 ∧ 0 ≤ p.y ∧ p.y < 31

/-- The cell a point is read at. -/
def cellOf (map : List Nat) (p : Point) : Nat := mapAt map (coordConvert2T1 p.x p.y)

/-- Two points one orthogonal unit step apart. -/
def unitStep (a b : Point) : Prop :=
  (a.y = b.y ∧ (b.x = a.x + 1 ∨ b.x = a.x - 1)) ∨ (a.x = b.x ∧ (b.y = a.y + 1 ∨ b.y = a.y - 1))

/-- A walk of the pathfinder: each point is returned by `getNeighbours` for the one before. -/
def isWalk (map : List Nat) (w : List Point) : Prop :=
  List.Chain' (fun p q => q ∈ getNeighbours p map) w

/-- The state a successful test of the neighbour loop produces. -/
def relaxed (goal current : Point) (st : AStarState) (n : Point) (vc : Int) : AStarState :=
  { openSet := if n ∈ st.openSet then st.openSet else setInsert n st.openSet
    cameFrom := mapPut st.cameFrom n current
    gScore := mapPut st.gScore n (vc + 1)
    fScore := mapPut st.fScore n (vc + 1 + getHeuristic n goal) }

/-- Invariant of the containers of `aStar` that holds at every point of the run. -/
structure Inv (start goal : Point) (map : List Nat) (st : AStarState) : Prop where
  open_def : ∀ p ∈ st.openSet, ∃ v, st.gScore p = some v
  g_start : st.gScore start = some 0
  cf_start : st.cameFrom start = none
  g_inU : ∀ p v, st.gScore p = some v → inU p
  g_nonneg : ∀ p v, st.gScore p = some v → 0 ≤ v
  g_cf : ∀ p v, st.gScore p = some v → p ≠ start → ∃ q, st.cameFrom p = some q
  cf_edge : ∀ p q, st.cameFrom p = some q →
    p ∈ getNeighbours q map ∧ ∃ vq vp, st.gScore q = some vq ∧ st.gScore p = some vp ∧ vq + 1 ≤ vp
  f_eq : ∀ p, st.fScore p = (st.gScore p).map (fun v => v + getHeuristic p goal)

/-- Closed points (scored, not in the open set) are not the goal and have relaxed all their
neighbours; for `c`, the point being expanded, only the neighbours in `done` are covered. -/
def ClosedUpTo (goal : Point) (map : List Nat) (c : Point) (done : List Point)
    (st : AStarState) : Prop :=
  ∀ p v, st.gScore p = some v → p ∉ st.openSet →
    p ≠ goal ∧ ∀ n ∈ getNeighbours p map, (p = c → n ∈ done) →
      ∃ w, st.gScore n = some w ∧ w ≤ v + 1

/-- Closed points are not the goal and have relaxed all their neighbours. -/
def Closed (goal : Point) (map : List Nat) (st : AStarState) : Prop :=
  ∀ p v, st.gScore p = some v → p ∉ st.openSet →
    p ≠ goal ∧ ∀ n ∈ getNeighbours p map, ∃ w, st.gScore n = some w ∧ w ≤ v + 1

/-- The finite set of the points with `0 ≤ x ≤ 30` and `0 ≤ y ≤ 30`. -/
def U : Finset Point :=
  (Finset.range 31 ×ˢ Finset.range 31).image
    (fun xy => (⟨(xy.1 : Int), (xy.2 : Int)⟩ : Point))

/-- The number of points that have a `gScore`. -/
def scoredCount (st : AStarState) : Nat :=
  (U.filter (fun p => (st.gScore p).isSome = true)).card

/-- Every recorded `gScore` is below the number of scored points. -/
def Bound (st : AStarState) : Prop :=
  ∀ p v, st.gScore p = some v → v + 1 ≤ (scoredCount st : Int)

/-- The contribution of one point to the termination measure. -/
def phi (st : AStarState) (p : Point) : Nat :=
  match st.gScore p with
  | none => 1922
  | some v => 2 * v.toNat + (if p ∈ st.openSet then 1 else 0)

/-- The termination measure of the `while (!openSet.empty())` loop. -/
def potential (st : AStarState) : Nat := Finset.sum U (phi st)

/-- All loop invariants together. -/
def AllInv (start goal : Point) (map : List Nat) (st : AStarState) : Prop :=
  Inv start goal map st ∧ Closed goal map st ∧ Bound st

/-- The rest of an iteration of the loop once `current` is chosen and is not the goal. -/
def expand (goal : Point) (map : List Nat) (st : AStarState) (c : Point) : AStarState :=
  (getNeighbours c map).foldl (relaxNeighbour goal c)
    { st with openSet := setErase c st.openSet }

/-- The relation `cameFrom[a] = b`. -/
def cameFromRel (st : AStarState) (a b : Point) : Prop := st.cameFrom a = some b

/-- What a path returned through the goal branch of the loop is: the reverse of the
`cameFrom` chain from the goal back to the start, read in a state that satisfies the
invariants and has selected the goal. -/
def GoalResult (start goal : Point) (map : List Nat) (path : List Point) : Prop :=
  ∃ (st : AStarState) (s : List Point) (vg : Int),
    AllInv start goal map st ∧ findLowest st.fScore st.openSet = some goal
      ∧ st.gScore goal = some vg ∧ (s.length : Int) ≤ vg + 1
      ∧ s.head? = some goal ∧ s.getLast? = some start
      ∧ List.Chain' (cameFromRel st) s ∧ path = s.reverse

/-- What the loop returns when it empties the open set. -/
def EmptyResult (start goal : Point) (map : List Nat) (path : List Point) : Prop :=
  path = [] ∧ ∃ st : AStarState, AllInv start goal map st ∧ st.openSet = []

/-- No cell of the map is a Wall or a Coin. -/
def openGrid (map : List Nat) : Prop := ∀ c ∈ map, c ≠ wallChar ∧ c ≠ coinChar

instance (p : Point) : Decidable (inGrid p) := by
  unfold inGrid
  infer_instance

instance (a b : Point) : Decidable (unitStep a b) := by
  unfold unitStep
  infer_instance

/-! ## Concrete maps and states -/

/-- A 30x31 map of Floor cells with the player (facing up) at (29,5) (index 179), Walls on
the three neighbour cells of (29,5) inside the grid, (28,5), (29,4) and (29,6), and an Enemy
at (27,5) (index 177). -/
def walledEdgeGoalMap : List Nat :=
  (((((List.replicate 930 FLOOR).set 178 WALL).set 149 WALL).set 209 WALL).set 177 ENEMY).set
    179 PLAYER_UP

/-- A 30x31 map of Floor cells with an Enemy at (29,5), Walls at (29,6) and (28,6), and the
player (facing up) at (29,7). -/
def rightEdgeMap : List Nat :=
  ((((List.replicate 930 FLOOR).set 179 ENEMY).set 209 WALL).set 208 WALL).set 239 PLAYER_UP

/-- The spec scenario: row 0 open, an Enemy at (0,0) and the player at (4,0). -/
def openRowMap : List Nat :=
  ((List.replicate 930 FLOOR).set 0 ENEMY).set 4 PLAYER_UP

/-- A level in play: Walls on the border, Floor inside, ten Coins at (10,10) to (19,10), an
Enemy at (4,5) and the player (facing right) at (5,5). -/
def chaseMap : List Nat :=
  (((List.range 930).map (fun i =>
      if i < 30 ∨ 900 ≤ i ∨ i % 30 = 0 ∨ i % 30 = 29 then WALL
      else if 310 ≤ i ∧ i ≤ 319 then COIN else FLOOR)).set 154 ENEMY).set 155 PLAYER_RIGHT

/-- A state of the game on `chaseMap`: the player at (5,5), the door recorded at index 59
(and masked as a Wall), no coin collected yet, twenty iterations played on the level. -/
def chaseGame : Game :=
  { map := chaseMap, playerChar := PLAYER_RIGHT, playerX := 5, playerY := 5,
    playerCurrentIndex := 155, playerPreviousIndex := 155, nextLevelDoorIndex := 59,
    currentCoins := 10, playerScore := 0, currentLevel := 0, counter := 20,
    gameOver := false }

/-- An environment in which only the D key is held. -/
def chaseEnv : Env :=
  { numLevels := 3, keys := { W := false, A := false, S := false, D := true },
    initMap := fun _ => chaseMap, shuffleCoins := id, shuffleEnemies := id }

/-- The map `chaseMap` after the enemy has stepped from (4,5) to (5,5). -/
def chaseMapMoved : List Nat := (chaseMap.set 154 FLOOR).set 155 ENEMY

/-- The map `rightEdgeMap` after the enemy has left (29,5) and has been written at index 180,
the cell (0,6). -/
def rightEdgeMapMoved : List Nat := (rightEdgeMap.set 179 FLOOR).set 180 ENEMY

/-- The map `openRowMap` after the enemy has stepped from (0,0) to (1,0). -/
def openRowMapMoved : List Nat := (openRowMap.set 0 FLOOR).set 1 ENEMY

/-! ## Notions and concrete states for the placement, the neighbours and the game loop -/

/-- The indexes at which `getNeighbours` reads the map, in source order: each of the four
tests reads `map[...]` only when its bounds test holds (`&&` short-circuits). -/
def getNeighboursReads (p : Point) : List Int :=
  (if p.x > 0 then [coordConvert2T1 (p.x - 1) p.y] else [])
    ++ (if p.x < mapWidth then [coordConvert2T1 (p.x + 1) p.y] else [])
    ++ (if p.y > 0 then [coordConvert2T1 p.x (p.y - 1)] else [])
    ++ (if p.y < mapHeight - 1 then [coordConvert2T1 p.x (p.y + 1)] else [])

/-- A shuffle outcome that brings the index `k` to the front of the list. -/
def moveToFront (k : Int) (l : List Int) : List Int := k :: l.erase k

/-- A freshly loaded level: Walls on the border, Floor inside, the spawn marker at (5,5)
(index 155) and the Door in the right border at (29,1) (index 59). -/
def freshLevelMap : List Nat :=
  (((List.range 930).map (fun i =>
      if i < 30 ∨ 900 ≤ i ∨ i % 30 = 0 ∨ i % 30 = 29 then WALL else FLOOR)).set
    155 PLAYER_PLACEHOLDER).set 59 NEXT_LEVEL_DOOR

/-- A 30x31 map of Floor cells with an Enemy in the bottom right corner (29,30) (index 929),
Walls at (29,29) and (28,29), and the player (facing up) at (29,28) (index 869). -/
def cornerMap : List Nat :=
  ((((List.replicate 930 FLOOR).set 929 ENEMY).set 899 WALL).set 898 WALL).set 869 PLAYER_UP

/-- The map `cornerMap` after the enemy has left (29,30): its old cell is Floor and no cell
of the map holds it. -/
def cornerMapMoved : List Nat := cornerMap.set 929 FLOOR

/-- The last level with all coins collected: Walls on the border, the Door at (29,1)
(index 59) opened to Floor, an Enemy at (10,20) and the player (facing right) at (28,1). -/
def lastLevelMap : List Nat :=
  ((((List.range 930).map (fun i =>
      if i < 30 ∨ 900 ≤ i ∨ i % 30 = 0 ∨ i % 30 = 29 then WALL else FLOOR)).set
    59 FLOOR).set 610 ENEMY).set 58 PLAYER_RIGHT

/-- A state of the game on `lastLevelMap`: level 2 of the levels 0, 1, 2, the player next to
the open door. -/
def lastLevelGame : Game :=
  { map := lastLevelMap, playerChar := PLAYER_RIGHT, playerX := 28, playerY := 1,
    playerCurrentIndex := 58, playerPreviousIndex := 58, nextLevelDoorIndex := 59,
    currentCoins := 0, playerScore := 30, currentLevel := 2, counter := 4,
    gameOver := false }

/-- Three level files (levels 0, 1, 2; a missing file gives the empty map, as in `initMap`)
and the D key held. -/
def lastLevelEnv : Env :=
  { numLevels := 3, keys := { W := false, A := false, S := false, D := true },
    initMap := fun n => if 0 ≤ n ∧ n < 3 then freshLevelMap else [],
    shuffleCoins := id, shuffleEnemies := id }

/-- One of the four facing glyphs of the player. -/
def isFacing (c : Nat) : Prop :=
  c = PLAYER_UP ∨ c = PLAYER_DOWN ∨ c = PLAYER_LEFT ∨ c = PLAYER_RIGHT

/-- A cell that holds the player: the spawn marker or a facing glyph. -/
def isPlayerCell (c : Nat) : Prop := c = playerPlaceholderChar ∨ isFacing c

/-- How the movement of the enemies can change a cell, from `c0` to `c`: it is left alone, or
it becomes Floor or Enemy and was neither a Wall nor a Coin. -/
def enemyTouched (c0 c : Nat) : Prop :=
  c = c0 ∨ ((c = floorChar ∨ c = enemyChar) ∧ c0 ≠ wallChar ∧ c0 ≠ coinChar)

/-- The `W` test of `handlePlayerMovement`. -/
def moveW (keys : Keys) (map : List Nat) (m : Mover) : Mover :=
  if keys.W then
    if mapAt map (coordConvert2T1 m.playerX (m.playerY - 1)) = wallChar then
      { m with playerY := m.playerY - 1 + 1, playerChar := PLAYER_UP }
    else { m with playerY := m.playerY - 1, playerChar := PLAYER_UP }
  else m

/-- The `A` test of `handlePlayerMovement`. -/
def moveA (keys : Keys) (map : List Nat) (m : Mover) : Mover :=
  if keys.A then
    if mapAt map (coordConvert2T1 (m.playerX - 1) m.playerY) = wallChar then
      { m with playerX := m.playerX - 1 + 1, playerChar := PLAYER_LEFT }
    else { m with playerX := m.playerX - 1, playerChar := PLAYER_LEFT }
  else m

/-- The `S` test of `handlePlayerMovement`. -/
def moveS (keys : Keys) (map : List Nat) (m : Mover) : Mover :=
  if keys.S then
    if mapAt map (coordConvert2T1 m.playerX (m.playerY + 1)) = wallChar then
      { m with playerY := m.playerY + 1 - 1, playerChar := PLAYER_DOWN }
    else { m with playerY := m.playerY + 1, playerChar := PLAYER_DOWN }
  else m

/-- The `D` test of `handlePlayerMovement`. -/
def moveD (keys : Keys) (map : List Nat) (m : Mover) : Mover :=
  if keys.D then
    if mapAt map (coordConvert2T1 (m.playerX + 1) m.playerY) = wallChar then
      { m with playerX := m.playerX + 1 - 1, playerChar := PLAYER_RIGHT }
    else { m with playerX := m.playerX + 1, playerChar := PLAYER_RIGHT }
  else m

/-- The low byte of the cell is the code of the coin character: the test of
`getCurrentCoins`. -/
def coinLike (c : Nat) : Bool := decide (c % 256 = coinChar)

/-- The position of the player is not on a Wall. -/
def offWall (map : List Nat) (m : Mover) : Prop :=
  mapAt map (coordConvert2T1 m.playerX m.playerY) ≠ wallChar

/-- The player variables after `handlePlayerMovement` in an iteration of the game loop. -/
def movedPlayer (env : Env) (g : Game) : Mover :=
  handlePlayerMovement env.keys
    { playerX := g.playerX, playerY := g.playerY, playerChar := g.playerChar } (doorPhase g).1

/-- The index of the player's new cell: `playerCurrentIndex` after `handlePlayerMovement`. -/
def newIndex (env : Env) (g : Game) : Int :=
  coordConvert2T1 (movedPlayer env g).playerX (movedPlayer env g).playerY

/-- The variables of `main` after the movement of the player and of the enemies, `map2` being
the map the enemy movement leaves. -/
def afterMoves (env : Env) (g : Game) (map2 : List Nat) : Game :=
  { map := map2
    playerChar := (movedPlayer env g).playerChar
    playerX := (movedPlayer env g).playerX
    playerY := (movedPlayer env g).playerY
    playerCurrentIndex := newIndex env g
    playerPreviousIndex := g.playerCurrentIndex
    nextLevelDoorIndex := (doorPhase g).2
    currentCoins := getCurrentCoins (doorPhase g).1
    playerScore := g.playerScore
    currentLevel := g.currentLevel
    counter := g.counter + 1
    gameOver := g.gameOver }

/-- The variables after the two collision tests of an iteration. -/
def scored (g : Game) : Game :=
  { g with
    gameOver := if isEnemyHere g.map g.playerCurrentIndex then true else g.gameOver
    playerScore := if isCoinHere g.map g.playerCurrentIndex then g.playerScore + 1
      else g.playerScore
    currentCoins := if isCoinHere g.map g.playerCurrentIndex then g.currentCoins - 1
      else g.currentCoins }

/-- The variables after `clearDoor`. -/
def opened (g : Game) : Game :=
  { g with map := clearDoor g.map g.nextLevelDoorIndex }

/-- A state of a level in play whose door has been recorded at the index `d`: the map is the
30x31 grid, at least one iteration has been played on the level (`counter` is positive),
`nextLevelDoorIndex` is `d`, a cell of the map, `playerCurrentIndex` is the index of the
player's coordinates, the player does not stand on a Wall and `playerChar` is a facing
glyph. -/
def PlayingOn (d : Int) (g : Game) : Prop :=
  g.map.length = 930 ∧ 0 < g.counter ∧ g.nextLevelDoorIndex = d ∧ 0 ≤ d ∧ d < 930
    ∧ g.playerCurrentIndex = coordConvert2T1 g.playerX g.playerY
    ∧ mapAt g.map g.playerCurrentIndex ≠ wallChar
    ∧ isFacing g.playerChar

/-- An iteration of the game loop, for some keys held and some level files, that does not
change the level. -/
def LevelStep (g g2 : Game) : Prop :=
  ∃ env : Env, loopBody env g = some g2 ∧ g2.currentLevel = g.currentLevel

/-- A state in which the player is on the map and no other cell holds the player: the map is
the 30x31 grid, `playerCurrentIndex` is a cell of it that holds the spawn marker or a facing
glyph, no other cell does, and `playerChar` is a facing glyph. -/
def SinglePlayer (g : Game) : Prop :=
  g.map.length = 930 ∧ 0 ≤ g.playerCurrentIndex ∧ g.playerCurrentIndex < 930
    ∧ isFacing g.playerChar
    ∧ isPlayerCell (mapAt g.map g.playerCurrentIndex)
    ∧ ∀ k, isPlayerCell (mapAt g.map k) → k = g.playerCurrentIndex

/-- An iteration of the game loop, for some keys held and some level files, that runs to its
end (the level is not `numLevels`, so the loop is not left by `break`), does not change the
level and leaves the player on a cell of the map. -/
def PlacedStep (g g2 : Game) : Prop :=
  ∃ env : Env, g.currentLevel ≠ env.numLevels ∧ loopBody env g = some g2
    ∧ g2.currentLevel = g.currentLevel
    ∧ 0 ≤ g2.playerCurrentIndex ∧ g2.playerCurrentIndex < 930

/-- The level of `chaseMap` with the player (facing right) at (9,10) (index 309), next to
the Coin at (10,10). -/
def pickupMap : List Nat := (chaseMap.set 155 FLOOR).set 309 PLAYER_RIGHT

/-- A state of the game on `pickupMap`: the door recorded at index 59 (a Wall), ten coins
left, twenty-one iterations played on the level. -/
def pickupGame : Game :=
  { map := pickupMap, playerChar := PLAYER_RIGHT, playerX := 9, playerY := 10,
    playerCurrentIndex := 309, playerPreviousIndex := 308, nextLevelDoorIndex := 59,
    currentCoins := 10, playerScore := 0, currentLevel := 0, counter := 21,
    gameOver := false }

/-- The state after the iteration from `pickupGame` with the D key held: the enemies do not
move in this iteration (22 is not a multiple of `delay`). -/
def pickupGameNext : Game :=
  resolvePhase chaseEnv (afterMoves chaseEnv pickupGame pickupMap)

instance (c : Nat) : Decidable (isFacing c) :=
  inferInstanceAs
    (Decidable (c = PLAYER_UP ∨ c = PLAYER_DOWN ∨ c = PLAYER_LEFT ∨ c = PLAYER_RIGHT))

instance (c : Nat) : Decidable (isPlayerCell c) :=
  inferInstanceAs (Decidable (c = playerPlaceholderChar ∨ isFacing c))

/-- The border cells of the 30x31 grid (row 0, row 30, column 0, column 29) are all Walls. -/
def borderWalled (map : List Nat) : Prop :=
  ∀ x y : Int, inGrid ⟨x, y⟩ → (x = 0 ∨ x = mapWidth - 1 ∨ y = 0 ∨ y = mapHeight - 1) →
    mapAt map (coordConvert2T1 x y) = wallChar

/-! ## Lemmas -/

/-! ### The neighbour relation and the heuristic -/

theorem mem_four_pushes (q a b c d : Point) (c1 c2 c3 c4 : Prop) [Decidable c1] [Decidable c2]
    [Decidable c3] [Decidable c4] :
    q ∈ (let n0 : List Point := []
         let n1 := if c1 then n0 ++ [a] else n0
         let n2 := if c2 then n1 ++ [b] else n1
         let n3 := if c3 then n2 ++ [c] else n2
         let n4 := if c4 then n3 ++ [d] else n3
         n4)
      ↔ (c1 ∧ q = a) ∨ (c2 ∧ q = b) ∨ (c3 ∧ q = c) ∨ (c4 ∧ q = d) := by
  by_cases h1 : c1 <;> by_cases h2 : c2 <;> by_cases h3 : c3 <;> by_cases h4 : c4 <;>
    simp [h1, h2, h3, h4]

theorem guard_dup (A B C Q : Prop) : ((A ∧ B ∧ A ∧ C) ∧ Q) ↔ (A ∧ B ∧ C ∧ Q) := by
  tauto

theorem mem_getNeighbours (p q : Point) (map : List Nat) :
    q ∈ getNeighbours p map ↔
      (p.x > 0 ∧ cellOf map ⟨p.x - 1, p.y⟩ ≠ wallChar ∧ cellOf map ⟨p.x - 1, p.y⟩ ≠ coinChar
          ∧ q = ⟨p.x - 1, p.y⟩)
      ∨ (p.x < 30 ∧ cellOf map ⟨p.x + 1, p.y⟩ ≠ wallChar ∧ cellOf map ⟨p.x + 1, p.y⟩ ≠ coinChar
          ∧ q = ⟨p.x + 1, p.y⟩)
      ∨ (p.y > 0 ∧ cellOf map ⟨p.x, p.y - 1⟩ ≠ wallChar ∧ cellOf map ⟨p.x, p.y - 1⟩ ≠ coinChar
          ∧ q = ⟨p.x, p.y - 1⟩)
      ∨ (p.y < 30 ∧ cellOf map ⟨p.x, p.y + 1⟩ ≠ wallChar ∧ cellOf map ⟨p.x, p.y + 1⟩ ≠ coinChar
          ∧ q = ⟨p.x, p.y + 1⟩) := by
  have e : mapHeight - 1 = 30 := by decide
  have e2 : mapWidth = 30 := rfl
  unfold getNeighbours
  rw [mem_four_pushes]
  simp only [cellOf, e, e2, guard_dup]

theorem getNeighbours_cell {p q : Point} {map : List Nat} (h : q ∈ getNeighbours p map) :
    cellOf map q ≠ wallChar ∧ cellOf map q ≠ coinChar := by
  rw [mem_getNeighbours] at h
  rcases h with ⟨_, h1, h2, rfl⟩ | ⟨_, h1, h2, rfl⟩ | ⟨_, h1, h2, rfl⟩ | ⟨_, h1, h2, rfl⟩ <;>
    exact ⟨h1, h2⟩

theorem getNeighbours_unitStep {p q : Point} {map : List Nat} (h : q ∈ getNeighbours p map) :
    unitStep p q := by
  rw [mem_getNeighbours] at h
  unfold unitStep
  rcases h with ⟨_, _, _, rfl⟩ | ⟨_, _, _, rfl⟩ | ⟨_, _, _, rfl⟩ | ⟨_, _, _, rfl⟩ <;> simp

theorem getNeighbours_inU {p q : Point} {map : List Nat} (h : q ∈ getNeighbours p map)
    (hp : inU p) : inU q := by
  rw [mem_getNeighbours] at h
  unfold inU at *
  rcases h with ⟨_, _, _, rfl⟩ | ⟨_, _, _, rfl⟩ | ⟨_, _, _, rfl⟩ | ⟨_, _, _, rfl⟩ <;>
    simp <;> omega

theorem unitStep_ne {p q : Point} (h : unitStep p q) : q ≠ p := by
  intro e
  subst e
  unfold unitStep at h
  omega

theorem unitStep_heuristic {p q : Point} (g : Point) (h : unitStep p q) :
    getHeuristic p g ≤ getHeuristic q g + 1 := by
  unfold unitStep at h
  unfold getHeuristic intAbs
  split_ifs <;> omega

theorem getHeuristic_self (g : Point) : getHeuristic g g = 0 := by
  unfold getHeuristic intAbs
  simp

theorem getHeuristic_nonneg (a b : Point) : 0 ≤ getHeuristic a b := by
  unfold getHeuristic intAbs
  split_ifs <;> omega

theorem getHeuristic_le_of_inU {a b : Point} (ha : inU a) (hb : inU b) :
    getHeuristic a b ≤ 60 := by
  unfold inU at *
  unfold getHeuristic intAbs
  split_ifs <;> omega

/-! ### The open set -/

theorem Point.lt_trichotomy {p q : Point} (h1 : p.lt q = false) (h2 : q.lt p = false) :
    q = p := by
  cases p with
  | mk px py =>
    cases q with
    | mk qx qy =>
      simp only [Point.lt] at h1 h2
      simp only [Point.mk.injEq]
      split_ifs at h1 h2 <;> simp at h1 h2 <;> omega

theorem mem_setInsert (x p : Point) (l : List Point) :
    x ∈ setInsert p l ↔ x = p ∨ x ∈ l := by
  induction l with
  | nil => simp [setInsert]
  | cons q rest ih =>
    rw [setInsert]
    split_ifs with h1 h2
    · simp
    · simp only [List.mem_cons, ih]
      tauto
    · have e : q = p := Point.lt_trichotomy (by simpa using h1) (by simpa using h2)
      subst e
      simp

theorem mem_setErase (x p : Point) (l : List Point) :
    x ∈ setErase p l ↔ x ∈ l ∧ x ≠ p := by
  simp [setErase]

/-- The accumulator of the lowest-`fScore` scan: the bound only goes down, it bounds every
scanned point, and the selected point (if the accumulator changed) attains it. -/
theorem lowestStep_foldl (f : Point → Option Int) (l : List Point) (acc : Int × Option Point) :
    (∀ p ∈ l, (l.foldl (lowestStep f) acc).1 ≤ (f p).getD 0)
      ∧ (l.foldl (lowestStep f) acc).1 ≤ acc.1
      ∧ (l.foldl (lowestStep f) acc = acc
          ∨ ∃ c ∈ l, (l.foldl (lowestStep f) acc).2 = some c
              ∧ (l.foldl (lowestStep f) acc).1 = (f c).getD 0) := by
  induction l generalizing acc with
  | nil => simp
  | cons q rest ih =>
    simp only [List.foldl_cons, List.mem_cons]
    obtain ⟨h1, h2, h3⟩ := ih (lowestStep f acc q)
    have hq : (lowestStep f acc q).1 ≤ (f q).getD 0 ∧ (lowestStep f acc q).1 ≤ acc.1 := by
      unfold lowestStep
      split_ifs <;> simp <;> omega
    refine ⟨?_, by omega, ?_⟩
    · rintro p (rfl | hp)
      · omega
      · exact h1 p hp
    · rcases h3 with h3 | ⟨c, hc, hc2, hc3⟩
      · rw [h3]
        unfold lowestStep
        split_ifs
        · right
          exact ⟨q, Or.inl rfl, rfl, rfl⟩
        · left
          rfl
      · right
        exact ⟨c, Or.inr hc, hc2, hc3⟩

theorem findLowest_some {f : Point → Option Int} {l : List Point} {c : Point}
    (h : findLowest f l = some c) :
    c ∈ l ∧ ∀ p ∈ l, (f c).getD 0 ≤ (f p).getD 0 := by
  unfold findLowest at h
  obtain ⟨h1, _, h3⟩ := lowestStep_foldl f l (intMax, none)
  rcases h3 with h3 | ⟨d, hd, hd2, hd3⟩
  · rw [h3] at h
    simp at h
  · rw [hd2] at h
    cases h
    exact ⟨hd, fun p hp => hd3 ▸ h1 p hp⟩

theorem findLowest_isSome {f : Point → Option Int} {l : List Point} {p : Point}
    (hp : p ∈ l) (hlt : (f p).getD 0 < intMax) : ∃ c, findLowest f l = some c := by
  unfold findLowest
  obtain ⟨h1, _, h3⟩ := lowestStep_foldl f l (intMax, none)
  rcases h3 with h3 | ⟨d, _, hd2, _⟩
  · have := h1 p hp
    rw [h3] at this
    simp only at this
    omega
  · exact ⟨d, hd2⟩

/-! ### Invariants of the `while (!openSet.empty())` loop -/

theorem relaxNeighbour_cases (goal c : Point) (st : AStarState) (n : Point) (vc : Int)
    (hc : st.gScore c = some vc) :
    (relaxNeighbour goal c st n = st ∧ ∃ w, st.gScore n = some w ∧ w ≤ vc + 1)
      ∨ ((st.gScore n = none ∨ ∃ w, st.gScore n = some w ∧ vc + 1 < w)
          ∧ relaxNeighbour goal c st n = relaxed goal c st n vc) := by
  unfold relaxNeighbour relaxed
  simp only [hc, Option.getD_some]
  cases hn : st.gScore n with
  | none => right; simp
  | some w =>
    by_cases hlt : vc + 1 < w
    · right
      simp [hlt]
    · left
      simp [hlt]
      omega

theorem mem_relaxed_openSet (goal c : Point) (st : AStarState) (n : Point) (vc : Int)
    (p : Point) : p ∈ (relaxed goal c st n vc).openSet ↔ p = n ∨ p ∈ st.openSet := by
  unfold relaxed
  simp only
  split_ifs with h
  · constructor
    · exact Or.inr
    · rintro (rfl | h2)
      · exact h
      · exact h2
  · exact mem_setInsert p n st.openSet

theorem Inv_init (start goal : Point) (map : List Nat) (hs : inU start) :
    Inv start goal map (aStarInit start goal) := by
  constructor
  · intro p hp
    simp only [aStarInit, List.mem_singleton] at hp
    subst hp
    exact ⟨0, by simp [aStarInit, mapPut]⟩
  · simp [aStarInit, mapPut]
  · simp [aStarInit]
  · intro p v h
    simp only [aStarInit, mapPut] at h
    split_ifs at h with e
    exact e ▸ hs
  · intro p v h
    simp only [aStarInit, mapPut] at h
    split_ifs at h with e
    cases h
    exact le_refl 0
  · intro p v h hne
    simp only [aStarInit, mapPut] at h
    split_ifs at h with e
    exact absurd e hne
  · intro p q h
    simp [aStarInit] at h
  · intro p
    simp only [aStarInit, mapPut]
    split_ifs with e
    · subst e
      simp
    · simp

theorem Inv_erase {start goal : Point} {map : List Nat} {st : AStarState}
    (h : Inv start goal map st) (c : Point) :
    Inv start goal map { st with openSet := setErase c st.openSet } := by
  constructor
  · intro p hp
    exact h.open_def p ((mem_setErase p c st.openSet).1 hp).1
  · exact h.g_start
  · exact h.cf_start
  · exact h.g_inU
  · exact h.g_nonneg
  · exact h.g_cf
  · exact h.cf_edge
  · exact h.f_eq

theorem Inv_relaxed {start goal : Point} {map : List Nat} {st : AStarState} {c n : Point}
    {vc : Int} (h : Inv start goal map st) (hc : st.gScore c = some vc)
    (hn : n ∈ getNeighbours c map)
    (hup : st.gScore n = none ∨ ∃ w, st.gScore n = some w ∧ vc + 1 < w) :
    Inv start goal map (relaxed goal c st n vc) := by
  have hvc : 0 ≤ vc := h.g_nonneg c vc hc
  have hnc : n ≠ c := unitStep_ne (getNeighbours_unitStep hn)
  have hns : n ≠ start := by
    intro e
    rw [e, h.g_start] at hup
    rcases hup with hup | ⟨w, hw, hlt⟩
    · cases hup
    · cases hw
      omega
  constructor
  · intro p hp
    rw [mem_relaxed_openSet] at hp
    simp only [relaxed, mapPut]
    split_ifs with e
    · exact ⟨_, rfl⟩
    · rcases hp with hp | hp
      · exact absurd hp e
      · exact h.open_def p hp
  · simp only [relaxed, mapPut]
    rw [if_neg (Ne.symm hns)]
    exact h.g_start
  · simp only [relaxed, mapPut]
    rw [if_neg (Ne.symm hns)]
    exact h.cf_start
  · intro p v hp
    simp only [relaxed, mapPut] at hp
    split_ifs at hp with e
    · subst e
      exact getNeighbours_inU hn (h.g_inU c vc hc)
    · exact h.g_inU p v hp
  · intro p v hp
    simp only [relaxed, mapPut] at hp
    split_ifs at hp with e
    · cases hp
      omega
    · exact h.g_nonneg p v hp
  · intro p v hp hne
    simp only [relaxed, mapPut] at hp ⊢
    split_ifs at hp ⊢ with e
    · exact ⟨c, rfl⟩
    · exact h.g_cf p v hp hne
  · intro p q hpq
    simp only [relaxed, mapPut] at hpq ⊢
    split_ifs at hpq with e
    · cases hpq
      subst e
      refine ⟨hn, vc, vc + 1, ?_, ?_, le_refl _⟩
      · rw [if_neg (Ne.symm hnc)]
        exact hc
      · rw [if_pos rfl]
    · obtain ⟨hmem, vq, vp, hq, hp, hle⟩ := h.cf_edge p q hpq
      refine ⟨hmem, ?_⟩
      rw [if_neg e]
      by_cases eq : q = n
      · subst eq
        rw [if_pos rfl]
        rcases hup with hup | ⟨w, hw, hlt⟩
        · rw [hup] at hq
          cases hq
        · rw [hw] at hq
          cases hq
          exact ⟨vc + 1, vp, rfl, hp, by omega⟩
      · rw [if_neg eq]
        exact ⟨vq, vp, hq, hp, hle⟩
  · intro p
    simp only [relaxed, mapPut]
    split_ifs with e
    · subst e
      simp
    · exact h.f_eq p

theorem Inv_relaxNeighbour {start goal : Point} {map : List Nat} {st : AStarState}
    {c n : Point} {vc : Int} (h : Inv start goal map st) (hc : st.gScore c = some vc)
    (hn : n ∈ getNeighbours c map) :
    Inv start goal map (relaxNeighbour goal c st n) := by
  rcases relaxNeighbour_cases goal c st n vc hc with ⟨e, _⟩ | ⟨hup, e⟩
  · rw [e]
    exact h
  · rw [e]
    exact Inv_relaxed h hc hn hup

/-- The score of `current` and its absence from the open set are not touched by the
neighbour loop. -/
theorem relaxNeighbour_current {goal : Point} {map : List Nat} {st : AStarState} {c n : Point}
    {vc : Int} (hc : st.gScore c = some vc) (hn : n ∈ getNeighbours c map)
    (hopen : c ∉ st.openSet) :
    (relaxNeighbour goal c st n).gScore c = some vc ∧ c ∉ (relaxNeighbour goal c st n).openSet := by
  have hnc : n ≠ c := unitStep_ne (getNeighbours_unitStep hn)
  rcases relaxNeighbour_cases goal c st n vc hc with ⟨e, _⟩ | ⟨_, e⟩
  · rw [e]
    exact ⟨hc, hopen⟩
  · rw [e]
    constructor
    · simp only [relaxed, mapPut]
      rw [if_neg (Ne.symm hnc)]
      exact hc
    · rw [mem_relaxed_openSet]
      rintro (e2 | e2)
      · exact hnc e2.symm
      · exact hopen e2

theorem Closed_init (start goal : Point) (map : List Nat) :
    Closed goal map (aStarInit start goal) := by
  intro p v hp hopen
  simp only [aStarInit, mapPut] at hp hopen
  split_ifs at hp with e
  subst e
  simp at hopen

theorem ClosedUpTo_erase {goal : Point} {map : List Nat} {st : AStarState} {c : Point}
    (h : Closed goal map st) (hc : c ≠ goal) :
    ClosedUpTo goal map c [] { st with openSet := setErase c st.openSet } := by
  intro p v hp hopen
  simp only [mem_setErase] at hopen
  by_cases e : p = c
  · subst e
    refine ⟨hc, ?_⟩
    intro n _ hdone
    simp at hdone
  · have hopen2 : p ∉ st.openSet := fun hm => hopen ⟨hm, e⟩
    obtain ⟨h1, h2⟩ := h p v hp hopen2
    exact ⟨h1, fun n hn _ => h2 n hn⟩

theorem ClosedUpTo_mono {goal : Point} {map : List Nat} {st : AStarState} {c : Point}
    {d1 d2 : List Point} (h : ClosedUpTo goal map c d2 st) (hsub : ∀ n ∈ d1, n ∈ d2) :
    ClosedUpTo goal map c d1 st := by
  intro p v hp hopen
  obtain ⟨h1, h2⟩ := h p v hp hopen
  exact ⟨h1, fun n hn hd => h2 n hn (fun e => hsub n (hd e))⟩

theorem ClosedUpTo_relaxNeighbour {goal : Point} {map : List Nat} {st : AStarState}
    {c n : Point} {vc : Int} {done : List Point} (h : ClosedUpTo goal map c done st)
    (hc : st.gScore c = some vc) (hn : n ∈ getNeighbours c map) :
    ClosedUpTo goal map c (n :: done) (relaxNeighbour goal c st n) := by
  rcases relaxNeighbour_cases goal c st n vc hc with ⟨e, w, hw, hle⟩ | ⟨hup, e⟩
  · rw [e]
    intro p v hp hopen
    obtain ⟨h1, h2⟩ := h p v hp hopen
    refine ⟨h1, ?_⟩
    intro m hm hd
    by_cases em : m = n
    · subst em
      by_cases ep : p = c
      · subst ep
        rw [hc] at hp
        cases hp
        exact ⟨w, hw, hle⟩
      · exact h2 m hm (fun e2 => absurd e2 ep)
    · apply h2 m hm
      intro e2
      rcases List.mem_cons.1 (hd e2) with h3 | h3
      · exact absurd h3 em
      · exact h3
  · rw [e]
    intro p v hp hopen
    rw [mem_relaxed_openSet] at hopen
    have hpn : p ≠ n := fun e2 => hopen (Or.inl e2)
    have hopen2 : p ∉ st.openSet := fun e2 => hopen (Or.inr e2)
    simp only [relaxed, mapPut] at hp ⊢
    rw [if_neg hpn] at hp
    obtain ⟨h1, h2⟩ := h p v hp hopen2
    refine ⟨h1, ?_⟩
    intro m hm hd
    by_cases em : m = n
    · subst em
      rw [if_pos rfl]
      by_cases ep : p = c
      · subst ep
        rw [hc] at hp
        cases hp
        exact ⟨vc + 1, rfl, le_refl _⟩
      · obtain ⟨w, hw, hle⟩ := h2 m hm (fun e2 => absurd e2 ep)
        rcases hup with hup | ⟨w2, hw2, hlt⟩
        · rw [hup] at hw
          cases hw
        · rw [hw2] at hw
          cases hw
          exact ⟨vc + 1, rfl, by omega⟩
    · rw [if_neg em]
      apply h2 m hm
      intro e2
      rcases List.mem_cons.1 (hd e2) with h3 | h3
      · exact absurd h3 em
      · exact h3

/-! ### A bound on the number of iterations -/

theorem mem_U (p : Point) : p ∈ U ↔ inU p := by
  unfold U inU
  simp only [Finset.mem_image, Finset.mem_product, Finset.mem_range, Prod.exists]
  constructor
  · rintro ⟨a, b, ⟨ha, hb⟩, rfl⟩
    simp only
    omega
  · rintro ⟨h1, h2, h3, h4⟩
    refine ⟨p.x.toNat, p.y.toNat, ⟨by omega, by omega⟩, ?_⟩
    cases p with
    | mk px py =>
      simp only [Point.mk.injEq]
      simp only at h1 h2 h3 h4
      omega

theorem card_U_le : U.card ≤ 961 := by
  unfold U
  refine le_trans Finset.card_image_le ?_
  rw [Finset.card_product, Finset.card_range]

theorem scoredCount_le (st : AStarState) : scoredCount st ≤ 961 :=
  le_trans (Finset.card_le_card (Finset.filter_subset _ _)) card_U_le

theorem scoredCount_relaxed_le (goal c : Point) (st : AStarState) (n : Point) (vc : Int) :
    scoredCount st ≤ scoredCount (relaxed goal c st n vc) := by
  unfold scoredCount
  apply Finset.card_le_card
  intro p hp
  simp only [Finset.mem_filter] at hp ⊢
  refine ⟨hp.1, ?_⟩
  simp only [relaxed, mapPut]
  split_ifs
  · rfl
  · exact hp.2

theorem scoredCount_relaxed_lt (goal c : Point) (st : AStarState) (n : Point) (vc : Int)
    (hn : inU n) (hnone : st.gScore n = none) :
    scoredCount st < scoredCount (relaxed goal c st n vc) := by
  unfold scoredCount
  apply Finset.card_lt_card
  rw [Finset.ssubset_iff_of_subset]
  · refine ⟨n, ?_, ?_⟩
    · simp only [Finset.mem_filter, relaxed, mapPut]
      exact ⟨(mem_U n).2 hn, by simp⟩
    · simp [hnone]
  · intro p hp
    simp only [Finset.mem_filter] at hp ⊢
    refine ⟨hp.1, ?_⟩
    simp only [relaxed, mapPut]
    split_ifs
    · rfl
    · exact hp.2

theorem Bound_init (start goal : Point) (hs : inU start) : Bound (aStarInit start goal) := by
  intro p v hp
  simp only [aStarInit, mapPut] at hp
  split_ifs at hp with e
  cases hp
  have : 0 < scoredCount (aStarInit start goal) := by
    unfold scoredCount
    apply Finset.card_pos.2
    refine ⟨start, ?_⟩
    simp only [Finset.mem_filter]
    exact ⟨(mem_U start).2 hs, by simp [aStarInit, mapPut]⟩
  omega

theorem Bound_phi_relaxNeighbour {start goal : Point} {map : List Nat} {st : AStarState}
    {c n : Point} {vc : Int} (h : Inv start goal map st) (hb : Bound st)
    (hc : st.gScore c = some vc) (hn : n ∈ getNeighbours c map) :
    Bound (relaxNeighbour goal c st n)
      ∧ ∀ p, phi (relaxNeighbour goal c st n) p ≤ phi st p := by
  have hvc : 0 ≤ vc := h.g_nonneg c vc hc
  have hnU : inU n := getNeighbours_inU hn (h.g_inU c vc hc)
  rcases relaxNeighbour_cases goal c st n vc hc with ⟨e, _⟩ | ⟨hup, e⟩
  · rw [e]
    exact ⟨hb, fun p => le_refl _⟩
  · rw [e]
    have hmono := scoredCount_relaxed_le goal c st n vc
    have hcb := hb c vc hc
    have htop := scoredCount_le (relaxed goal c st n vc)
    constructor
    · intro p v hp
      simp only [relaxed, mapPut] at hp
      split_ifs at hp with ep
      · cases hp
        rcases hup with hup | ⟨w, hw, hlt⟩
        · have := scoredCount_relaxed_lt goal c st n vc hnU hup
          omega
        · have := hb n w hw
          omega
      · have := hb p v hp
        omega
    · intro p
      by_cases ep : p = n
      · subst ep
        have e1 : phi (relaxed goal c st p vc) p
            = 2 * (vc + 1).toNat + (if p ∈ (relaxed goal c st p vc).openSet then 1 else 0) := by
          simp [phi, relaxed, mapPut]
        rw [e1]
        rcases hup with hup | ⟨w, hw, hlt⟩
        · have := scoredCount_relaxed_lt goal c st p vc hnU hup
          have e2 : phi st p = 1922 := by simp [phi, hup]
          rw [e2]
          split_ifs <;> omega
        · have e2 : phi st p = 2 * w.toNat + (if p ∈ st.openSet then 1 else 0) := by
            simp [phi, hw]
          rw [e2]
          split_ifs <;> omega
      · have e1 : (relaxed goal c st n vc).gScore p = st.gScore p := by
          simp [relaxed, mapPut, ep]
        have e2 : (p ∈ (relaxed goal c st n vc).openSet) ↔ p ∈ st.openSet := by
          rw [mem_relaxed_openSet]
          simp [ep]
        unfold phi
        rw [e1]
        simp only [e2]
        exact le_refl _

/-- The neighbour loop as a whole keeps the invariants, covers every neighbour of `current`
and does not raise the measure of any point. -/
theorem relax_foldl {start goal : Point} {map : List Nat} {c : Point} {vc : Int}
    (l : List Point) :
    ∀ (done : List Point) (st : AStarState), (∀ n ∈ l, n ∈ getNeighbours c map) →
      Inv start goal map st → st.gScore c = some vc → c ∉ st.openSet →
      ClosedUpTo goal map c done st → Bound st →
      Inv start goal map (l.foldl (relaxNeighbour goal c) st)
        ∧ (l.foldl (relaxNeighbour goal c) st).gScore c = some vc
        ∧ c ∉ (l.foldl (relaxNeighbour goal c) st).openSet
        ∧ ClosedUpTo goal map c (l ++ done) (l.foldl (relaxNeighbour goal c) st)
        ∧ Bound (l.foldl (relaxNeighbour goal c) st)
        ∧ ∀ p, phi (l.foldl (relaxNeighbour goal c) st) p ≤ phi st p := by
  induction l with
  | nil =>
    intro done st _ hI hc hopen hcl hb
    exact ⟨hI, hc, hopen, hcl, hb, fun p => le_refl _⟩
  | cons n rest ih =>
    intro done st hl hI hc hopen hcl hb
    have hn : n ∈ getNeighbours c map := hl n (List.mem_cons_self n rest)
    have hrest : ∀ m ∈ rest, m ∈ getNeighbours c map :=
      fun m hm => hl m (List.mem_cons_of_mem n hm)
    obtain ⟨hc2, hopen2⟩ := @relaxNeighbour_current goal map st c n vc hc hn hopen
    obtain ⟨hb2, hphi2⟩ := Bound_phi_relaxNeighbour hI hb hc hn
    obtain ⟨r1, r2, r3, r4, r5, r6⟩ :=
      ih (n :: done) (relaxNeighbour goal c st n) hrest (Inv_relaxNeighbour hI hc hn) hc2 hopen2
        (ClosedUpTo_relaxNeighbour hcl hc hn) hb2
    simp only [List.foldl_cons]
    refine ⟨r1, r2, r3, ?_, r5, fun p => le_trans (r6 p) (hphi2 p)⟩
    apply ClosedUpTo_mono r4
    intro m hm
    simp only [List.cons_append, List.mem_cons, List.mem_append] at hm ⊢
    tauto

theorem AllInv_init (start goal : Point) (map : List Nat) (hs : inU start) :
    AllInv start goal map (aStarInit start goal) :=
  ⟨Inv_init start goal map hs, Closed_init start goal map, Bound_init start goal hs⟩

theorem phi_erase_le (st : AStarState) (c p : Point) :
    phi { st with openSet := setErase c st.openSet } p ≤ phi st p := by
  unfold phi
  simp only [mem_setErase]
  cases st.gScore p with
  | none => exact le_refl _
  | some v =>
    simp only
    split_ifs with h1 h2
    · exact le_refl _
    · exact absurd h1.1 h2
    · omega
    · exact le_refl _

theorem phi_erase_lt (st : AStarState) (c : Point) (vc : Int) (hc : st.gScore c = some vc)
    (hopen : c ∈ st.openSet) :
    phi { st with openSet := setErase c st.openSet } c < phi st c := by
  unfold phi
  simp only [mem_setErase, hc, hopen]
  simp

theorem AllInv_expand {start goal : Point} {map : List Nat} {st : AStarState} {c : Point}
    (h : AllInv start goal map st) (hc : c ∈ st.openSet) (hg : c ≠ goal) :
    AllInv start goal map (expand goal map st c)
      ∧ potential (expand goal map st c) < potential st := by
  obtain ⟨hI, hC, hB⟩ := h
  obtain ⟨vc, hvc⟩ := hI.open_def c hc
  have hopen : c ∉ setErase c st.openSet := by
    rw [mem_setErase]
    exact fun e => e.2 rfl
  obtain ⟨r1, _, _, r4, r5, r6⟩ :=
    @relax_foldl start goal map c vc
      (getNeighbours c map) [] { st with openSet := setErase c st.openSet }
      (fun n hn => hn) (Inv_erase hI c) hvc hopen (ClosedUpTo_erase hC hg) hB
  refine ⟨⟨r1, ?_, r5⟩, ?_⟩
  · intro p v hp hpo
    obtain ⟨h1, h2⟩ := r4 p v hp hpo
    exact ⟨h1, fun n hn => h2 n hn (fun e => by subst e; simpa using hn)⟩
  · unfold potential
    apply Finset.sum_lt_sum
    · intro p _
      exact le_trans (r6 p) (phi_erase_le st c p)
    · refine ⟨c, (mem_U c).2 (hI.g_inU c vc hvc), ?_⟩
      exact lt_of_le_of_lt (r6 c) (phi_erase_lt st c vc hvc hc)

/-! ### Path reconstruction -/

theorem reconstructLoop_spec (st : AStarState) :
    ∀ (fuel : Nat) (p : Point) (acc path : List Point),
      reconstructLoop st.cameFrom fuel p acc = some path →
      ∃ chain e, path = acc ++ chain ∧ st.cameFrom e = none
        ∧ List.Chain' (cameFromRel st) (chain ++ [e]) ∧ (chain ++ [e]).head? = some p := by
  intro fuel
  induction fuel with
  | zero =>
    intro p acc path h
    simp [reconstructLoop] at h
  | succ fuel ih =>
    intro p acc path h
    rw [reconstructLoop] at h
    cases hcf : st.cameFrom p with
    | none =>
      rw [hcf] at h
      simp only [Option.some.injEq] at h
      exact ⟨[], p, by simp [h], hcf, by simp, by simp⟩
    | some prev =>
      rw [hcf] at h
      simp only at h
      obtain ⟨chain, e, h1, h2, h3, h4⟩ := ih prev (acc ++ [p]) path h
      refine ⟨p :: chain, e, by simp [h1], h2, ?_, by simp⟩
      rw [List.cons_append, List.chain'_cons']
      refine ⟨?_, h3⟩
      intro y hy
      rw [h4] at hy
      cases hy
      exact hcf

theorem reconstructLoop_isSome {start goal : Point} {map : List Nat} {st : AStarState}
    (h : Inv start goal map st) :
    ∀ (fuel : Nat) (p : Point) (v : Int) (acc : List Point), st.gScore p = some v →
      v.toNat < fuel → ∃ path, reconstructLoop st.cameFrom fuel p acc = some path := by
  intro fuel
  induction fuel with
  | zero =>
    intro p v acc _ hlt
    omega
  | succ fuel ih =>
    intro p v acc hp hlt
    rw [reconstructLoop]
    cases hcf : st.cameFrom p with
    | none => exact ⟨acc, rfl⟩
    | some prev =>
      simp only
      obtain ⟨_, vq, vp, hq, hp2, hle⟩ := h.cf_edge p prev hcf
      rw [hp] at hp2
      cases hp2
      have := h.g_nonneg prev vq hq
      exact ih prev vq (acc ++ [p]) hq (by omega)

theorem cameFrom_chain_scored {start goal : Point} {map : List Nat} {st : AStarState}
    (h : Inv start goal map st) :
    ∀ (s : List Point) (p : Point) (v : Int), List.Chain' (cameFromRel st) s →
      s.head? = some p → st.gScore p = some v →
      (s.length : Int) ≤ v + 1 ∧ ∀ x ∈ s, ∃ w, st.gScore x = some w := by
  intro s
  induction s with
  | nil =>
    intro p v _ hh _
    simp at hh
  | cons a rest ih =>
    intro p v hch hh hp
    simp only [List.head?_cons, Option.some.injEq] at hh
    subst hh
    cases rest with
    | nil =>
      have := h.g_nonneg a v hp
      refine ⟨by simp; omega, ?_⟩
      intro x hx
      simp only [List.mem_singleton] at hx
      subst hx
      exact ⟨v, hp⟩
    | cons b rest2 =>
      rw [List.chain'_cons] at hch
      obtain ⟨hab, hch2⟩ := hch
      obtain ⟨_, vq, vp, hq, hp2, hle⟩ := h.cf_edge a b hab
      rw [hp] at hp2
      cases hp2
      obtain ⟨i1, i2⟩ := ih b vq hch2 rfl hq
      constructor
      · simp only [List.length_cons] at i1 ⊢
        push_cast at i1 ⊢
        omega
      · intro x hx
        rcases List.mem_cons.1 hx with e | e
        · subst e
          exact ⟨v, hp⟩
        · exact i2 x e

theorem aStarLoop_result {start goal : Point} {map : List Nat} :
    ∀ (fuel : Nat) (st : AStarState) (path : List Point), AllInv start goal map st →
      aStarLoop start goal map fuel st = some path →
      EmptyResult start goal map path ∨ GoalResult start goal map path := by
  intro fuel
  induction fuel with
  | zero =>
    intro st path _ h
    simp [aStarLoop] at h
  | succ fuel ih =>
    intro st path hA h
    rw [aStarLoop] at h
    by_cases hempty : st.openSet = []
    · rw [if_pos hempty] at h
      cases h
      exact Or.inl ⟨rfl, st, hA, hempty⟩
    · rw [if_neg hempty] at h
      cases hlow : findLowest st.fScore st.openSet with
      | none =>
        rw [hlow] at h
        cases h
      | some c =>
        rw [hlow] at h
        simp only at h
        have hc := (findLowest_some hlow).1
        by_cases hgoal : c.x = goal.x ∧ c.y = goal.y
        · rw [if_pos hgoal] at h
          have ec : c = goal := by
            cases c
            cases goal
            simp only [Point.mk.injEq]
            exact hgoal
          subst ec
          cases hrec : reconstructLoop st.cameFrom fuel c [] with
          | none =>
            rw [hrec] at h
            cases h
          | some chain0 =>
            rw [hrec] at h
            simp only [Option.some.injEq] at h
            obtain ⟨chain, e, h1, h2, h3, h4⟩ := reconstructLoop_spec st fuel c [] chain0 hrec
            obtain ⟨vg, hvg⟩ := hA.1.open_def c hc
            obtain ⟨i1, i2⟩ := cameFrom_chain_scored hA.1 (chain ++ [e]) c vg h3 h4 hvg
            obtain ⟨we, hwe⟩ := i2 e (by simp)
            have ee : e = start := by
              by_contra hne
              obtain ⟨q, hq⟩ := hA.1.g_cf e we hwe hne
              rw [h2] at hq
              cases hq
            subst ee
            right
            refine ⟨st, chain ++ [e], vg, hA, hlow, hvg, i1, h4, by simp, h3, ?_⟩
            rw [← h]
            simp [h1]
        · rw [if_neg hgoal] at h
          have hne : c ≠ goal := by
            intro e
            subst e
            exact hgoal ⟨rfl, rfl⟩
          exact ih _ path (AllInv_expand hA hc hne).1 h

/-! ### Termination -/

theorem phi_le {start goal : Point} {map : List Nat} {st : AStarState}
    (h : AllInv start goal map st) (p : Point) : phi st p ≤ 1922 := by
  unfold phi
  cases hp : st.gScore p with
  | none => exact le_refl _
  | some v =>
    simp only
    have h1 := h.2.2 p v hp
    have h2 := scoredCount_le st
    split_ifs <;> omega

theorem sum_le_of_card (s : Finset Point) (f : Point → Nat) (n c b : Nat) (hc : s.card ≤ c)
    (hf : ∀ p, f p ≤ n) (hb : c * n ≤ b) : Finset.sum s f ≤ b := by
  have h1 : Finset.sum s f ≤ Finset.sum s (fun _ => n) := Finset.sum_le_sum (fun p _ => hf p)
  rw [Finset.sum_const, smul_eq_mul] at h1
  exact le_trans h1 (le_trans (Nat.mul_le_mul_right n hc) hb)

theorem potential_le {start goal : Point} {map : List Nat} {st : AStarState}
    (h : AllInv start goal map st) : potential st ≤ 1847042 :=
  sum_le_of_card U (phi st) 1922 961 1847042 card_U_le (fun p => phi_le h p) (by norm_num)

theorem aStarLoop_isSome {start goal : Point} {map : List Nat} (hg : inU goal) :
    ∀ (fuel : Nat) (st : AStarState), AllInv start goal map st → potential st + 962 < fuel →
      ∃ path, aStarLoop start goal map fuel st = some path := by
  intro fuel
  induction fuel with
  | zero =>
    intro st _ h
    omega
  | succ fuel ih =>
    intro st hA hfuel
    rw [aStarLoop]
    by_cases hempty : st.openSet = []
    · rw [if_pos hempty]
      exact ⟨[], rfl⟩
    · rw [if_neg hempty]
      obtain ⟨p, hp⟩ := List.exists_mem_of_ne_nil st.openSet hempty
      obtain ⟨v, hv⟩ := hA.1.open_def p hp
      have hf : (st.fScore p).getD 0 < intMax := by
        rw [hA.1.f_eq p, hv]
        simp only [Option.map_some', Option.getD_some, intMax]
        have h1 := hA.2.2 p v hv
        have h2 := scoredCount_le st
        have h3 := getHeuristic_le_of_inU (hA.1.g_inU p v hv) hg
        omega
      obtain ⟨c, hlow⟩ := findLowest_isSome hp hf
      rw [hlow]
      simp only
      have hc := (findLowest_some hlow).1
      by_cases hgoal : c.x = goal.x ∧ c.y = goal.y
      · rw [if_pos hgoal]
        obtain ⟨vc, hvc⟩ := hA.1.open_def c hc
        have h1 := hA.2.2 c vc hvc
        have h2 := scoredCount_le st
        obtain ⟨chain, hchain⟩ :=
          reconstructLoop_isSome hA.1 fuel c vc [] hvc (by omega)
        rw [hchain]
        exact ⟨_, rfl⟩
      · rw [if_neg hgoal]
        have hne : c ≠ goal := by
          intro e
          subst e
          exact hgoal ⟨rfl, rfl⟩
        obtain ⟨hA2, hpot⟩ := AllInv_expand hA hc hne
        exact ih (expand goal map st c) hA2 (by omega)

/-- The function `aStar` returns on every start and goal of the reachable point range. -/
theorem aStar_isSome {start goal : Point} (map : List Nat) (hs : inU start) (hg : inU goal) :
    ∃ path, aStar start goal map = some path := by
  unfold aStar
  apply aStarLoop_isSome hg _ _ (AllInv_init start goal map hs)
  have := potential_le (AllInv_init start goal map hs)
  unfold aStarFuel
  omega

theorem aStar_result {start goal : Point} {map : List Nat} {path : List Point}
    (hs : inU start) (h : aStar start goal map = some path) :
    EmptyResult start goal map path ∨ GoalResult start goal map path :=
  aStarLoop_result aStarFuel _ path (AllInv_init start goal map hs) h

theorem inGrid_inU {p : Point} (h : inGrid p) : inU p := by
  unfold inGrid at h
  unfold inU
  omega

/-! ### What a returned path is -/

theorem GoalResult_walk {start goal : Point} {map : List Nat} {path : List Point}
    (h : GoalResult start goal map path) :
    path.head? = some start ∧ path.getLast? = some goal ∧ isWalk map path := by
  obtain ⟨st, s, vg, hA, _, _, _, h1, h2, h3, rfl⟩ := h
  refine ⟨by rw [List.head?_reverse, h2], by rw [List.getLast?_reverse, h1], ?_⟩
  unfold isWalk
  rw [List.chain'_reverse]
  apply List.Chain'.imp _ h3
  intro a b hab
  exact (hA.1.cf_edge a b hab).1

theorem isWalk_heuristic (map : List Nat) (goal : Point) :
    ∀ (w : List Point) (p : Point), isWalk map w → w.head? = some p →
      w.getLast? = some goal → getHeuristic p goal + 1 ≤ (w.length : Int) := by
  intro w
  induction w with
  | nil =>
    intro p _ hh _
    simp at hh
  | cons a rest ih =>
    intro p hw hh hl
    simp only [List.head?_cons, Option.some.injEq] at hh
    subst hh
    cases rest with
    | nil =>
      simp only [List.getLast?_singleton, Option.some.injEq] at hl
      subst hl
      rw [getHeuristic_self]
      simp
    | cons b rest2 =>
      unfold isWalk at hw
      rw [List.chain'_cons] at hw
      rw [List.getLast?_cons_cons] at hl
      have i := ih b hw.2 rfl hl
      have hstep := unitStep_heuristic goal (getNeighbours_unitStep hw.1)
      simp only [List.length_cons] at i ⊢
      push_cast at i ⊢
      omega

/-- Along every walk to the goal that starts at a scored point there is an open point whose
`fScore` is at most the score of the first point plus the number of steps of the walk. -/
theorem frontier {start goal : Point} {map : List Nat} {st : AStarState}
    (hA : AllInv start goal map st) :
    ∀ (w : List Point) (p : Point) (v : Int), isWalk map w → w.head? = some p →
      w.getLast? = some goal → st.gScore p = some v →
      ∃ q ∈ st.openSet, (st.fScore q).getD 0 + 1 ≤ v + (w.length : Int) := by
  intro w
  induction w with
  | nil =>
    intro p v _ hh _ _
    simp at hh
  | cons a rest ih =>
    intro p v hw hh hl hp
    simp only [List.head?_cons, Option.some.injEq] at hh
    subst hh
    by_cases hopen : a ∈ st.openSet
    · refine ⟨a, hopen, ?_⟩
      have := isWalk_heuristic map goal (a :: rest) a hw rfl hl
      rw [hA.1.f_eq a, hp]
      simp only [Option.map_some', Option.getD_some]
      omega
    · obtain ⟨hne, hnb⟩ := hA.2.1 a v hp hopen
      cases rest with
      | nil =>
        simp only [List.getLast?_singleton, Option.some.injEq] at hl
        exact absurd hl hne
      | cons b rest2 =>
        unfold isWalk at hw
        rw [List.chain'_cons] at hw
        rw [List.getLast?_cons_cons] at hl
        obtain ⟨wb, hwb, hle⟩ := hnb b hw.1
        obtain ⟨q, hq, hqf⟩ := ih b wb hw.2 rfl hl hwb
        refine ⟨q, hq, ?_⟩
        simp only [List.length_cons] at hqf ⊢
        push_cast at hqf ⊢
        omega

theorem GoalResult_shortest {start goal : Point} {map : List Nat} {path : List Point}
    (h : GoalResult start goal map path) (w : List Point) (hw : isWalk map w)
    (hh : w.head? = some start) (hl : w.getLast? = some goal) :
    path.length ≤ w.length := by
  obtain ⟨st, s, vg, hA, hlow, hvg, hlen, _, _, _, rfl⟩ := h
  obtain ⟨q, hq, hqf⟩ := frontier hA w start 0 hw hh hl hA.1.g_start
  have hmin := (findLowest_some hlow).2 q hq
  rw [hA.1.f_eq goal, hvg] at hmin
  simp only [Option.map_some', Option.getD_some, getHeuristic_self] at hmin
  rw [List.length_reverse]
  omega

theorem isWalk_cells (map : List Nat) :
    ∀ (w : List Point), isWalk map w → ∀ p ∈ w,
      w.head? = some p ∨ (cellOf map p ≠ wallChar ∧ cellOf map p ≠ coinChar) := by
  intro w
  induction w with
  | nil =>
    intro _ p hp
    simp at hp
  | cons a rest ih =>
    intro hw p hp
    rcases List.mem_cons.1 hp with e | e
    · left
      simp [e]
    · right
      cases rest with
      | nil => simp at e
      | cons b rest2 =>
        unfold isWalk at hw
        rw [List.chain'_cons] at hw
        rcases ih hw.2 p e with h1 | h1
        · simp only [List.head?_cons, Option.some.injEq] at h1
          subst h1
          exact getNeighbours_cell hw.1
        · exact h1

theorem isWalk_unitSteps (map : List Nat) (w : List Point) (hw : isWalk map w) :
    List.Chain' unitStep w :=
  List.Chain'.imp (fun _ _ h => getNeighbours_unitStep h) hw

theorem openGrid_cellOf {map : List Nat} (h : openGrid map) (p : Point) :
    cellOf map p ≠ wallChar ∧ cellOf map p ≠ coinChar := by
  unfold cellOf mapAt
  split_ifs
  · rw [List.getD_eq_getElem?_getD]
    cases hget : map[(coordConvert2T1 p.x p.y).toNat]? with
    | none => simp [wallChar, coinChar, WALL, COIN]
    | some c =>
      simp only [Option.getD_some]
      exact h c (List.getElem?_mem hget)
  · simp [wallChar, coinChar, WALL, COIN]

/-- On an open grid two points of the reachable range are joined by a walk with as many
steps as their Manhattan distance. -/
theorem openGrid_walk {map : List Nat} (h : openGrid map) (b : Point) (hb : inU b) :
    ∀ (n : Nat) (a : Point), inU a → getHeuristic a b = (n : Int) →
      ∃ w, isWalk map w ∧ w.head? = some a ∧ w.getLast? = some b ∧ w.length = n + 1 := by
  intro n
  induction n with
  | zero =>
    intro a ha hd
    have e : a = b := by
      cases a
      cases b
      simp only [getHeuristic, intAbs] at hd
      simp only [Point.mk.injEq]
      split_ifs at hd <;> omega
    subst e
    exact ⟨[a], by simp [isWalk], rfl, rfl, rfl⟩
  | succ n ih =>
    intro a ha hd
    have key : ∃ q, q ∈ getNeighbours a map ∧ inU q ∧ getHeuristic q b = (n : Int) := by
      unfold inU at ha hb
      by_cases h1 : a.x < b.x
      · refine ⟨⟨a.x + 1, a.y⟩, ?_, ?_, ?_⟩
        · rw [mem_getNeighbours]
          right; left
          exact ⟨by omega, (openGrid_cellOf h _).1, (openGrid_cellOf h _).2, rfl⟩
        · unfold inU
          simp only
          omega
        · simp only [getHeuristic, intAbs] at hd ⊢
          push_cast at hd
          split_ifs at hd ⊢ <;> omega
      · by_cases h2 : b.x < a.x
        · refine ⟨⟨a.x - 1, a.y⟩, ?_, ?_, ?_⟩
          · rw [mem_getNeighbours]
            left
            exact ⟨by omega, (openGrid_cellOf h _).1, (openGrid_cellOf h _).2, rfl⟩
          · unfold inU
            simp only
            omega
          · simp only [getHeuristic, intAbs] at hd ⊢
            push_cast at hd
            split_ifs at hd ⊢ <;> omega
        · by_cases h3 : a.y < b.y
          · refine ⟨⟨a.x, a.y + 1⟩, ?_, ?_, ?_⟩
            · rw [mem_getNeighbours]
              right; right; right
              exact ⟨by omega, (openGrid_cellOf h _).1, (openGrid_cellOf h _).2, rfl⟩
            · unfold inU
              simp only
              omega
            · simp only [getHeuristic, intAbs] at hd ⊢
              push_cast at hd
              split_ifs at hd ⊢ <;> omega
          · refine ⟨⟨a.x, a.y - 1⟩, ?_, ?_, ?_⟩
            · rw [mem_getNeighbours]
              right; right; left
              simp only [getHeuristic, intAbs] at hd
              push_cast at hd
              refine ⟨?_, (openGrid_cellOf h _).1, (openGrid_cellOf h _).2, rfl⟩
              split_ifs at hd <;> omega
            · unfold inU
              simp only [getHeuristic, intAbs] at hd ⊢
              push_cast at hd
              split_ifs at hd <;> omega
            · simp only [getHeuristic, intAbs] at hd ⊢
              push_cast at hd
              split_ifs at hd ⊢ <;> omega
    obtain ⟨q, hq1, hq2, hq3⟩ := key
    obtain ⟨w, hw1, hw2, hw3, hw4⟩ := ih q hq2 hq3
    refine ⟨a :: w, ?_, rfl, ?_, by simp [hw4]⟩
    · unfold isWalk
      rw [List.chain'_cons']
      refine ⟨?_, hw1⟩
      intro y hy
      rw [hw2] at hy
      cases hy
      exact hq1
    · cases w with
      | nil => simp at hw4
      | cons c rest =>
        rw [List.getLast?_cons_cons]
        exact hw3

/-! ### Enumerating the enemies in one pass -/

theorem mapAt_append_length (pre : List Nat) (c : Nat) (rest : List Nat) :
    mapAt (pre ++ c :: rest) (Int.ofNat pre.length) = c := by
  unfold mapAt
  have h0 : (0 : Int) ≤ Int.ofNat pre.length := Int.ofNat_zero_le pre.length
  rw [if_pos h0]
  show (pre ++ c :: rest).getD pre.length 0 = c
  rw [List.getD_eq_getElem?_getD, List.getElem?_append_right (le_refl _)]
  simp

theorem enemyScan_spec (rest : List Nat) :
    ∀ pre : List Nat,
      ((List.range' pre.length rest.length).map Int.ofNat).filter
          (fun i => decide (mapAt (pre ++ rest) i = enemyChar))
        = enemyScan pre.length rest := by
  induction rest with
  | nil =>
    intro pre
    simp [enemyScan]
  | cons c rest ih =>
    intro pre
    have h := ih (pre ++ [c])
    simp only [List.length_append, List.length_singleton, List.append_assoc,
      List.singleton_append] at h
    simp only [List.length_cons, List.range'_succ, List.map_cons, List.filter_cons,
      mapAt_append_length, enemyScan]
    rw [h]
    split_ifs with h1 h2 h2
    · rfl
    · simp at h1
      exact absurd h1 h2
    · simp at h1
      exact absurd h2 h1
    · rfl

theorem getEnemyIndexes_eq_enemyScan (map : List Nat) (hlen : map.length = 930) :
    getEnemyIndexes map = enemyScan 0 map := by
  have h := enemyScan_spec map []
  simp only [List.length_nil, List.nil_append, hlen] at h
  rw [← h]
  unfold getEnemyIndexes
  rw [List.range_eq_range']
  rfl

/-- An iteration of the game loop, from the results of its phases. -/
theorem loopBody_of_phases (env : Env) (g : Game) (map1 : List Nat) (door : Int)
    (moved : Mover) (map2 : List Nat) (hd : doorPhase g = (map1, door))
    (hm : handlePlayerMovement env.keys
      { playerX := g.playerX, playerY := g.playerY, playerChar := g.playerChar } map1 = moved)
    (hen : enemyPhase (g.counter + 1) map1 (coordConvert2T1 moved.playerX moved.playerY)
      = some map2) :
    loopBody env g = some (resolvePhase env
      { map := map2
        playerChar := moved.playerChar
        playerX := moved.playerX
        playerY := moved.playerY
        playerCurrentIndex := coordConvert2T1 moved.playerX moved.playerY
        playerPreviousIndex := g.playerCurrentIndex
        nextLevelDoorIndex := door
        currentCoins := getCurrentCoins map1
        playerScore := g.playerScore
        currentLevel := g.currentLevel
        counter := g.counter + 1
        gameOver := g.gameOver }) := by
  unfold loopBody
  simp only [hd, hm, hen]

/-! ### Entity placement -/

theorem mem_eligibleCells (map : List Nat) (playerChar : Nat) (i : Int) :
    i ∈ eligibleCells map playerChar ↔
      30 ≤ i ∧ i < 930 ∧ mapAt map i ≠ wallChar ∧ mapAt map i ≠ enemyChar
        ∧ mapAt map i ≠ playerChar ∧ mapAt map i ≠ coinChar := by
  have e1 : mapWidth.toNat = 30 := by decide
  have e2 : (mapHeight * mapWidth - mapWidth).toNat = 900 := by decide
  unfold eligibleCells
  rw [e1, e2]
  simp only [List.mem_filter, List.mem_map, List.mem_range', decide_eq_true_eq]
  constructor
  · rintro ⟨⟨a, ⟨k, hk, rfl⟩, rfl⟩, h⟩
    refine ⟨?_, ?_, h⟩
    · show (30 : Int) ≤ ((30 + 1 * k : Nat) : Int)
      omega
    · show ((30 + 1 * k : Nat) : Int) < 930
      omega
  · rintro ⟨h1, h2, h⟩
    refine ⟨⟨i.toNat, ⟨i.toNat - 30, by omega, by omega⟩, ?_⟩, h⟩
    show ((i.toNat : Nat) : Int) = i
    omega

theorem nodup_eligibleCells (map : List Nat) (playerChar : Nat) :
    (eligibleCells map playerChar).Nodup := by
  unfold eligibleCells
  apply List.Nodup.filter
  apply List.Nodup.map _ (List.nodup_range' _ _)
  intro a b h
  exact Int.ofNat.inj h

theorem placeLoop_eq_foldl (cells : List Int) (ch : Nat) :
    ∀ (n i : Nat) (map : List Nat),
      placeLoop cells ch n i map
        = ((cells.drop i).take n).foldl (fun m c => mapSet m c ch) map := by
  intro n
  induction n with
  | zero =>
    intro i map
    simp [placeLoop]
  | succ n ih =>
    intro i map
    rw [placeLoop]
    split_ifs with h
    · rw [ih, List.drop_eq_getElem_cons h]
      simp only [List.take_succ_cons, List.foldl_cons]
      rw [List.getD_eq_getElem cells 0 h]
    · rw [List.drop_eq_nil_of_le (by omega)]
      simp

theorem foldl_mapSet (ch : Nat) (cs : List Int) :
    ∀ (map : List Nat), (∀ c ∈ cs, 0 ≤ c) →
      (cs.foldl (fun m c => mapSet m c ch) map).length = map.length
        ∧ ∀ j : Nat, (cs.foldl (fun m c => mapSet m c ch) map).getD j 0
            = if (j : Int) ∈ cs ∧ j < map.length then ch else map.getD j 0 := by
  induction cs with
  | nil =>
    intro map _
    simp
  | cons c rest ih =>
    intro map hpos
    have hc : 0 ≤ c := hpos c (List.mem_cons_self c rest)
    obtain ⟨h1, h2⟩ := ih (mapSet map c ch) (fun d hd => hpos d (List.mem_cons_of_mem c hd))
    have hset : mapSet map c ch = map.set c.toNat ch := by
      unfold mapSet
      rw [if_pos hc]
    simp only [List.foldl_cons]
    rw [hset] at h1 h2
    rw [hset]
    refine ⟨by rw [h1, List.length_set], ?_⟩
    intro j
    rw [h2 j, List.length_set]
    by_cases hj : j < map.length
    · by_cases hcj : c = (j : Int)
      · have e : c.toNat = j := by omega
        simp only [List.mem_cons, hj, and_true]
        rw [if_pos (Or.inl hcj.symm)]
        split_ifs
        · rfl
        · rw [e, List.getD_eq_getElem?_getD, List.getElem?_set_self (by simpa using hj)]
          rfl
      · have e : c.toNat ≠ j := by omega
        simp only [List.mem_cons, hj, and_true]
        have e3 : ((j : Int) = c ∨ (j : Int) ∈ rest) ↔ (j : Int) ∈ rest := by
          constructor
          · rintro (h | h)
            · exact absurd h.symm hcj
            · exact h
          · exact Or.inr
        rw [List.getD_eq_getElem?_getD, List.getElem?_set_ne e, ← List.getD_eq_getElem?_getD]
        simp only [e3]
    · simp only [hj, and_false, if_false]
      rw [List.getD_eq_getElem?_getD, List.getD_eq_getElem?_getD]
      rw [List.getElem?_eq_none (by rw [List.length_set]; omega),
        List.getElem?_eq_none (by omega)]

theorem placeLoop_spec (map : List Nat) (playerChar : Nat) (ch : Nat) (cells : List Int)
    (N : Int) (hlen : map.length = 930) (hN : 0 ≤ N)
    (hperm : cells.Perm (eligibleCells map playerChar))
    (hne : ∀ c ∈ eligibleCells map playerChar, mapAt map c ≠ ch) :
    PlacementSpec ch map playerChar N (placeLoop cells ch N.toNat 0 map) := by
  have hmem : ∀ c, c ∈ cells ↔ c ∈ eligibleCells map playerChar := fun c => hperm.mem_iff
  have hnodup : cells.Nodup := hperm.nodup_iff.2 (nodup_eligibleCells map playerChar)
  have hrange : ∀ c ∈ cells, 0 ≤ c ∧ c < 930 := by
    intro c hc
    have := (mem_eligibleCells map playerChar c).1 ((hmem c).1 hc)
    omega
  have htake : ∀ c, c ∈ cells.take N.toNat → c ∈ cells := fun c hc => List.mem_of_mem_take hc
  obtain ⟨hl, hget⟩ := foldl_mapSet ch (cells.take N.toNat) map
    (fun c hc => (hrange c (htake c hc)).1)
  have hnew : placeLoop cells ch N.toNat 0 map
      = (cells.take N.toNat).foldl (fun m c => mapSet m c ch) map := by
    rw [placeLoop_eq_foldl, List.drop_zero]
  rw [hnew]
  have hold : ∀ j : Nat, (j : Int) ∈ cells → map.getD j 0 ≠ ch := by
    intro j hj
    have := hne (j : Int) ((hmem _).1 hj)
    unfold mapAt at this
    rw [if_pos (by omega)] at this
    simpa using this
  have hchanged : ∀ j : Nat, j ∈ changedCells map
      ((cells.take N.toNat).foldl (fun m c => mapSet m c ch) map)
        ↔ (j : Int) ∈ cells.take N.toNat := by
    intro j
    unfold changedCells
    simp only [List.mem_filter, List.mem_range, decide_eq_true_eq, hget j]
    constructor
    · rintro ⟨h1, h2⟩
      by_contra hcon
      rw [if_neg (fun h => hcon h.1)] at h2
      exact h2 rfl
    · intro h
      have hj : j < map.length := by
        have := (hrange _ (htake _ h)).2
        omega
      refine ⟨hj, ?_⟩
      rw [if_pos ⟨h, hj⟩]
      exact fun e => hold j (htake _ h) e.symm
  refine ⟨hl, ?_, ?_, ?_, ?_⟩
  · have hperm2 : (changedCells map
        ((cells.take N.toNat).foldl (fun m c => mapSet m c ch) map)).Perm
        ((cells.take N.toNat).map Int.toNat) := by
      rw [List.perm_ext_iff_of_nodup]
      · intro j
        rw [hchanged j, List.mem_map]
        constructor
        · intro h
          exact ⟨(j : Int), h, by simp⟩
        · rintro ⟨c, hc, rfl⟩
          have := (hrange c (htake c hc)).1
          have e : ((c.toNat : Nat) : Int) = c := by omega
          rw [e]
          exact hc
      · unfold changedCells
        exact List.Nodup.filter _ (List.nodup_range _)
      · apply List.Nodup.map_on _ (hnodup.sublist (List.take_sublist _ _))
        intro a ha b hb hab
        have h1 := (hrange a (htake a ha)).1
        have h2 := (hrange b (htake b hb)).1
        omega
    rw [hperm2.length_eq, List.length_map, List.length_take, hperm.length_eq]
    omega
  · intro i hi
    have h := (hchanged i).1 hi
    have hj : i < map.length := by
      have := (hrange _ (htake _ h)).2
      omega
    rw [hget i, if_pos ⟨h, hj⟩]
  · intro i hi
    rw [hget i]
    split_ifs with h
    · exact absurd ((hchanged i).2 h.1) hi
    · rfl
  · intro hlt c hc
    have hcc : c ∈ cells := (hmem c).2 hc
    have hall : cells.take N.toNat = cells := by
      apply List.take_of_length_le
      rw [hperm.length_eq]
      omega
    obtain ⟨h0, h930⟩ := hrange c hcc
    unfold mapAt
    rw [if_pos h0, hget c.toNat]
    have e : ((c.toNat : Nat) : Int) = c := by omega
    rw [e, hall, if_pos ⟨hcc, by omega⟩]

/-! ### Reading and writing cells -/

theorem length_mapSet (map : List Nat) (i : Int) (c : Nat) :
    (mapSet map i c).length = map.length := by
  unfold mapSet
  split_ifs <;> simp

theorem mapAt_mapSet (map : List Nat) (i : Int) (c : Nat) (k : Int) :
    mapAt (mapSet map i c) k
      = if k = i ∧ 0 ≤ i ∧ i < map.length then c else mapAt map k := by
  by_cases hi : 0 ≤ i
  · have hset : mapSet map i c = map.set i.toNat c := by
      unfold mapSet
      rw [if_pos hi]
    rw [hset]
    unfold mapAt
    by_cases hk : 0 ≤ k
    · rw [if_pos hk, if_pos hk]
      by_cases e : k = i
      · subst e
        by_cases hlt : k < map.length
        · rw [if_pos ⟨rfl, hi, hlt⟩, List.getD_eq_getElem?_getD,
            List.getElem?_set_self (by omega)]
          rfl
        · have hn : ¬ (k = k ∧ 0 ≤ k ∧ k < (map.length : Int)) := fun h => hlt h.2.2
          rw [if_neg hn, List.getD_eq_getElem?_getD,
            List.getD_eq_getElem?_getD, List.getElem?_eq_none (by simp; omega),
            List.getElem?_eq_none (by omega)]
      · have hn : ¬ (k = i ∧ 0 ≤ i ∧ i < (map.length : Int)) := fun h => e h.1
        rw [if_neg hn, List.getD_eq_getElem?_getD, List.getD_eq_getElem?_getD,
          List.getElem?_set_ne (by omega)]
    · have hn : ¬ (k = i ∧ 0 ≤ i ∧ i < (map.length : Int)) := fun h => hk (by omega)
      rw [if_neg hk, if_neg hk, if_neg hn]
  · have hset : mapSet map i c = map := by
      unfold mapSet
      rw [if_neg hi]
    have hn : ¬ (k = i ∧ 0 ≤ i ∧ i < (map.length : Int)) := fun h => hi h.2.1
    rw [hset, if_neg hn]

theorem mapAt_eq_zero_of_ge (map : List Nat) (k : Int) (h : (map.length : Int) ≤ k) :
    mapAt map k = 0 := by
  unfold mapAt
  split_ifs
  · rw [List.getD_eq_getElem?_getD, List.getElem?_eq_none (by omega)]
    rfl
  · rfl

theorem mapAt_eq_zero_of_neg (map : List Nat) (k : Int) (h : k < 0) : mapAt map k = 0 := by
  unfold mapAt
  rw [if_neg (by omega)]

theorem mapAt_ne_zero_range {map : List Nat} {k : Int} (h : mapAt map k ≠ 0) :
    0 ≤ k ∧ k < map.length := by
  constructor
  · by_contra hk
    exact h (mapAt_eq_zero_of_neg map k (by omega))
  · by_contra hk
    exact h (mapAt_eq_zero_of_ge map k (by omega))

theorem mem_getEnemyIndexes (map : List Nat) (i : Int) :
    i ∈ getEnemyIndexes map ↔ 0 ≤ i ∧ i < 930 ∧ mapAt map i = enemyChar := by
  have e1 : (mapHeight * mapWidth).toNat = 930 := by decide
  unfold getEnemyIndexes
  rw [e1]
  simp only [List.mem_filter, List.mem_map, List.mem_range, decide_eq_true_eq]
  constructor
  · rintro ⟨⟨a, ha, rfl⟩, h⟩
    refine ⟨Int.ofNat_zero_le a, ?_, h⟩
    show ((a : Nat) : Int) < 930
    omega
  · rintro ⟨h1, h2, h⟩
    refine ⟨⟨i.toNat, by omega, ?_⟩, h⟩
    show ((i.toNat : Nat) : Int) = i
    omega

theorem coordConvert1T2_inGrid (i : Int) (h0 : 0 ≤ i) (h1 : i < 930) :
    inGrid ⟨(coordConvert1T2 i).getD 0 0, (coordConvert1T2 i).getD 1 0⟩
      ∧ coordConvert2T1 ((coordConvert1T2 i).getD 0 0) ((coordConvert1T2 i).getD 1 0) = i := by
  unfold coordConvert1T2 coordConvert2T1 inGrid mapWidth
  simp only [List.getD_cons_zero, List.getD_cons_succ]
  rw [Int.tmod_eq_emod (by omega) (by omega)]
  rw [Int.tdiv_eq_ediv (by omega) (by omega)]
  omega

/-- The second point of a path returned by `aStar` is a neighbour of the start. -/
theorem aStar_second_point {start goal : Point} {map : List Nat} {path : List Point}
    (hs : inU start) (h : aStar start goal map = some path) (hlen : path.length > 1) :
    path.getD 1 ⟨0, 0⟩ ∈ getNeighbours start map := by
  rcases aStar_result hs h with ⟨he, _⟩ | hgoal
  · rw [he] at hlen
    simp at hlen
  · obtain ⟨h1, _, h3⟩ := GoalResult_walk hgoal
    cases path with
    | nil => simp at hlen
    | cons a rest =>
      cases rest with
      | nil => simp at hlen
      | cons b rest2 =>
        simp only [List.head?_cons, Option.some.injEq] at h1
        subst h1
        unfold isWalk at h3
        rw [List.chain'_cons] at h3
        simpa using h3.1

/-! ### Placement and door lemmas -/

theorem foldl_mapSet_mapAt (ch : Nat) (cs : List Int) :
    ∀ (map : List Nat) (k : Int),
      mapAt (cs.foldl (fun m c => mapSet m c ch) map) k
        = if k ∈ cs ∧ 0 ≤ k ∧ k < map.length then ch else mapAt map k := by
  induction cs with
  | nil =>
    intro map k
    simp
  | cons c rest ih =>
    intro map k
    simp only [List.foldl_cons]
    rw [ih (mapSet map c ch) k, length_mapSet, mapAt_mapSet]
    by_cases h1 : k ∈ rest ∧ 0 ≤ k ∧ k < (map.length : Int)
    · rw [if_pos h1, if_pos ⟨List.mem_cons_of_mem c h1.1, h1.2⟩]
    · rw [if_neg h1]
      by_cases h2 : k = c ∧ 0 ≤ c ∧ c < (map.length : Int)
      · rw [if_pos h2, if_pos ⟨by rw [h2.1]; exact List.mem_cons_self c rest, by omega, by omega⟩]
      · rw [if_neg h2]
        have h3 : ¬ (k ∈ c :: rest ∧ 0 ≤ k ∧ k < (map.length : Int)) := by
          rintro ⟨hm, h0, hl⟩
          rcases List.mem_cons.1 hm with e | e
          · exact h2 ⟨e, by omega, by omega⟩
          · exact h1 ⟨e, h0, hl⟩
        rw [if_neg h3]

theorem placeLoop_mapAt (cells : List Int) (ch : Nat) (n : Nat) (map : List Nat) (k : Int) :
    mapAt (placeLoop cells ch n 0 map) k
      = if k ∈ cells.take n ∧ 0 ≤ k ∧ k < map.length then ch else mapAt map k := by
  rw [placeLoop_eq_foldl, List.drop_zero, foldl_mapSet_mapAt]

theorem generateCoins_mapAt (shuffle : List Int → List Int) (playerChar : Nat) (N : Int)
    (map : List Nat) (k : Int) :
    mapAt (generateCoins shuffle playerChar N map) k
      = if k ∈ (shuffle (eligibleCells map playerChar)).take N.toNat ∧ 0 ≤ k ∧ k < map.length
        then coinChar else mapAt map k :=
  placeLoop_mapAt _ coinChar _ map k

theorem generateEnemies_mapAt (shuffle : List Int → List Int) (playerChar : Nat) (N : Int)
    (map : List Nat) (k : Int) :
    mapAt (generateEnemies shuffle playerChar N map) k
      = if k ∈ (shuffle (eligibleCells map playerChar)).take N.toNat ∧ 0 ≤ k ∧ k < map.length
        then enemyChar else mapAt map k :=
  placeLoop_mapAt _ enemyChar _ map k

theorem moveToFront_perm {k : Int} {l : List Int} (h : k ∈ l) : (moveToFront k l).Perm l :=
  (List.perm_cons_erase h).symm

/-- The door scan on any list of indexes: a cell changes only from Door to Wall, and the
index variable keeps its value or takes the index of a Door cell. -/
theorem doorScan_spec (l : List Int) :
    ∀ (map : List Nat) (idx : Int),
      (l.foldl (fun (acc : List Nat × Int) i =>
          if mapAt acc.1 i = nextLevelDoorChar then (mapSet acc.1 i wallChar, i) else acc)
          (map, idx)).1.length = map.length
      ∧ (∀ k, mapAt (l.foldl (fun (acc : List Nat × Int) i =>
          if mapAt acc.1 i = nextLevelDoorChar then (mapSet acc.1 i wallChar, i) else acc)
          (map, idx)).1 k
            = if k ∈ l ∧ mapAt map k = nextLevelDoorChar then wallChar else mapAt map k)
      ∧ ((l.foldl (fun (acc : List Nat × Int) i =>
          if mapAt acc.1 i = nextLevelDoorChar then (mapSet acc.1 i wallChar, i) else acc)
          (map, idx)).2 = idx
        ∨ ((l.foldl (fun (acc : List Nat × Int) i =>
          if mapAt acc.1 i = nextLevelDoorChar then (mapSet acc.1 i wallChar, i) else acc)
          (map, idx)).2 ∈ l
          ∧ mapAt map (l.foldl (fun (acc : List Nat × Int) i =>
          if mapAt acc.1 i = nextLevelDoorChar then (mapSet acc.1 i wallChar, i) else acc)
          (map, idx)).2 = nextLevelDoorChar)) := by
  induction l with
  | nil =>
    intro map idx
    simp
  | cons i rest ih =>
    intro map idx
    simp only [List.foldl_cons]
    by_cases hd : mapAt map i = nextLevelDoorChar
    · rw [if_pos hd]
      obtain ⟨h1, h2, h3⟩ := ih (mapSet map i wallChar) i
      have hr := @mapAt_ne_zero_range map i (by rw [hd]; decide)
      have hw : wallChar ≠ nextLevelDoorChar := by decide
      refine ⟨by rw [h1, length_mapSet], ?_, ?_⟩
      · intro k
        rw [h2 k]
        by_cases e : k = i
        · subst e
          have hm : mapAt (mapSet map k wallChar) k = wallChar := by
            rw [mapAt_mapSet, if_pos ⟨rfl, hr.1, hr.2⟩]
          have hrhs : (if k ∈ k :: rest ∧ mapAt map k = nextLevelDoorChar then wallChar
              else mapAt map k) = wallChar := if_pos ⟨List.mem_cons_self k rest, hd⟩
          rw [hm, hrhs]
          split_ifs <;> rfl
        · have hn : ¬ (k = i ∧ 0 ≤ i ∧ i < (map.length : Int)) := fun h => e h.1
          have hm : mapAt (mapSet map i wallChar) k = mapAt map k := by
            rw [mapAt_mapSet, if_neg hn]
          rw [hm]
          by_cases hk : k ∈ rest ∧ mapAt map k = nextLevelDoorChar
          · rw [if_pos hk, if_pos ⟨List.mem_cons_of_mem i hk.1, hk.2⟩]
          · rw [if_neg hk]
            have hn2 : ¬ (k ∈ i :: rest ∧ mapAt map k = nextLevelDoorChar) := by
              rintro ⟨hm, hv⟩
              rcases List.mem_cons.1 hm with e2 | e2
              · exact e e2
              · exact hk ⟨e2, hv⟩
            rw [if_neg hn2]
      · right
        rcases h3 with h3 | ⟨h3, h4⟩
        · rw [h3]
          exact ⟨List.mem_cons_self i rest, hd⟩
        · refine ⟨List.mem_cons_of_mem i h3, ?_⟩
          rw [mapAt_mapSet] at h4
          split_ifs at h4 with h5
          · exact absurd h4 hw
          · exact h4
    · rw [if_neg hd]
      obtain ⟨h1, h2, h3⟩ := ih map idx
      refine ⟨h1, ?_, ?_⟩
      · intro k
        rw [h2 k]
        by_cases hk : k ∈ rest ∧ mapAt map k = nextLevelDoorChar
        · rw [if_pos hk, if_pos ⟨List.mem_cons_of_mem i hk.1, hk.2⟩]
        · rw [if_neg hk]
          have hn2 : ¬ (k ∈ i :: rest ∧ mapAt map k = nextLevelDoorChar) := by
            rintro ⟨hm, hv⟩
            rcases List.mem_cons.1 hm with e2 | e2
            · exact hd (e2 ▸ hv)
            · exact hk ⟨e2, hv⟩
          rw [if_neg hn2]
      · rcases h3 with h3 | ⟨h3, h4⟩
        · exact Or.inl h3
        · exact Or.inr ⟨List.mem_cons_of_mem i h3, h4⟩

theorem getNextLevelDoorIndex_spec (map : List Nat) (idx : Int) :
    (getNextLevelDoorIndex map idx).1.length = map.length
      ∧ (∀ k, mapAt (getNextLevelDoorIndex map idx).1 k
          = if 0 ≤ k ∧ k < 930 ∧ mapAt map k = nextLevelDoorChar then wallChar
            else mapAt map k)
      ∧ ((getNextLevelDoorIndex map idx).2 = idx
          ∨ mapAt map (getNextLevelDoorIndex map idx).2 = nextLevelDoorChar) := by
  have e1 : (mapWidth * mapHeight).toNat = 930 := by decide
  have hmem : ∀ k : Int, k ∈ (List.range 930).map Int.ofNat ↔ 0 ≤ k ∧ k < 930 := by
    intro k
    simp only [List.mem_map, List.mem_range]
    constructor
    · rintro ⟨a, ha, rfl⟩
      refine ⟨Int.ofNat_zero_le a, ?_⟩
      show ((a : Nat) : Int) < 930
      omega
    · rintro ⟨h1, h2⟩
      refine ⟨k.toNat, by omega, ?_⟩
      show ((k.toNat : Nat) : Int) = k
      omega
  unfold getNextLevelDoorIndex
  rw [e1]
  obtain ⟨h1, h2, h3⟩ := doorScan_spec ((List.range 930).map Int.ofNat) map idx
  refine ⟨h1, ?_, ?_⟩
  · intro k
    rw [h2 k]
    simp only [hmem k, and_assoc]
  · rcases h3 with h3 | ⟨_, h4⟩
    · exact Or.inl h3
    · exact Or.inr h4

theorem count_eq_one_unique (c : Nat) :
    ∀ (l : List Nat) (i j : Nat), l.count c = 1 → l[i]? = some c → l[j]? = some c → i = j := by
  intro l
  induction l with
  | nil =>
    intro i j h
    simp at h
  | cons a t ih =>
    intro i j h hi hj
    rw [List.count_cons] at h
    cases i with
    | zero =>
      cases j with
      | zero => rfl
      | succ j =>
        simp only [List.getElem?_cons_zero, Option.some.injEq] at hi
        simp only [List.getElem?_cons_succ] at hj
        have hm := List.one_le_count_iff.2 (List.getElem?_mem hj)
        subst hi
        simp at h
        omega
    | succ i =>
      simp only [List.getElem?_cons_succ] at hi
      have hm := List.one_le_count_iff.2 (List.getElem?_mem hi)
      cases j with
      | zero =>
        simp only [List.getElem?_cons_zero, Option.some.injEq] at hj
        subst hj
        simp at h
        omega
      | succ j =>
        simp only [List.getElem?_cons_succ] at hj
        split_ifs at h with e
        · omega
        · rw [ih i j (by omega) hi hj]

theorem mapAt_getElem? {map : List Nat} {k : Int} {c : Nat} (h : mapAt map k = c)
    (hc : c ≠ 0) : map[k.toNat]? = some c ∧ 0 ≤ k := by
  have hr := @mapAt_ne_zero_range map k (by rw [h]; exact hc)
  unfold mapAt at h
  rw [if_pos hr.1, List.getD_eq_getElem?_getD] at h
  refine ⟨?_, hr.1⟩
  cases hget : map[k.toNat]? with
  | none =>
    rw [hget] at h
    exact absurd h.symm hc
  | some v =>
    rw [hget] at h
    simp only [Option.getD_some] at h
    rw [h]

/-- A character that occurs once in the map occurs at one index only. -/
theorem countCells_one_unique {map : List Nat} {c : Nat} {d k : Int}
    (hcount : countCells c map = 1) (hc : c ≠ 0) (hd : mapAt map d = c)
    (hk : mapAt map k = c) : k = d := by
  obtain ⟨h1, h2⟩ := mapAt_getElem? hd hc
  obtain ⟨h3, h4⟩ := mapAt_getElem? hk hc
  have := count_eq_one_unique c map k.toNat d.toNat hcount h3 h1
  omega

/-! ### The movement of the enemies, cell by cell -/

theorem moveEnemy_cases {pt : Point} {map : List Nat} {prev : Int} {map2 : List Nat}
    (h0 : 0 ≤ prev) (h1 : prev < 930) (h : moveEnemy pt map prev = some map2) :
    map2 = map ∨ map2 = mapSet map prev enemyChar
      ∨ ∃ new, mapAt map new ≠ wallChar ∧ mapAt map new ≠ coinChar
          ∧ mapAt map new ≠ enemyChar
          ∧ map2 = mapSet (mapSet map prev floorChar) new enemyChar := by
  have hs := inGrid_inU (coordConvert1T2_inGrid prev h0 h1).1
  unfold moveEnemy at h
  cases hpath : aStar ⟨(coordConvert1T2 prev).getD 0 0, (coordConvert1T2 prev).getD 1 0⟩ pt map with
  | none =>
    simp only [hpath] at h
    cases h
  | some path =>
    simp only [hpath] at h
    by_cases hlen : path.length > 1
    · rw [if_pos hlen] at h
      have hcell := getNeighbours_cell (aStar_second_point hs hpath hlen)
      unfold cellOf at hcell
      by_cases hen : mapAt map
          (coordConvert2T1 (path.getD 1 ⟨0, 0⟩).x (path.getD 1 ⟨0, 0⟩).y) = enemyChar
      · rw [if_pos hen] at h
        cases h
        exact Or.inr (Or.inl rfl)
      · rw [if_neg hen] at h
        cases h
        exact Or.inr (Or.inr ⟨_, hcell.1, hcell.2, hen, rfl⟩)
    · rw [if_neg hlen] at h
      cases h
      exact Or.inl rfl

theorem moveEnemy_isSome (pt : Point) (map : List Nat) (prev : Int) (hpt : inU pt)
    (h0 : 0 ≤ prev) (h1 : prev < 930) : ∃ map2, moveEnemy pt map prev = some map2 := by
  have hs := inGrid_inU (coordConvert1T2_inGrid prev h0 h1).1
  obtain ⟨path, hpath⟩ := aStar_isSome map hs hpt
  unfold moveEnemy
  simp only [hpath]
  split_ifs <;> exact ⟨_, rfl⟩

theorem enemyTouched_refl (c : Nat) : enemyTouched c c := Or.inl rfl

theorem enemyTouched_not_wall {c0 c : Nat} (h : enemyTouched c0 c) (hc : c ≠ wallChar) :
    c0 ≠ wallChar := by
  rcases h with h | h
  · rw [← h]
    exact hc
  · exact h.2.1

theorem enemyTouched_not_coin {c0 c : Nat} (h : enemyTouched c0 c) (hc : c ≠ coinChar) :
    c0 ≠ coinChar := by
  rcases h with h | h
  · rw [← h]
    exact hc
  · exact h.2.2

/-- One enemy step keeps the relation to the map before the movement, provided the enemy
index held an Enemy there. -/
theorem moveEnemy_touched {pt : Point} {map0 map : List Nat} {prev : Int} {map2 : List Nat}
    (h0 : 0 ≤ prev) (h1 : prev < 930) (hprev : mapAt map0 prev = enemyChar)
    (hinv : ∀ k, enemyTouched (mapAt map0 k) (mapAt map k))
    (hm : moveEnemy pt map prev = some map2) :
    map2.length = map.length ∧ ∀ k, enemyTouched (mapAt map0 k) (mapAt map2 k) := by
  have hcases := moveEnemy_cases h0 h1 hm
  have hprev0 : mapAt map0 prev ≠ wallChar ∧ mapAt map0 prev ≠ coinChar := by
    rw [hprev]
    exact ⟨by decide, by decide⟩
  constructor
  · rcases hcases with e | e | ⟨new, _, _, _, e⟩ <;> rw [e] <;> simp only [length_mapSet]
  · intro k
    rcases hcases with e | e | ⟨new, hw, hc, _, e⟩
    · rw [e]
      exact hinv k
    · rw [e, mapAt_mapSet]
      split_ifs with h
      · rw [h.1, hprev]
        exact Or.inl rfl
      · exact hinv k
    · rw [e, mapAt_mapSet]
      split_ifs with h
      · rw [h.1]
        exact Or.inr ⟨Or.inr rfl, enemyTouched_not_wall (hinv new) hw,
          enemyTouched_not_coin (hinv new) hc⟩
      · rw [mapAt_mapSet]
        split_ifs with h2
        · rw [h2.1]
          exact Or.inr ⟨Or.inl rfl, hprev0.1, hprev0.2⟩
        · exact hinv k

theorem moveEnemies_touched (pt : Point) (map0 : List Nat) :
    ∀ (idxs : List Int) (map map2 : List Nat),
      (∀ prev ∈ idxs, 0 ≤ prev ∧ prev < 930 ∧ mapAt map0 prev = enemyChar) →
      (∀ k, enemyTouched (mapAt map0 k) (mapAt map k)) →
      moveEnemies pt idxs map = some map2 →
      map2.length = map.length ∧ ∀ k, enemyTouched (mapAt map0 k) (mapAt map2 k) := by
  intro idxs
  induction idxs with
  | nil =>
    intro map map2 _ hinv hm
    simp only [moveEnemies, Option.some.injEq] at hm
    subst hm
    exact ⟨rfl, hinv⟩
  | cons prev rest ih =>
    intro map map2 hidx hinv hm
    obtain ⟨h0, h1, hprev⟩ := hidx prev (List.mem_cons_self prev rest)
    rw [moveEnemies] at hm
    cases hm1 : moveEnemy pt map prev with
    | none =>
      rw [hm1] at hm
      cases hm
    | some map1 =>
      rw [hm1] at hm
      simp only at hm
      obtain ⟨hl1, hinv1⟩ := moveEnemy_touched h0 h1 hprev hinv hm1
      obtain ⟨hl2, hinv2⟩ :=
        ih map1 map2 (fun p hp => hidx p (List.mem_cons_of_mem prev hp)) hinv1 hm
      exact ⟨by rw [hl2, hl1], hinv2⟩

theorem moveEnemies_isSome (pt : Point) (hpt : inU pt) :
    ∀ (idxs : List Int) (map : List Nat), (∀ prev ∈ idxs, 0 ≤ prev ∧ prev < 930) →
      ∃ map2, moveEnemies pt idxs map = some map2 := by
  intro idxs
  induction idxs with
  | nil =>
    intro map _
    exact ⟨map, rfl⟩
  | cons prev rest ih =>
    intro map hidx
    obtain ⟨h0, h1⟩ := hidx prev (List.mem_cons_self prev rest)
    obtain ⟨map1, hm1⟩ := moveEnemy_isSome pt map prev hpt h0 h1
    obtain ⟨map2, hm2⟩ := ih map1 (fun p hp => hidx p (List.mem_cons_of_mem prev hp))
    refine ⟨map2, ?_⟩
    rw [moveEnemies, hm1]
    exact hm2

/-- The enemy movement of an iteration keeps the size of the map and changes cells only as
`enemyTouched` allows. -/
theorem enemyPhase_touched {counter : Int} {map : List Nat} {idx : Int} {map2 : List Nat}
    (h : enemyPhase counter map idx = some map2) :
    map2.length = map.length ∧ ∀ k, enemyTouched (mapAt map k) (mapAt map2 k) := by
  unfold enemyPhase at h
  split_ifs at h
  · unfold handleEnemyMovement at h
    exact moveEnemies_touched _ map (getEnemyIndexes map) map map2
      (fun p hp => (mem_getEnemyIndexes map p).1 hp) (fun k => enemyTouched_refl _) h
  · cases h
    exact ⟨rfl, fun k => enemyTouched_refl _⟩

/-- The enemy movement of an iteration returns when the player is on the map. -/
theorem enemyPhase_isSome (counter : Int) (map : List Nat) (idx : Int) (h0 : 0 ≤ idx)
    (h1 : idx < 930) : ∃ map2, enemyPhase counter map idx = some map2 := by
  unfold enemyPhase
  split_ifs
  · unfold handleEnemyMovement
    exact moveEnemies_isSome _ (inGrid_inU (coordConvert1T2_inGrid idx h0 h1).1)
      (getEnemyIndexes map) map (fun p hp => by
        have := (mem_getEnemyIndexes map p).1 hp
        exact ⟨this.1, this.2.1⟩)
  · exact ⟨map, rfl⟩

/-! ### The movement of the player, key by key -/

theorem handlePlayerMovement_eq (keys : Keys) (m : Mover) (map : List Nat) :
    handlePlayerMovement keys m map
      = moveD keys map (moveS keys map (moveA keys map (moveW keys map m))) := rfl

theorem moveW_offWall (keys : Keys) (map : List Nat) (m : Mover) (h : offWall map m) :
    offWall map (moveW keys map m) := by
  unfold moveW offWall at *
  split_ifs with h1 h2
  · simp only [Int.sub_add_cancel]
    exact h
  · exact h2
  · exact h

theorem moveA_offWall (keys : Keys) (map : List Nat) (m : Mover) (h : offWall map m) :
    offWall map (moveA keys map m) := by
  unfold moveA offWall at *
  split_ifs with h1 h2
  · simp only [Int.sub_add_cancel]
    exact h
  · exact h2
  · exact h

theorem moveS_offWall (keys : Keys) (map : List Nat) (m : Mover) (h : offWall map m) :
    offWall map (moveS keys map m) := by
  unfold moveS offWall at *
  split_ifs with h1 h2
  · simp only [Int.add_sub_cancel]
    exact h
  · exact h2
  · exact h

theorem moveD_offWall (keys : Keys) (map : List Nat) (m : Mover) (h : offWall map m) :
    offWall map (moveD keys map m) := by
  unfold moveD offWall at *
  split_ifs with h1 h2
  · simp only [Int.add_sub_cancel]
    exact h
  · exact h2
  · exact h

/-- The player never ends on a Wall cell when not starting on one. -/
theorem handlePlayerMovement_offWall (keys : Keys) (map : List Nat) (m : Mover)
    (h : offWall map m) : offWall map (handlePlayerMovement keys m map) := by
  rw [handlePlayerMovement_eq]
  exact moveD_offWall keys map _ (moveS_offWall keys map _ (moveA_offWall keys map _
    (moveW_offWall keys map m h)))

theorem moveW_facing (keys : Keys) (map : List Nat) (m : Mover) (hf : isFacing m.playerChar) :
    isFacing (moveW keys map m).playerChar := by
  unfold moveW
  split_ifs
  · exact Or.inl rfl
  · exact Or.inl rfl
  · exact hf

theorem moveA_facing (keys : Keys) (map : List Nat) (m : Mover) (hf : isFacing m.playerChar) :
    isFacing (moveA keys map m).playerChar := by
  unfold moveA
  split_ifs
  · exact Or.inr (Or.inr (Or.inl rfl))
  · exact Or.inr (Or.inr (Or.inl rfl))
  · exact hf

theorem moveS_facing (keys : Keys) (map : List Nat) (m : Mover) (hf : isFacing m.playerChar) :
    isFacing (moveS keys map m).playerChar := by
  unfold moveS
  split_ifs
  · exact Or.inr (Or.inl rfl)
  · exact Or.inr (Or.inl rfl)
  · exact hf

theorem moveD_facing (keys : Keys) (map : List Nat) (m : Mover) (hf : isFacing m.playerChar) :
    isFacing (moveD keys map m).playerChar := by
  unfold moveD
  split_ifs
  · exact Or.inr (Or.inr (Or.inr rfl))
  · exact Or.inr (Or.inr (Or.inr rfl))
  · exact hf

theorem handlePlayerMovement_facing (keys : Keys) (map : List Nat) (m : Mover)
    (hf : isFacing m.playerChar) : isFacing (handlePlayerMovement keys m map).playerChar := by
  rw [handlePlayerMovement_eq]
  exact moveD_facing keys map _ (moveS_facing keys map _ (moveA_facing keys map _
    (moveW_facing keys map m hf)))

/-! ### Counting cells -/

theorem mapAt_natCast (l : List Nat) (n : Nat) (h : n < l.length) :
    mapAt l (n : Int) = l[n] := by
  unfold mapAt
  rw [if_pos (Int.ofNat_zero_le n)]
  simp only [Int.toNat_ofNat]
  rw [List.getD_eq_getElem l 0 h]

theorem countP_set (p : Nat → Bool) :
    ∀ (l : List Nat) (i : Nat) (c : Nat) (h : i < l.length),
      (l.set i c).countP p + (if p l[i] = true then 1 else 0)
        = l.countP p + (if p c = true then 1 else 0) := by
  intro l
  induction l with
  | nil =>
    intro i c h
    simp at h
  | cons a t ih =>
    intro i c h
    cases i with
    | zero =>
      simp only [List.set_cons_zero, List.countP_cons, List.getElem_cons_zero]
      omega
    | succ i =>
      simp only [List.set_cons_succ, List.countP_cons, List.getElem_cons_succ]
      have := ih i c (by simpa using h)
      omega

theorem countP_le_of_pointwise (p : Nat → Bool) :
    ∀ (l1 l2 : List Nat), l2.length = l1.length →
      (∀ (n : Nat) (h1 : n < l1.length) (h2 : n < l2.length),
        p l2[n] = true → p l1[n] = true) →
      l2.countP p ≤ l1.countP p := by
  intro l1
  induction l1 with
  | nil =>
    intro l2 hlen _
    have e : l2 = [] := List.length_eq_zero.1 (by simpa using hlen)
    rw [e]
  | cons a t ih =>
    intro l2 hlen h
    cases l2 with
    | nil => simp at hlen
    | cons b u =>
      simp only [List.countP_cons]
      have h0 := h 0 (by simp) (by simp)
      simp only [List.getElem_cons_zero] at h0
      have hrec := ih u (by simpa using hlen) (fun n h1 h2 hp => by
        have := h (n + 1) (by simpa using h1) (by simpa using h2)
        simp only [List.getElem_cons_succ] at this
        exact this hp)
      by_cases hb : p b = true
      · rw [if_pos hb, if_pos (h0 hb)]
        omega
      · rw [if_neg hb]
        split_ifs <;> omega

theorem countP_le_of_mapAt (p : Nat → Bool) (l1 l2 : List Nat) (hlen : l2.length = l1.length)
    (h : ∀ k : Int, 0 ≤ k → k < l1.length → p (mapAt l2 k) = true → p (mapAt l1 k) = true) :
    l2.countP p ≤ l1.countP p := by
  apply countP_le_of_pointwise p l1 l2 hlen
  intro n h1 h2 hp
  have := h (n : Int) (Int.ofNat_zero_le n) (by omega)
  rw [mapAt_natCast l2 n h2, mapAt_natCast l1 n h1] at this
  exact this hp

theorem countP_mapSet (p : Nat → Bool) (l : List Nat) (i : Int) (c : Nat) (h0 : 0 ≤ i)
    (h1 : i < l.length) :
    (mapSet l i c).countP p + (if p (mapAt l i) = true then 1 else 0)
      = l.countP p + (if p c = true then 1 else 0) := by
  have hset : mapSet l i c = l.set i.toNat c := by
    unfold mapSet
    rw [if_pos h0]
  have hi : i.toNat < l.length := by omega
  have hat : mapAt l i = l[i.toNat] := by
    have := mapAt_natCast l i.toNat hi
    rw [Int.toNat_of_nonneg h0] at this
    exact this
  rw [hset, hat]
  exact countP_set p l i.toNat c hi

theorem getCurrentCoins_eq (map : List Nat) :
    getCurrentCoins map = (map.countP coinLike : Int) := by
  unfold getCurrentCoins
  rw [List.countP_eq_length_filter]
  rfl

theorem countCells_eq (ch : Nat) (map : List Nat) :
    countCells ch map = map.countP (fun c => c == ch) := rfl

/-! ### The iteration of the game loop, phase by phase -/

theorem loopBody_eq (env : Env) (g : Game) :
    loopBody env g
      = match enemyPhase (g.counter + 1) (doorPhase g).1 (newIndex env g) with
        | none => none
        | some map2 => some (resolvePhase env (afterMoves env g map2)) := rfl

theorem loopBody_some_iff (env : Env) (g g2 : Game) :
    loopBody env g = some g2 ↔
      ∃ map2, enemyPhase (g.counter + 1) (doorPhase g).1 (newIndex env g) = some map2
        ∧ g2 = resolvePhase env (afterMoves env g map2) := by
  rw [loopBody_eq]
  cases enemyPhase (g.counter + 1) (doorPhase g).1 (newIndex env g) with
  | none => simp
  | some map2 =>
    simp only [Option.some.injEq]
    constructor
    · intro h
      exact ⟨map2, rfl, h.symm⟩
    · rintro ⟨m, hm, h⟩
      rw [h, hm]

theorem resolvePhase_eq (env : Env) (g : Game) :
    resolvePhase env g
      = if (scored g).currentCoins = 0 then
          if playerCrossingDoor g.playerCurrentIndex g.nextLevelDoorIndex then
            if g.currentLevel = env.numLevels then { opened (scored g) with gameOver := true }
            else placePlayer (nextLevel env (opened (scored g)))
          else placePlayer (opened (scored g))
        else placePlayer (scored g) := rfl

theorem doorPhase_of_counter {g : Game} (h : g.counter ≠ 0) :
    doorPhase g = (g.map, g.nextLevelDoorIndex) := by
  unfold doorPhase
  rw [if_neg h]

/-- The outcome of an iteration that does not change the level: the variables of the player,
the counters, and the final map in each of the three ways the iteration can end (the coin
count is not zero; it is zero and the player is not on the door; it is zero, the player is on
the door and the loop is left by `break`). -/
theorem loopBody_cases {env : Env} {g g2 : Game} (h : loopBody env g = some g2)
    (hl : g2.currentLevel = g.currentLevel) :
    ∃ map2, enemyPhase (g.counter + 1) (doorPhase g).1 (newIndex env g) = some map2
      ∧ g2.playerCurrentIndex = newIndex env g
      ∧ g2.playerPreviousIndex = g.playerCurrentIndex
      ∧ g2.nextLevelDoorIndex = (doorPhase g).2
      ∧ g2.counter = g.counter + 1
      ∧ g2.playerX = (movedPlayer env g).playerX
      ∧ g2.playerY = (movedPlayer env g).playerY
      ∧ g2.playerChar = (movedPlayer env g).playerChar
      ∧ g2.currentCoins = (if isCoinHere map2 (newIndex env g) then
          getCurrentCoins (doorPhase g).1 - 1 else getCurrentCoins (doorPhase g).1)
      ∧ g2.playerScore = (if isCoinHere map2 (newIndex env g) then g.playerScore + 1
          else g.playerScore)
      ∧ ((g2.currentCoins ≠ 0
            ∧ g2.gameOver = (if isEnemyHere map2 (newIndex env g) then true else g.gameOver)
            ∧ g2.map = mapSet (mapSet map2 g.playerCurrentIndex floorChar) (newIndex env g)
                (movedPlayer env g).playerChar)
        ∨ (g2.currentCoins = 0 ∧ newIndex env g ≠ (doorPhase g).2
            ∧ g2.gameOver = (if isEnemyHere map2 (newIndex env g) then true else g.gameOver)
            ∧ g2.map = mapSet (mapSet (mapSet map2 (doorPhase g).2 floorChar)
                g.playerCurrentIndex floorChar) (newIndex env g) (movedPlayer env g).playerChar)
        ∨ (g2.currentCoins = 0 ∧ newIndex env g = (doorPhase g).2
            ∧ g.currentLevel = env.numLevels ∧ g2.gameOver = true
            ∧ g2.map = mapSet map2 (doorPhase g).2 floorChar)) := by
  obtain ⟨map2, hen, hg⟩ := (loopBody_some_iff env g g2).1 h
  refine ⟨map2, hen, ?_⟩
  rw [resolvePhase_eq] at hg
  by_cases hc : (scored (afterMoves env g map2)).currentCoins = 0
  · rw [if_pos hc] at hg
    by_cases hdoor : playerCrossingDoor (afterMoves env g map2).playerCurrentIndex
        (afterMoves env g map2).nextLevelDoorIndex = true
    · rw [if_pos hdoor] at hg
      have hidx : newIndex env g = (doorPhase g).2 := of_decide_eq_true hdoor
      by_cases hlast : (afterMoves env g map2).currentLevel = env.numLevels
      · rw [if_pos hlast] at hg
        subst hg
        exact ⟨rfl, rfl, rfl, rfl, rfl, rfl, rfl, rfl, rfl,
          Or.inr (Or.inr ⟨hc, hidx, hlast, rfl, rfl⟩)⟩
      · rw [if_neg hlast] at hg
        subst hg
        exfalso
        have : g.currentLevel + 1 = g.currentLevel := hl
        omega
    · rw [if_neg hdoor] at hg
      have hidx : newIndex env g ≠ (doorPhase g).2 := fun e => hdoor (decide_eq_true e)
      subst hg
      exact ⟨rfl, rfl, rfl, rfl, rfl, rfl, rfl, rfl, rfl, Or.inr (Or.inl ⟨hc, hidx, rfl, rfl⟩)⟩
  · rw [if_neg hc] at hg
    subst hg
    exact ⟨rfl, rfl, rfl, rfl, rfl, rfl, rfl, rfl, rfl, Or.inl ⟨hc, rfl, rfl⟩⟩

/-- An iteration returns when the player's new cell is on the map. -/
theorem loopBody_isSome (env : Env) (g : Game) (h0 : 0 ≤ newIndex env g)
    (h1 : newIndex env g < 930) : ∃ g2, loopBody env g = some g2 := by
  obtain ⟨map2, hen⟩ := enemyPhase_isSome (g.counter + 1) (doorPhase g).1 (newIndex env g) h0 h1
  exact ⟨_, (loopBody_some_iff env g _).2 ⟨map2, hen, rfl⟩⟩

/-! ### The cells an iteration changes -/

theorem mapSet_of_not_range (l : List Nat) (i : Int) (c : Nat)
    (h : ¬ (0 ≤ i ∧ i < (l.length : Int))) : mapSet l i c = l := by
  unfold mapSet
  split_ifs with h0
  · exact List.set_eq_of_length_le (by omega)
  · rfl

theorem countP_mapSet_same (p : Nat → Bool) (l : List Nat) (i : Int) (c : Nat)
    (hc : p c = false) (hi : p (mapAt l i) = false) :
    (mapSet l i c).countP p = l.countP p := by
  by_cases h : 0 ≤ i ∧ i < (l.length : Int)
  · have := countP_mapSet p l i c h.1 h.2
    rw [hc, hi] at this
    simpa using this
  · rw [mapSet_of_not_range l i c h]

theorem countP_mapSet_drop (p : Nat → Bool) (l : List Nat) (i : Int) (c : Nat)
    (hc : p c = false) (hi : p (mapAt l i) = true) (h0 : 0 ≤ i) (h1 : i < (l.length : Int)) :
    (mapSet l i c).countP p + 1 = l.countP p := by
  have := countP_mapSet p l i c h0 h1
  rw [hc, hi] at this
  simpa using this

/-- Writing a character that does not satisfy `p` over the cell `i` of `l`, and any other
changes that create no cell satisfying `p`, lower the count by the cell `i`. -/
theorem countP_le_erase (p : Nat → Bool) (F l : List Nat) (i : Int) (hz : p 0 = false)
    (hlen : F.length = l.length)
    (h : ∀ k : Int, 0 ≤ k → k < l.length → p (mapAt F k) = true →
      p (mapAt l k) = true ∧ k ≠ i) :
    F.countP p + (if p (mapAt l i) = true then 1 else 0) ≤ l.countP p := by
  have hle : F.countP p ≤ (mapSet l i 0).countP p := by
    apply countP_le_of_mapAt p (mapSet l i 0) F (by rw [length_mapSet, hlen])
    intro k hk0 hk1 hp
    rw [length_mapSet] at hk1
    obtain ⟨h1, h2⟩ := h k hk0 hk1 hp
    rw [mapAt_mapSet, if_neg (fun e => h2 e.1)]
    exact h1
  by_cases hr : 0 ≤ i ∧ i < (l.length : Int)
  · have := countP_mapSet p l i 0 hr.1 hr.2
    rw [hz] at this
    simp only [Bool.false_eq_true, if_false, add_zero] at this
    omega
  · have e : mapAt l i = 0 := by
      by_cases h0 : 0 ≤ i
      · exact mapAt_eq_zero_of_ge l i (by omega)
      · exact mapAt_eq_zero_of_neg l i (by omega)
    rw [mapSet_of_not_range l i 0 hr] at hle
    rw [e, hz]
    simpa using hle

/-- The level after an iteration: unchanged, or one more when the player has crossed the
door. -/
theorem loopBody_level {env : Env} {g g2 : Game} (h : loopBody env g = some g2) :
    ∃ map2, enemyPhase (g.counter + 1) (doorPhase g).1 (newIndex env g) = some map2
      ∧ g2.playerScore = (if isCoinHere map2 (newIndex env g) then g.playerScore + 1
          else g.playerScore)
      ∧ (g2.currentLevel = g.currentLevel
        ∨ (g2.currentLevel = g.currentLevel + 1 ∧ newIndex env g = (doorPhase g).2)) := by
  obtain ⟨map2, hen, hg⟩ := (loopBody_some_iff env g g2).1 h
  refine ⟨map2, hen, ?_⟩
  rw [resolvePhase_eq] at hg
  by_cases hc : (scored (afterMoves env g map2)).currentCoins = 0
  · rw [if_pos hc] at hg
    by_cases hdoor : playerCrossingDoor (afterMoves env g map2).playerCurrentIndex
        (afterMoves env g map2).nextLevelDoorIndex = true
    · rw [if_pos hdoor] at hg
      have hidx : newIndex env g = (doorPhase g).2 := of_decide_eq_true hdoor
      by_cases hlast : (afterMoves env g map2).currentLevel = env.numLevels
      · rw [if_pos hlast] at hg
        subst hg
        exact ⟨rfl, Or.inl rfl⟩
      · rw [if_neg hlast] at hg
        subst hg
        exact ⟨rfl, Or.inr ⟨rfl, hidx⟩⟩
    · rw [if_neg hdoor] at hg
      subst hg
      exact ⟨rfl, Or.inl rfl⟩
  · rw [if_neg hc] at hg
    subst hg
    exact ⟨rfl, Or.inl rfl⟩

theorem enemyTouched_coin_iff {c0 c : Nat} (h : enemyTouched c0 c) :
    c = coinChar ↔ c0 = coinChar := by
  rcases h with h | ⟨h1, -, h3⟩
  · rw [h]
  · constructor
    · intro e
      rcases h1 with h1 | h1
      · rw [h1] at e
        exact absurd e (by decide)
      · rw [h1] at e
        exact absurd e (by decide)
    · intro e
      exact absurd e h3

theorem isFacing_ne_coin {c : Nat} (h : isFacing c) : c ≠ coinChar := by
  rcases h with h | h | h | h <;> rw [h] <;> decide

theorem isFacing_ne_wall {c : Nat} (h : isFacing c) : c ≠ wallChar := by
  rcases h with h | h | h | h <;> rw [h] <;> decide

/-- The movement of the enemies keeps the number of Coin cells. -/
theorem enemyPhase_countCells_coin {counter : Int} {map : List Nat} {idx : Int}
    {map2 : List Nat} (h : enemyPhase counter map idx = some map2) :
    countCells coinChar map2 = countCells coinChar map := by
  obtain ⟨hlen, ht⟩ := enemyPhase_touched h
  rw [countCells_eq, countCells_eq]
  apply le_antisymm
  · apply countP_le_of_mapAt _ map map2 hlen
    intro k _ _ hp
    have e := (enemyTouched_coin_iff (ht k)).1 (by simpa using hp)
    simpa using e
  · apply countP_le_of_mapAt _ map2 map hlen.symm
    intro k _ _ hp
    have e := (enemyTouched_coin_iff (ht k)).2 (by simpa using hp)
    simpa using e

/-- The final placement of the player on a Coin cell: the cell holds the player's glyph and
the map has one Coin cell less. -/
theorem pickup_map (M : List Nat) (prev idx : Int) (glyph : Nat) (hg : glyph ≠ coinChar)
    (hM : mapAt M idx = coinChar) (hp : mapAt M prev ≠ coinChar) :
    mapAt (mapSet (mapSet M prev floorChar) idx glyph) idx ≠ coinChar
      ∧ countCells coinChar (mapSet (mapSet M prev floorChar) idx glyph) + 1
          = countCells coinChar M := by
  have hr : 0 ≤ idx ∧ idx < (M.length : Int) :=
    mapAt_ne_zero_range (by rw [hM]; decide)
  have hne : idx ≠ prev := by
    intro e
    rw [e] at hM
    exact hp hM
  have hmid : mapAt (mapSet M prev floorChar) idx = coinChar := by
    rw [mapAt_mapSet, if_neg (fun e => hne e.1)]
    exact hM
  constructor
  · rw [mapAt_mapSet, if_pos ⟨rfl, hr.1, by rw [length_mapSet]; exact hr.2⟩]
    exact hg
  · rw [countCells_eq, countCells_eq]
    have s1 := countP_mapSet_drop (fun c => c == coinChar) (mapSet M prev floorChar) idx glyph
      (by simpa using hg) (by simpa using hmid) hr.1 (by rw [length_mapSet]; exact hr.2)
    have s2 := countP_mapSet_same (fun c => c == coinChar) M prev floorChar (by decide)
      (by simpa using hp)
    omega

/-! ### The door and the coin count along the iterations of a level -/

theorem isFacing_not_coinLike {c : Nat} (h : isFacing c) : coinLike c = false := by
  rcases h with h | h | h | h <;> rw [h] <;> decide

theorem coinLike_of_coin {c : Nat} (h : c = coinChar) : coinLike c = true := by
  rw [h]
  decide

theorem enemyTouched_coinLike {c0 c : Nat} (h : enemyTouched c0 c) (hc : coinLike c = true) :
    coinLike c0 = true := by
  rcases h with h | ⟨h1, -, -⟩
  · rw [← h]
    exact hc
  · rcases h1 with h1 | h1 <;> rw [h1] at hc <;> exact absurd hc (by decide)

theorem enemyTouched_wall {c0 c : Nat} (h : enemyTouched c0 c) (hc : c0 = wallChar) :
    c = wallChar := by
  rcases h with h | ⟨-, h2, -⟩
  · rw [h]
    exact hc
  · exact absurd hc h2

theorem mapAt_mapSet_self_ne (l : List Nat) (i : Int) (c x : Nat) (hc : c ≠ x) (hx : 0 ≠ x) :
    mapAt (mapSet l i c) i ≠ x := by
  rw [mapAt_mapSet]
  split_ifs with h
  · exact hc
  · have e : mapAt l i = 0 := by
      by_cases h0 : 0 ≤ i
      · exact mapAt_eq_zero_of_ge l i (by
          by_contra hlt
          exact h ⟨rfl, h0, by omega⟩)
      · exact mapAt_eq_zero_of_neg l i (by omega)
    rw [e]
    exact hx

/-- The new cell of the player is not a Wall of the map the player moves on. -/
theorem newIndex_offWall (env : Env) (g : Game)
    (hcur : g.playerCurrentIndex = coordConvert2T1 g.playerX g.playerY)
    (hoff : mapAt (doorPhase g).1 g.playerCurrentIndex ≠ wallChar) :
    mapAt (doorPhase g).1 (newIndex env g) ≠ wallChar := by
  have h := handlePlayerMovement_offWall env.keys (doorPhase g).1
    { playerX := g.playerX, playerY := g.playerY, playerChar := g.playerChar } (by
      unfold offWall
      rw [← hcur]
      exact hoff)
  exact h

/-- The coin count that `getCurrentCoins` will find after an iteration is at most the count
the iteration ends with, and that count is not negative. -/
theorem coins_after {map1 map2 F : List Nat} {idx : Int}
    (hlen2 : map2.length = map1.length) (hlenF : F.length = map2.length)
    (ht : ∀ k, enemyTouched (mapAt map1 k) (mapAt map2 k))
    (hF : ∀ k : Int, 0 ≤ k → k < map2.length → coinLike (mapAt F k) = true →
      coinLike (mapAt map2 k) = true ∧ k ≠ idx) :
    getCurrentCoins F
      ≤ (if isCoinHere map2 idx then getCurrentCoins map1 - 1 else getCurrentCoins map1) := by
  have h1 := countP_le_erase coinLike F map2 idx (by decide) hlenF hF
  have h2 : map2.countP coinLike ≤ map1.countP coinLike :=
    countP_le_of_mapAt coinLike map1 map2 hlen2
      (fun k _ _ hp => enemyTouched_coinLike (ht k) hp)
  rw [getCurrentCoins_eq, getCurrentCoins_eq]
  by_cases hc : isCoinHere map2 idx = true
  · rw [if_pos hc]
    have : coinLike (mapAt map2 idx) = true := coinLike_of_coin (of_decide_eq_true hc)
    rw [if_pos this] at h1
    omega
  · rw [if_neg hc]
    have : F.countP coinLike ≤ map2.countP coinLike := by omega
    omega

theorem getCurrentCoins_nonneg (map : List Nat) : 0 ≤ getCurrentCoins map := by
  rw [getCurrentCoins_eq]
  omega

/-- One iteration without level change keeps the state of the level and the condition on
the door: the door cell is a Wall unless no coin is left, and then it is Floor. -/
theorem gated_step {d : Int} {g g2 : Game} (hs : PlayingOn d g)
    (hg : mapAt g.map d = wallChar ∨ getCurrentCoins g.map = 0) (hstep : LevelStep g g2) :
    (PlayingOn d g2 ∧ (mapAt g2.map d = wallChar ∨ getCurrentCoins g2.map = 0))
      ∧ 0 ≤ g2.currentCoins
      ∧ (0 < g2.currentCoins → mapAt g2.map d = wallChar)
      ∧ (g2.currentCoins = 0 → mapAt g2.map d = floorChar)
      ∧ (g2.playerCurrentIndex = d → g2.currentCoins = 0) := by
  obtain ⟨hlen, hcnt, hd, hd0, hd1, hcur, hoff, hface⟩ := hs
  obtain ⟨env, h, hl⟩ := hstep
  subst hd
  have hdp : doorPhase g = (g.map, g.nextLevelDoorIndex) := doorPhase_of_counter (by omega)
  have hdp1 : (doorPhase g).1 = g.map := by rw [hdp]
  have hdp2 : (doorPhase g).2 = g.nextLevelDoorIndex := by rw [hdp]
  obtain ⟨map2, hen, hcur2, -, hdoor2, hcounter2, hx, hy, hch, hcoins, -, hcase⟩ :=
    loopBody_cases h hl
  have hnw : mapAt g.map (newIndex env g) ≠ wallChar := by
    have := newIndex_offWall env g hcur (by rw [hdp1]; exact hoff)
    rw [hdp1] at this
    exact this
  rw [hdp1] at hen hcoins
  rw [hdp2] at hdoor2 hcase
  obtain ⟨hlen2, ht⟩ := enemyPhase_touched hen
  have hglyph : isFacing (movedPlayer env g).playerChar :=
    handlePlayerMovement_facing _ _ _ hface
  have hlenF : g2.map.length = map2.length := by
    rcases hcase with ⟨-, -, hmap⟩ | ⟨-, -, -, hmap⟩ | ⟨-, -, -, -, hmap⟩ <;> rw [hmap] <;>
      simp only [length_mapSet]
  have hF : ∀ k : Int, 0 ≤ k → k < map2.length → coinLike (mapAt g2.map k) = true →
      coinLike (mapAt map2 k) = true ∧ k ≠ newIndex env g := by
    intro k hk0 hk1 hp
    rcases hcase with ⟨-, -, hmap⟩ | ⟨-, -, -, hmap⟩ | ⟨-, hidx, -, -, hmap⟩
    · rw [hmap] at hp
      simp only [mapAt_mapSet, length_mapSet] at hp
      split_ifs at hp with a b
      · rw [isFacing_not_coinLike hglyph] at hp
        exact absurd hp (by decide)
      · exact absurd hp (by decide)
      · exact ⟨hp, fun e => a ⟨e, by omega, by omega⟩⟩
    · rw [hmap] at hp
      simp only [mapAt_mapSet, length_mapSet] at hp
      split_ifs at hp with a b c
      · rw [isFacing_not_coinLike hglyph] at hp
        exact absurd hp (by decide)
      · exact absurd hp (by decide)
      · exact absurd hp (by decide)
      · exact ⟨hp, fun e => a ⟨e, by omega, by omega⟩⟩
    · rw [hmap] at hp
      simp only [mapAt_mapSet] at hp
      split_ifs at hp with a
      · exact absurd hp (by decide)
      · exact ⟨hp, fun e => a ⟨by rw [e, hidx], by omega, by omega⟩⟩
  have hafter := coins_after hlen2 hlenF ht hF
  rw [← hcoins] at hafter
  have hnn : 0 ≤ g2.currentCoins := le_trans (getCurrentCoins_nonneg _) hafter
  have hwall : g2.currentCoins ≠ 0 → mapAt g.map g.nextLevelDoorIndex = wallChar := by
    intro hne
    rcases hg with hg | hg
    · exact hg
    · exfalso
      rw [hg] at hcoins
      split_ifs at hcoins <;> omega
  have hcurF : g2.playerCurrentIndex = coordConvert2T1 g2.playerX g2.playerY := by
    rw [hcur2, hx, hy]
    rfl
  have hstate : g2.map.length = 930 ∧ 0 < g2.counter
      ∧ g2.nextLevelDoorIndex = g.nextLevelDoorIndex ∧ 0 ≤ g.nextLevelDoorIndex
      ∧ g.nextLevelDoorIndex < 930
      ∧ g2.playerCurrentIndex = coordConvert2T1 g2.playerX g2.playerY
      ∧ isFacing g2.playerChar :=
    ⟨by rw [hlenF, hlen2, hlen], by omega, hdoor2, hd0, hd1, hcurF, by rw [hch]; exact hglyph⟩
  have hplaying : mapAt g2.map g2.playerCurrentIndex ≠ wallChar →
      PlayingOn g.nextLevelDoorIndex g2 := fun hw =>
    ⟨hstate.1, hstate.2.1, hstate.2.2.1, hstate.2.2.2.1, hstate.2.2.2.2.1, hstate.2.2.2.2.2.1,
      hw, hstate.2.2.2.2.2.2⟩
  have hdr : (0 : Int) ≤ g.nextLevelDoorIndex ∧ g.nextLevelDoorIndex < (map2.length : Int) := by
    constructor
    · exact hd0
    · rw [hlen2, hlen]
      exact_mod_cast hd1
  rcases hcase with ⟨hne, -, hmap⟩ | ⟨hz, hidx, -, hmap⟩ | ⟨hz, hidx, -, -, hmap⟩
  · have hw := hwall hne
    have hw2 : mapAt map2 g.nextLevelDoorIndex = wallChar := enemyTouched_wall (ht _) hw
    have hprev : g.nextLevelDoorIndex ≠ g.playerCurrentIndex := by
      intro e
      rw [e] at hw
      exact hoff hw
    have hnew : g.nextLevelDoorIndex ≠ newIndex env g := by
      intro e
      rw [e] at hw
      exact hnw hw
    have hFd : mapAt g2.map g.nextLevelDoorIndex = wallChar := by
      rw [hmap, mapAt_mapSet, if_neg (fun e => hnew e.1), mapAt_mapSet,
        if_neg (fun e => hprev e.1)]
      exact hw2
    refine ⟨⟨hplaying ?_, Or.inl hFd⟩, hnn, fun _ => hFd, fun e => absurd e hne, ?_⟩
    · rw [hcur2, hmap]
      exact mapAt_mapSet_self_ne _ _ _ _ (isFacing_ne_wall hglyph) (by decide)
    · intro e
      rw [hcur2] at e
      exact absurd e.symm hnew
  · have hFd : mapAt g2.map g.nextLevelDoorIndex = floorChar := by
      rw [hmap, mapAt_mapSet, if_neg (fun e => hidx e.1.symm), mapAt_mapSet]
      split_ifs
      · rfl
      · rw [mapAt_mapSet, if_pos ⟨rfl, hdr.1, hdr.2⟩]
    have hzero : getCurrentCoins g2.map = 0 := by
      have := getCurrentCoins_nonneg g2.map
      omega
    refine ⟨⟨hplaying ?_, Or.inr hzero⟩, hnn, fun hpos => by omega, fun _ => hFd,
      fun _ => hz⟩
    rw [hcur2, hmap]
    exact mapAt_mapSet_self_ne _ _ _ _ (isFacing_ne_wall hglyph) (by decide)
  · have hFd : mapAt g2.map g.nextLevelDoorIndex = floorChar := by
      rw [hmap, mapAt_mapSet, if_pos ⟨rfl, hdr.1, hdr.2⟩]
    have hzero : getCurrentCoins g2.map = 0 := by
      have := getCurrentCoins_nonneg g2.map
      omega
    refine ⟨⟨hplaying ?_, Or.inr hzero⟩, hnn, fun hpos => by omega, fun _ => hFd,
      fun _ => hz⟩
    rw [hcur2, hidx, hFd]
    decide

/-- The state of the level and the condition on the door hold after any number of
iterations without level change. -/
theorem gated_steps {d : Int} {g0 g : Game} (hs : PlayingOn d g0)
    (hg : mapAt g0.map d = wallChar) (hsteps : Relation.ReflTransGen LevelStep g0 g) :
    PlayingOn d g ∧ (mapAt g.map d = wallChar ∨ getCurrentCoins g.map = 0) := by
  induction hsteps with
  | refl => exact ⟨hs, Or.inl hg⟩
  | tail _ hstep ih => exact (gated_step ih.1 ih.2 hstep).1

/-! ### The cells that hold the player -/

theorem not_isPlayerCell_floor : ¬ isPlayerCell floorChar := by
  unfold isPlayerCell isFacing
  decide

theorem not_isPlayerCell_enemy : ¬ isPlayerCell enemyChar := by
  unfold isPlayerCell isFacing
  decide

theorem not_isPlayerCell_wall : ¬ isPlayerCell wallChar := by
  unfold isPlayerCell isFacing
  decide

theorem not_isPlayerCell_zero : ¬ isPlayerCell 0 := by
  unfold isPlayerCell isFacing
  decide

theorem isFacing_ne_placeholder {c : Nat} (h : isFacing c) : c ≠ playerPlaceholderChar := by
  rcases h with h | h | h | h <;> rw [h] <;> decide

theorem isFacing_ne_floor {c : Nat} (h : isFacing c) : c ≠ floorChar := by
  rcases h with h | h | h | h <;> rw [h] <;> decide

/-- The start of an iteration changes cells only to Wall and keeps the length of the map. -/
theorem doorPhase_cells (g : Game) :
    (doorPhase g).1.length = g.map.length
      ∧ ∀ k, mapAt (doorPhase g).1 k = mapAt g.map k ∨ mapAt (doorPhase g).1 k = wallChar := by
  unfold doorPhase
  split_ifs
  · obtain ⟨h1, h2, -⟩ := getNextLevelDoorIndex_spec g.map g.nextLevelDoorIndex
    refine ⟨h1, fun k => ?_⟩
    rw [h2 k]
    split_ifs
    · exact Or.inr rfl
    · exact Or.inl rfl
  · exact ⟨rfl, fun k => Or.inl rfl⟩

/-- A cell that holds the player after the enemies have moved held it before the
iteration. -/
theorem isPlayerCell_before {g : Game} {map2 : List Nat}
    (ht : ∀ k, enemyTouched (mapAt (doorPhase g).1 k) (mapAt map2 k)) (k : Int)
    (h : isPlayerCell (mapAt map2 k)) : isPlayerCell (mapAt g.map k) := by
  have h1 : isPlayerCell (mapAt (doorPhase g).1 k) := by
    rcases ht k with e | ⟨e, -, -⟩
    · rw [← e]
      exact h
    · rcases e with e | e
      · rw [e] at h
        exact absurd h not_isPlayerCell_floor
      · rw [e] at h
        exact absurd h not_isPlayerCell_enemy
  rcases (doorPhase_cells g).2 k with e | e
  · rw [← e]
    exact h1
  · rw [e] at h1
    exact absurd h1 not_isPlayerCell_wall

/-- When exactly one cell satisfies `p`, two cells that satisfy it are the same cell. -/
theorem countP_one_unique (p : Nat → Bool) (hz : p 0 = false) {l : List Nat}
    (h : l.countP p = 1) {d k : Int} (hd : p (mapAt l d) = true) (hk : p (mapAt l k) = true) :
    k = d := by
  by_contra hne
  have hdr : 0 ≤ d ∧ d < (l.length : Int) := mapAt_ne_zero_range (fun e => by
    rw [e, hz] at hd
    exact absurd hd (by decide))
  have hkr : 0 ≤ k ∧ k < (l.length : Int) := mapAt_ne_zero_range (fun e => by
    rw [e, hz] at hk
    exact absurd hk (by decide))
  have s1 := countP_mapSet_drop p l d 0 hz hd hdr.1 hdr.2
  have hk2 : p (mapAt (mapSet l d 0) k) = true := by
    rw [mapAt_mapSet, if_neg (fun e => hne e.1)]
    exact hk
  have s2 := countP_mapSet_drop p (mapSet l d 0) k 0 hz hk2 hkr.1
    (by rw [length_mapSet]; exact hkr.2)
  omega

/-- One iteration that runs to its end without level change and leaves the player on the
map: the player's glyph is at the new `playerCurrentIndex` and nowhere else, and the
previous cell, when different, is Floor. -/
theorem placed_step {g g2 : Game} (hs : SinglePlayer g) (hstep : PlacedStep g g2) :
    SinglePlayer g2
      ∧ isFacing (mapAt g2.map g2.playerCurrentIndex)
      ∧ (g2.playerPreviousIndex ≠ g2.playerCurrentIndex →
          mapAt g2.map g2.playerPreviousIndex = floorChar) := by
  obtain ⟨hlen, hc0, hc1, hface, -, huniq⟩ := hs
  obtain ⟨env, hlast, h, hl, hn0, hn1⟩ := hstep
  obtain ⟨map2, hen, hcur2, hprev2, -, -, -, -, hch, -, -, hcase⟩ := loopBody_cases h hl
  obtain ⟨hlen2, ht⟩ := enemyPhase_touched hen
  have hlen1 := (doorPhase_cells g).1
  have hglyph : isFacing (movedPlayer env g).playerChar :=
    handlePlayerMovement_facing _ _ _ hface
  have hbefore : ∀ k, isPlayerCell (mapAt map2 k) → k = g.playerCurrentIndex :=
    fun k hk => huniq k (isPlayerCell_before ht k hk)
  have hl2 : (map2.length : Int) = 930 := by
    rw [hlen2, hlen1, hlen]
    rfl
  rw [hcur2] at hn0 hn1
  have key : g2.map.length = 930 ∧ mapAt g2.map (newIndex env g) = (movedPlayer env g).playerChar
      ∧ (∀ k, isPlayerCell (mapAt g2.map k) → k = newIndex env g)
      ∧ (g.playerCurrentIndex ≠ newIndex env g →
          mapAt g2.map g.playerCurrentIndex = floorChar) := by
    rcases hcase with ⟨-, -, hmap⟩ | ⟨-, -, -, hmap⟩ | ⟨-, -, hbreak, -⟩
    · rw [hmap]
      refine ⟨by simp only [length_mapSet]; rw [hlen2, hlen1, hlen], ?_, ?_, ?_⟩
      · rw [mapAt_mapSet, if_pos ⟨rfl, hn0, by rw [length_mapSet, hl2]; exact hn1⟩]
      · intro k hk
        simp only [mapAt_mapSet, length_mapSet] at hk
        split_ifs at hk with a b
        · exact a.1
        · exact absurd hk not_isPlayerCell_floor
        · exfalso
          have e := hbefore k hk
          exact b ⟨e, hc0, by rw [hl2]; exact hc1⟩
      · intro hne
        rw [mapAt_mapSet, if_neg (fun e => hne e.1), mapAt_mapSet,
          if_pos ⟨rfl, hc0, by rw [hl2]; exact hc1⟩]
    · rw [hmap]
      refine ⟨by simp only [length_mapSet]; rw [hlen2, hlen1, hlen], ?_, ?_, ?_⟩
      · rw [mapAt_mapSet, if_pos ⟨rfl, hn0, by simp only [length_mapSet]; rw [hl2]; exact hn1⟩]
      · intro k hk
        simp only [mapAt_mapSet, length_mapSet] at hk
        split_ifs at hk with a b c
        · exact a.1
        · exact absurd hk not_isPlayerCell_floor
        · exact absurd hk not_isPlayerCell_floor
        · exfalso
          have e := hbefore k hk
          exact b ⟨e, hc0, by rw [hl2]; exact hc1⟩
      · intro hne
        rw [mapAt_mapSet, if_neg (fun e => hne e.1), mapAt_mapSet,
          if_pos ⟨rfl, hc0, by rw [length_mapSet, hl2]; exact hc1⟩]
    · exact absurd hbreak hlast
  obtain ⟨k1, k2, k3, k4⟩ := key
  rw [hcur2, hprev2]
  refine ⟨⟨k1, by rw [hcur2]; exact hn0, by rw [hcur2]; exact hn1, by rw [hch]; exact hglyph,
    ?_, ?_⟩, ?_, k4⟩
  · rw [hcur2, k2]
    exact Or.inr hglyph
  · rw [hcur2]
    exact k3
  · rw [k2]
    exact hglyph

/-- The state of the player holds after any number of such iterations. -/
theorem placed_steps {g0 g : Game} (hs : SinglePlayer g0)
    (hsteps : Relation.ReflTransGen PlacedStep g0 g) : SinglePlayer g := by
  induction hsteps with
  | refl => exact hs
  | tail _ hstep ih => exact (placed_step ih hstep).1

/-- A state is a `SinglePlayer` state when the cell at `playerCurrentIndex` holds the player
and the map has exactly one cell that does. -/
theorem singlePlayer_of_count {g : Game} (hlen : g.map.length = 930)
    (h0 : 0 ≤ g.playerCurrentIndex) (h1 : g.playerCurrentIndex < 930)
    (hface : isFacing g.playerChar) (hcell : isPlayerCell (mapAt g.map g.playerCurrentIndex))
    (hcount : g.map.countP (fun c => decide (isPlayerCell c)) = 1) : SinglePlayer g := by
  refine ⟨hlen, h0, h1, hface, hcell, fun k hk => ?_⟩
  exact @countP_one_unique (fun c => decide (isPlayerCell c))
    (decide_eq_false not_isPlayerCell_zero) g.map hcount g.playerCurrentIndex k
    (decide_eq_true hcell) (decide_eq_true hk)

/-! ### The loops of `aStar` do not depend on spare fuel -/

theorem reconstructLoop_mono (cameFrom : Point → Option Point) :
    ∀ (fuel : Nat) (current : Point) (path r : List Point),
      reconstructLoop cameFrom fuel current path = some r →
      ∀ k, reconstructLoop cameFrom (fuel + k) current path = some r := by
  intro fuel
  induction fuel with
  | zero =>
    intro current path r h
    simp [reconstructLoop] at h
  | succ fuel ih =>
    intro current path r h k
    rw [Nat.add_right_comm, reconstructLoop]
    rw [reconstructLoop] at h
    cases hc : cameFrom current with
    | none =>
      rw [hc] at h
      exact h
    | some prev =>
      rw [hc] at h
      exact ih prev _ r h k

theorem aStarLoop_mono (start goal : Point) (map : List Nat) :
    ∀ (fuel : Nat) (st : AStarState) (r : List Point),
      aStarLoop start goal map fuel st = some r →
      ∀ k, aStarLoop start goal map (fuel + k) st = some r := by
  intro fuel
  induction fuel with
  | zero =>
    intro st r h
    simp [aStarLoop] at h
  | succ fuel ih =>
    intro st r h k
    rw [Nat.add_right_comm, aStarLoop]
    rw [aStarLoop] at h
    by_cases hempty : st.openSet = []
    · rw [if_pos hempty] at h ⊢
      exact h
    · rw [if_neg hempty] at h ⊢
      cases hlow : findLowest st.fScore st.openSet with
      | none =>
        rw [hlow] at h
        cases h
      | some current =>
        rw [hlow] at h
        simp only at h ⊢
        by_cases hgoal : current.x = goal.x ∧ current.y = goal.y
        · rw [if_pos hgoal] at h ⊢
          cases hrec : reconstructLoop st.cameFrom fuel current [] with
          | none =>
            rw [hrec] at h
            cases h
          | some path =>
            rw [hrec] at h
            rw [reconstructLoop_mono st.cameFrom fuel current [] path hrec k]
            exact h
        · rw [if_neg hgoal] at h ⊢
          exact ih _ r h k

/-! ### The movement of the player with several keys held -/

theorem moveW_delta (keys : Keys) (map : List Nat) (m : Mover) :
    (moveW keys map m).playerX = m.playerX
      ∧ m.playerY - 1 ≤ (moveW keys map m).playerY ∧ (moveW keys map m).playerY ≤ m.playerY := by
  unfold moveW
  split_ifs <;> simp

theorem moveA_delta (keys : Keys) (map : List Nat) (m : Mover) :
    (moveA keys map m).playerY = m.playerY
      ∧ m.playerX - 1 ≤ (moveA keys map m).playerX ∧ (moveA keys map m).playerX ≤ m.playerX := by
  unfold moveA
  split_ifs <;> simp

theorem moveS_delta (keys : Keys) (map : List Nat) (m : Mover) :
    (moveS keys map m).playerX = m.playerX
      ∧ m.playerY ≤ (moveS keys map m).playerY ∧ (moveS keys map m).playerY ≤ m.playerY + 1 := by
  unfold moveS
  split_ifs <;> simp

theorem moveD_delta (keys : Keys) (map : List Nat) (m : Mover) :
    (moveD keys map m).playerY = m.playerY
      ∧ m.playerX ≤ (moveD keys map m).playerX ∧ (moveD keys map m).playerX ≤ m.playerX + 1 := by
  unfold moveD
  split_ifs <;> simp

/-- Each coordinate changes by at most 1 in a call of `handlePlayerMovement`. -/
theorem handlePlayerMovement_delta (keys : Keys) (map : List Nat) (m : Mover) :
    m.playerX - 1 ≤ (handlePlayerMovement keys m map).playerX
      ∧ (handlePlayerMovement keys m map).playerX ≤ m.playerX + 1
      ∧ m.playerY - 1 ≤ (handlePlayerMovement keys m map).playerY
      ∧ (handlePlayerMovement keys m map).playerY ≤ m.playerY + 1 := by
  rw [handlePlayerMovement_eq]
  obtain ⟨a1, a2, a3⟩ := moveW_delta keys map m
  obtain ⟨b1, b2, b3⟩ := moveA_delta keys map (moveW keys map m)
  obtain ⟨c1, c2, c3⟩ := moveS_delta keys map (moveA keys map (moveW keys map m))
  obtain ⟨d1, d2, d3⟩ := moveD_delta keys map (moveS keys map (moveA keys map (moveW keys map m)))
  omega

/-- A cell of a bordered map that is not a Wall is not on the border. -/
theorem interior_of_borderWalled {map : List Nat} (hb : borderWalled map) {x y : Int}
    (hin : inGrid ⟨x, y⟩) (hw : mapAt map (coordConvert2T1 x y) ≠ wallChar) :
    1 ≤ x ∧ x ≤ 28 ∧ 1 ≤ y ∧ y ≤ 29 := by
  have h := hb x y hin
  have hg : 0 ≤ x ∧ x < 30 ∧ 0 ≤ y ∧ y < 31 := hin
  have e1 : mapWidth - 1 = 29 := by decide
  have e2 : mapHeight - 1 = 30 := by decide
  rw [e1, e2] at h
  by_contra hc
  apply hw
  apply h
  omega

theorem mapAt_range_map (f : Nat → Nat) (n : Nat) (i : Int) (h0 : 0 ≤ i) (h1 : i < n) :
    mapAt ((List.range n).map f) i = f i.toNat := by
  have hi : i.toNat < ((List.range n).map f).length := by
    rw [List.length_map, List.length_range]
    omega
  have := mapAt_natCast ((List.range n).map f) i.toNat hi
  rw [Int.toNat_of_nonneg h0] at this
  rw [this]
  simp

/-- The level `chaseMap` has Walls on its border. -/
theorem chaseMap_borderWalled : borderWalled chaseMap := by
  intro x y hin hb
  have hg : 0 ≤ x ∧ x < 30 ∧ 0 ≤ y ∧ y < 31 := hin
  have e1 : mapWidth - 1 = 29 := by decide
  have e2 : mapHeight - 1 = 30 := by decide
  rw [e1, e2] at hb
  have hc : coordConvert2T1 x y = y * 30 + x := rfl
  have hmap : chaseMap = mapSet (mapSet ((List.range 930).map (fun i =>
      if i < 30 ∨ 900 ≤ i ∨ i % 30 = 0 ∨ i % 30 = 29 then WALL
      else if 310 ≤ i ∧ i ≤ 319 then COIN else FLOOR)) 154 ENEMY) 155 PLAYER_RIGHT := rfl
  rw [hmap, hc, mapAt_mapSet, if_neg (fun e => by omega), mapAt_mapSet,
    if_neg (fun e => by omega), mapAt_range_map _ 930 _ (by omega) (by omega)]
  have hcond : (y * 30 + x).toNat < 30 ∨ 900 ≤ (y * 30 + x).toNat
      ∨ (y * 30 + x).toNat % 30 = 0 ∨ (y * 30 + x).toNat % 30 = 29 := by omega
  simp only [hcond, if_true]
  rfl

/-! ## Claims about the pathfinder -/

/-- C1: for every map and in-range start and goal, a non-empty sequence returned by
`aStar(start, goal, map)` begins with `start`, ends with `goal`, and any two consecutive
points differ by exactly 1 in one coordinate and by 0 in the other. -/
theorem aStar_path_from_start_to_goal (start goal : Point) (map : List Nat)
    (path : List Point) (hs : inGrid start) (hg : inGrid goal)
    (h : aStar start goal map = some path) (hne : path ≠ []) :
    path.head? = some start ∧ path.getLast? = some goal
      ∧ List.Chain' (fun a b : Point =>
          (intAbs (a.x - b.x) = 1 ∧ a.y - b.y = 0) ∨ (a.x - b.x = 0 ∧ intAbs (a.y - b.y) = 1))
          path := by
  have _hg := hg
  rcases aStar_result (inGrid_inU hs) h with ⟨he, _⟩ | hgoal
  · exact absurd he hne
  · obtain ⟨h1, h2, h3⟩ := GoalResult_walk hgoal
    refine ⟨h1, h2, ?_⟩
    apply List.Chain'.imp _ (isWalk_unitSteps map path h3)
    intro a b hab
    unfold unitStep at hab
    unfold intAbs
    split_ifs <;> omega

theorem aStar_path_from_start_to_goal_witness :
    List.head? [(⟨0, 0⟩ : Point), ⟨0, 1⟩, ⟨1, 1⟩] = some ⟨0, 0⟩
      ∧ List.getLast? [(⟨0, 0⟩ : Point), ⟨0, 1⟩, ⟨1, 1⟩] = some ⟨1, 1⟩
      ∧ List.Chain' (fun a b : Point =>
          (intAbs (a.x - b.x) = 1 ∧ a.y - b.y = 0) ∨ (a.x - b.x = 0 ∧ intAbs (a.y - b.y) = 1))
          [(⟨0, 0⟩ : Point), ⟨0, 1⟩, ⟨1, 1⟩] :=
  aStar_path_from_start_to_goal ⟨0, 0⟩ ⟨1, 1⟩ (List.replicate 930 FLOOR)
    [⟨0, 0⟩, ⟨0, 1⟩, ⟨1, 1⟩] (by decide) (by decide)
    (by decide!) (by simp)

/-- C2: for every map and in-range start and goal, a non-empty path returned by `aStar` is a
shortest one: no sequence of points from start to goal in which every step goes to a point
returned by `getNeighbours` for the previous point has fewer points. -/
theorem aStar_path_shortest (start goal : Point) (map : List Nat) (path : List Point)
    (hs : inGrid start) (hg : inGrid goal) (h : aStar start goal map = some path)
    (hne : path ≠ []) (w : List Point)
    (hw : List.Chain' (fun p q => q ∈ getNeighbours p map) w)
    (hfirst : w.head? = some start) (hlast : w.getLast? = some goal) :
    path.length ≤ w.length := by
  have _hg := hg
  rcases aStar_result (inGrid_inU hs) h with ⟨he, _⟩ | hgoal
  · exact absurd he hne
  · exact GoalResult_shortest hgoal w hw hfirst hlast

theorem aStar_path_shortest_witness :
    [(⟨0, 0⟩ : Point), ⟨0, 1⟩, ⟨1, 1⟩].length
      ≤ [(⟨0, 0⟩ : Point), ⟨1, 0⟩, ⟨2, 0⟩, ⟨2, 1⟩, ⟨1, 1⟩].length :=
  aStar_path_shortest ⟨0, 0⟩ ⟨1, 1⟩ (List.replicate 930 FLOOR)
    [⟨0, 0⟩, ⟨0, 1⟩, ⟨1, 1⟩] (by decide) (by decide)
    (by decide!) (by simp)
    [⟨0, 0⟩, ⟨1, 0⟩, ⟨2, 0⟩, ⟨2, 1⟩, ⟨1, 1⟩]
    (by
      simp only [List.chain'_cons, List.chain'_singleton, and_true]
      decide!)
    rfl rfl

/-- C3: on an open 30x31 grid (no cell is Wall or Coin), for every pair of in-range points
`a` and `b`, `aStar(a, b, map)` returns a path with exactly
`1 + |a.x - b.x| + |a.y - b.y|` points. -/
theorem aStar_open_grid_length (a b : Point) (map : List Nat) (hlen : map.length = 930)
    (hopen : ∀ c ∈ map, c ≠ wallChar ∧ c ≠ coinChar) (ha : inGrid a) (hb : inGrid b) :
    ∃ path, aStar a b map = some path
      ∧ (path.length : Int) = 1 + intAbs (a.x - b.x) + intAbs (a.y - b.y) := by
  have _hlen := hlen
  have haU := inGrid_inU ha
  have hbU := inGrid_inU hb
  obtain ⟨path, hpath⟩ := aStar_isSome map haU hbU
  have hnn := getHeuristic_nonneg a b
  obtain ⟨w, hw1, hw2, hw3, hw4⟩ :=
    openGrid_walk hopen b hbU (getHeuristic a b).toNat a haU (by omega)
  refine ⟨path, hpath, ?_⟩
  rcases aStar_result haU hpath with ⟨_, st, hA, hempty⟩ | hgoal
  · obtain ⟨q, hq, _⟩ := frontier hA w a 0 hw1 hw2 hw3 hA.1.g_start
    rw [hempty] at hq
    simp at hq
  · obtain ⟨h1, h2, h3⟩ := GoalResult_walk hgoal
    have hle := GoalResult_shortest hgoal w hw1 hw2 hw3
    have hge := isWalk_heuristic map b path a h3 h1 h2
    have e : getHeuristic a b = intAbs (a.x - b.x) + intAbs (a.y - b.y) := rfl
    omega

theorem aStar_open_grid_length_witness :
    ∃ path, aStar ⟨3, 4⟩ ⟨7, 2⟩ (List.replicate 930 FLOOR) = some path
      ∧ (path.length : Int) = 1 + intAbs (3 - 7) + intAbs (4 - 2) :=
  aStar_open_grid_length ⟨3, 4⟩ ⟨7, 2⟩ (List.replicate 930 FLOOR)
    (List.length_replicate 930 FLOOR)
    (by
      intro c hc
      rw [List.eq_of_mem_replicate hc]
      decide)
    (by decide) (by decide)

/-- C4: for every map, every start point whose cell holds an Enemy and every in-range goal,
no point of the path returned by `aStar(start, goal, map)` is read at a Wall or Coin cell
(the goal point included). -/
theorem aStar_path_avoids_walls_and_coins (start goal : Point) (map : List Nat)
    (path : List Point) (hs : inGrid start)
    (hcell : mapAt map (coordConvert2T1 start.x start.y) = enemyChar) (hg : inGrid goal)
    (h : aStar start goal map = some path) (p : Point) (hp : p ∈ path) :
    mapAt map (coordConvert2T1 p.x p.y) ≠ wallChar
      ∧ mapAt map (coordConvert2T1 p.x p.y) ≠ coinChar := by
  have _hg := hg
  rcases aStar_result (inGrid_inU hs) h with ⟨he, _⟩ | hgoal
  · rw [he] at hp
    simp at hp
  · obtain ⟨h1, _, h3⟩ := GoalResult_walk hgoal
    rcases isWalk_cells map path h3 p hp with h4 | h4
    · rw [h1] at h4
      cases h4
      rw [hcell]
      decide
    · exact h4

theorem aStar_path_avoids_walls_and_coins_witness :
    mapAt ((List.replicate 930 FLOOR).set 30 ENEMY) (coordConvert2T1 2 1) ≠ wallChar
      ∧ mapAt ((List.replicate 930 FLOOR).set 30 ENEMY) (coordConvert2T1 2 1) ≠ coinChar :=
  aStar_path_avoids_walls_and_coins ⟨0, 1⟩ ⟨2, 1⟩ ((List.replicate 930 FLOOR).set 30 ENEMY)
    [⟨0, 1⟩, ⟨1, 1⟩, ⟨2, 1⟩] (by decide) (by decide) (by decide)
    (by decide!) ⟨2, 1⟩ (by simp)

/-- C5 fails on the code in column 29: on `walledEdgeGoalMap` the goal (29,5), the player's
cell, has a Wall on each of its three neighbour cells inside the grid, the start (27,5) is an
Enemy cell, and `aStar` returns a nine-point path instead of the empty sequence.  The path
reaches the goal through the points (30,3), (30,4), (30,5), which lie outside the grid and
which the right-neighbour test `p.x < mapWidth` of `getNeighbours` admits. -/
theorem aStar_walled_goal_right_edge :
    walledEdgeGoalMap.length = 930 ∧ inGrid ⟨27, 5⟩ ∧ inGrid ⟨29, 5⟩
      ∧ (⟨27, 5⟩ : Point) ≠ ⟨29, 5⟩
      ∧ mapAt walledEdgeGoalMap (coordConvert2T1 27 5) = enemyChar
      ∧ (∀ q : Point, inGrid q → unitStep ⟨29, 5⟩ q →
          mapAt walledEdgeGoalMap (coordConvert2T1 q.x q.y) = wallChar)
      ∧ getNeighbours ⟨29, 3⟩ walledEdgeGoalMap = [⟨28, 3⟩, ⟨30, 3⟩, ⟨29, 2⟩]
      ∧ ¬ inGrid ⟨30, 3⟩
      ∧ aStar ⟨27, 5⟩ ⟨29, 5⟩ walledEdgeGoalMap
          = some [⟨27, 5⟩, ⟨27, 4⟩, ⟨28, 4⟩, ⟨28, 3⟩, ⟨29, 3⟩, ⟨30, 3⟩, ⟨30, 4⟩, ⟨30, 5⟩,
              ⟨29, 5⟩]
      ∧ aStar ⟨27, 5⟩ ⟨29, 5⟩ walledEdgeGoalMap ≠ some [] := by
  refine ⟨by simp only [walledEdgeGoalMap, List.length_set, List.length_replicate], by decide,
    by decide, by decide, by decide!, ?_, by decide!, by decide, ?_, ?_⟩
  · intro q hin hstep
    have hq : q = ⟨30, 5⟩ ∨ q = ⟨28, 5⟩ ∨ q = ⟨29, 6⟩ ∨ q = ⟨29, 4⟩ := by
      cases q
      simp only [unitStep] at hstep
      simp only [Point.mk.injEq]
      omega
    rcases hq with rfl | rfl | rfl | rfl
    · exact absurd hin (by decide)
    · decide!
    · decide!
    · decide!
  · decide!
  · decide!

/-- Away from column 29 the pathfinder does return the empty sequence on a walled-off goal:
for every map and every in-range start and goal with `start ≠ goal`, the goal not in column
29 and the start cell not a Wall (it is an Enemy cell in every call the program makes), if
every orthogonal neighbour cell of the goal inside the 30x31 grid is a Wall then
`aStar(start, goal, map)` returns the empty sequence. -/
theorem aStar_walled_goal_empty (start goal : Point) (map : List Nat) (hs : inGrid start)
    (hg : inGrid goal) (hne : start ≠ goal) (hcol : goal.x < 29)
    (hstart : mapAt map (coordConvert2T1 start.x start.y) ≠ wallChar)
    (hwall : ∀ q : Point, inGrid q → unitStep goal q →
      mapAt map (coordConvert2T1 q.x q.y) = wallChar) :
    aStar start goal map = some [] := by
  obtain ⟨path, hpath⟩ := aStar_isSome map (inGrid_inU hs) (inGrid_inU hg)
  rcases aStar_result (inGrid_inU hs) hpath with ⟨he, _⟩ | hgoal
  · rw [hpath, he]
  · exfalso
    obtain ⟨st, s, vg, hA, hlow, hvg, _, _, _, _, _⟩ := hgoal
    obtain ⟨q, hq⟩ := hA.1.g_cf goal vg hvg (Ne.symm hne)
    obtain ⟨hmem, vq, _, hvq, _, _⟩ := hA.1.cf_edge goal q hq
    have hstep := getNeighbours_unitStep hmem
    have hqU := hA.1.g_inU q vq hvq
    have hqG : inGrid q := by
      unfold inGrid at hg ⊢
      unfold inU at hqU
      unfold unitStep at hstep
      omega
    have hqw := hwall q hqG (by
      unfold unitStep at hstep ⊢
      omega)
    by_cases e : q = start
    · subst e
      exact hstart hqw
    · obtain ⟨r, hr⟩ := hA.1.g_cf q vq hvq e
      exact (getNeighbours_cell (hA.1.cf_edge q r hr).1).1 hqw

/-- C6: for every map and every point `p`, `aStar(p, p, map)` returns the one-element
sequence `[p]`, whatever the cells at `p` and around it hold. -/
theorem aStar_same_point (p : Point) (map : List Nat) : aStar p p map = some [p] := by
  have e : aStarFuel = (aStarFuel - 2) + 1 + 1 := by decide
  unfold aStar
  rw [e, aStarLoop]
  have hlow : findLowest (aStarInit p p).fScore (aStarInit p p).openSet = some p := by
    simp [findLowest, lowestStep, aStarInit, mapPut, getHeuristic_self, intMax]
  rw [hlow]
  simp [aStarInit, reconstructLoop]

/-! ## Claims about the enemy movement and the game loop -/

/-- C7 fails on the code at the right edge: on `rightEdgeMap` the only Enemy is at (29,5)
(index 179) and the player at (29,7) (index 239); `aStar` takes the path through the point
(30,5), which `getNeighbours` admits, and `handleEnemyMovement` writes the Enemy at
`coordConvert2T1(30, 5) = 180`, the cell (0,6), which is not adjacent to (29,5). -/
theorem handleEnemyMovement_right_edge_teleport :
    rightEdgeMap.length = 930
      ∧ getEnemyIndexes rightEdgeMap = [179] ∧ coordConvert1T2 179 = [29, 5]
      ∧ coordConvert2T1 29 7 = 239
      ∧ aStar ⟨29, 5⟩ ⟨29, 7⟩ rightEdgeMap
          = some [⟨29, 5⟩, ⟨30, 5⟩, ⟨30, 6⟩, ⟨30, 7⟩, ⟨29, 7⟩]
      ∧ handleEnemyMovement (getEnemyIndexes rightEdgeMap) rightEdgeMap 239
          = some rightEdgeMapMoved
      ∧ getEnemyIndexes rightEdgeMapMoved = [180] ∧ coordConvert1T2 180 = [0, 6] := by
  have hlen : rightEdgeMap.length = 930 := by
    simp only [rightEdgeMap, List.length_set, List.length_replicate]
  have hlen2 : rightEdgeMapMoved.length = 930 := by
    simp only [rightEdgeMapMoved, List.length_set, hlen]
  have hscan : getEnemyIndexes rightEdgeMap = [179] := by
    rw [getEnemyIndexes_eq_enemyScan _ hlen]
    decide!
  have hscan2 : getEnemyIndexes rightEdgeMapMoved = [180] := by
    rw [getEnemyIndexes_eq_enemyScan _ hlen2]
    decide!
  rw [hscan, hscan2]
  refine ⟨hlen, rfl, ?_, ?_, ?_, ?_, rfl, ?_⟩ <;> decide!

/-- The scenario of the spec: with row 0 open, the Enemy at (0,0) and the player at (4,0),
`handleEnemyMovement` moves the Enemy to (1,0). -/
theorem handleEnemyMovement_open_row :
    handleEnemyMovement (getEnemyIndexes openRowMap) openRowMap (coordConvert2T1 4 0)
      = some openRowMapMoved := by
  have hlen : openRowMap.length = 930 := by
    simp only [openRowMap, List.length_set, List.length_replicate]
  have hscan : getEnemyIndexes openRowMap = [0] := by
    rw [getEnemyIndexes_eq_enemyScan _ hlen]
    decide!
  rw [hscan]
  decide!

/-- C8 fails on the code: in `chaseGame` the player at (5,5) moves right to (6,5) while the
only Enemy, at (4,5), steps into (5,5), the cell the player has just left; the final
`map[playerPreviousIndex] = floorChar` then erases it.  The iteration ends without game over
and without level change, and the number of Enemy cells goes from 1 to 0. -/
theorem loopBody_erases_enemy :
    countCells enemyChar chaseGame.map = 1
      ∧ (loopBody chaseEnv chaseGame).map
          (fun g => (countCells enemyChar g.map, g.gameOver, g.currentLevel, g.counter))
        = some (0, false, chaseGame.currentLevel, chaseGame.counter + 1) := by
  have hlen : chaseMap.length = 930 := by
    simp only [chaseMap, List.length_set, List.length_map, List.length_range]
  have hscan : getEnemyIndexes chaseMap = [154] := by
    rw [getEnemyIndexes_eq_enemyScan _ hlen]
    decide!
  have hen : enemyPhase (chaseGame.counter + 1) chaseMap (coordConvert2T1 6 5)
      = some chaseMapMoved := by
    unfold enemyPhase
    rw [hscan]
    decide!
  have hd : doorPhase chaseGame = (chaseMap, 59) := by decide!
  have hm : handlePlayerMovement chaseEnv.keys
      { playerX := chaseGame.playerX, playerY := chaseGame.playerY,
        playerChar := chaseGame.playerChar } chaseMap
      = { playerX := 6, playerY := 5, playerChar := PLAYER_RIGHT } := by decide!
  refine ⟨by decide!, ?_⟩
  rw [loopBody_of_phases chaseEnv chaseGame chaseMap 59 _ chaseMapMoved hd hm hen]
  decide!

/-! ## Claims about the coordinate conversion and the entity placement -/

/-- C9: `coordConvert2T1` and `coordConvert1T2` are mutually inverse between the in-range
coordinates (`0 ≤ x < 30`, `0 ≤ y < 31`) and the in-range indices (`0 ≤ idx < 930`). -/
theorem coordConvert_bijection (x y idx : Int) (hx : 0 ≤ x ∧ x < 30) (hy : 0 ≤ y ∧ y < 31)
    (hidx : 0 ≤ idx ∧ idx < 930) :
    (coordConvert1T2 (coordConvert2T1 x y) = [x, y]
        ∧ 0 ≤ coordConvert2T1 x y ∧ coordConvert2T1 x y < 930)
      ∧ ∃ x2 y2, coordConvert1T2 idx = [x2, y2] ∧ 0 ≤ x2 ∧ x2 < 30 ∧ 0 ≤ y2 ∧ y2 < 31
          ∧ coordConvert2T1 x2 y2 = idx := by
  unfold coordConvert1T2 coordConvert2T1 mapWidth
  constructor
  · have h1 : Int.tmod (y * 30 + x) 30 = x := by
      rw [Int.tmod_eq_emod (by omega) (by omega)]
      omega
    simp only [h1]
    have h2 : Int.tdiv (y * 30 + x - x) 30 = y := by
      rw [Int.tdiv_eq_ediv (by omega) (by omega)]
      omega
    rw [h2]
    exact ⟨rfl, by omega, by omega⟩
  · refine ⟨Int.tmod idx 30, Int.tdiv (idx - Int.tmod idx 30) 30, rfl, ?_⟩
    rw [Int.tmod_eq_emod (by omega) (by omega)]
    rw [Int.tdiv_eq_ediv (by omega) (by omega)]
    omega

theorem coordConvert_bijection_witness :
    (coordConvert1T2 (coordConvert2T1 29 30) = [29, 30]
        ∧ 0 ≤ coordConvert2T1 29 30 ∧ coordConvert2T1 29 30 < 930)
      ∧ ∃ x2 y2, coordConvert1T2 929 = [x2, y2] ∧ 0 ≤ x2 ∧ x2 < 30 ∧ 0 ≤ y2 ∧ y2 < 31
          ∧ coordConvert2T1 x2 y2 = 929 :=
  coordConvert_bijection 29 30 929 (by decide) (by decide) (by decide)

/-- C10: for every map of 930 cells, every count `N ≥ 0` and every outcome of the shuffle (any
permutation of the eligible list), `generateCoins(N, map)` changes exactly `min(N, E)` cells,
`E` being the number of eligible cells at call time, sets each of them to Coin and leaves
every other cell unchanged; when `E < N` all eligible cells are set.  The same holds for
`generateEnemies` with Enemy in place of Coin. -/
theorem generate_placement (map : List Nat) (playerChar : Nat) (N : Int)
    (shuffle : List Int → List Int) (hlen : map.length = 930) (hN : 0 ≤ N)
    (hperm : (shuffle (eligibleCells map playerChar)).Perm (eligibleCells map playerChar)) :
    PlacementSpec coinChar map playerChar N (generateCoins shuffle playerChar N map)
      ∧ PlacementSpec enemyChar map playerChar N
          (generateEnemies shuffle playerChar N map) := by
  constructor
  · exact placeLoop_spec map playerChar coinChar _ N hlen hN hperm
      (fun c hc => ((mem_eligibleCells map playerChar c).1 hc).2.2.2.2.2)
  · exact placeLoop_spec map playerChar enemyChar _ N hlen hN hperm
      (fun c hc => ((mem_eligibleCells map playerChar c).1 hc).2.2.2.1)

theorem generate_placement_witness :
    PlacementSpec coinChar chaseMap PLAYER_UP 10
        (generateCoins List.reverse PLAYER_UP 10 chaseMap)
      ∧ PlacementSpec enemyChar chaseMap PLAYER_UP 10
          (generateEnemies List.reverse PLAYER_UP 10 chaseMap) :=
  generate_placement chaseMap PLAYER_UP 10 List.reverse
    (by simp only [chaseMap, List.length_set, List.length_map, List.length_range])
    (by decide) (List.reverse_perm _)

/-! ## Claims about the player movement, the neighbours and the heuristic -/

/-- C12: for every map and every player position (x, y) whose four orthogonal neighbours are
inside the grid, with exactly one movement key held, `handlePlayerMovement` leaves the
position unchanged when the cell in that direction is a Wall and moves it by exactly one cell
in that direction otherwise; in both cases `playerChar` becomes the glyph of that direction. -/
theorem handlePlayerMovement_single_key (map : List Nat) (x y : Int) (ch : Nat)
    (hx : 1 ≤ x ∧ x ≤ 28) (hy : 1 ≤ y ∧ y ≤ 29) :
    handlePlayerMovement { W := true, A := false, S := false, D := false }
        { playerX := x, playerY := y, playerChar := ch } map
        = (if mapAt map (coordConvert2T1 x (y - 1)) = wallChar
            then { playerX := x, playerY := y, playerChar := PLAYER_UP }
            else { playerX := x, playerY := y - 1, playerChar := PLAYER_UP })
      ∧ handlePlayerMovement { W := false, A := true, S := false, D := false }
        { playerX := x, playerY := y, playerChar := ch } map
        = (if mapAt map (coordConvert2T1 (x - 1) y) = wallChar
            then { playerX := x, playerY := y, playerChar := PLAYER_LEFT }
            else { playerX := x - 1, playerY := y, playerChar := PLAYER_LEFT })
      ∧ handlePlayerMovement { W := false, A := false, S := true, D := false }
        { playerX := x, playerY := y, playerChar := ch } map
        = (if mapAt map (coordConvert2T1 x (y + 1)) = wallChar
            then { playerX := x, playerY := y, playerChar := PLAYER_DOWN }
            else { playerX := x, playerY := y + 1, playerChar := PLAYER_DOWN })
      ∧ handlePlayerMovement { W := false, A := false, S := false, D := true }
        { playerX := x, playerY := y, playerChar := ch } map
        = (if mapAt map (coordConvert2T1 (x + 1) y) = wallChar
            then { playerX := x, playerY := y, playerChar := PLAYER_RIGHT }
            else { playerX := x + 1, playerY := y, playerChar := PLAYER_RIGHT }) := by
  have _hx := hx
  have _hy := hy
  refine ⟨?_, ?_, ?_, ?_⟩ <;>
    · unfold handlePlayerMovement
      simp only [if_true, if_false, Bool.false_eq_true]
      split_ifs <;> simp

theorem handlePlayerMovement_single_key_witness :
    handlePlayerMovement { W := true, A := false, S := false, D := false }
        { playerX := 1, playerY := 1, playerChar := PLAYER_RIGHT } chaseMap
        = (if mapAt chaseMap (coordConvert2T1 1 (1 - 1)) = wallChar
            then { playerX := 1, playerY := 1, playerChar := PLAYER_UP }
            else { playerX := 1, playerY := 1 - 1, playerChar := PLAYER_UP })
      ∧ handlePlayerMovement { W := false, A := true, S := false, D := false }
        { playerX := 1, playerY := 1, playerChar := PLAYER_RIGHT } chaseMap
        = (if mapAt chaseMap (coordConvert2T1 (1 - 1) 1) = wallChar
            then { playerX := 1, playerY := 1, playerChar := PLAYER_LEFT }
            else { playerX := 1 - 1, playerY := 1, playerChar := PLAYER_LEFT })
      ∧ handlePlayerMovement { W := false, A := false, S := true, D := false }
        { playerX := 1, playerY := 1, playerChar := PLAYER_RIGHT } chaseMap
        = (if mapAt chaseMap (coordConvert2T1 1 (1 + 1)) = wallChar
            then { playerX := 1, playerY := 1, playerChar := PLAYER_DOWN }
            else { playerX := 1, playerY := 1 + 1, playerChar := PLAYER_DOWN })
      ∧ handlePlayerMovement { W := false, A := false, S := false, D := true }
        { playerX := 1, playerY := 1, playerChar := PLAYER_RIGHT } chaseMap
        = (if mapAt chaseMap (coordConvert2T1 (1 + 1) 1) = wallChar
            then { playerX := 1, playerY := 1, playerChar := PLAYER_RIGHT }
            else { playerX := 1 + 1, playerY := 1, playerChar := PLAYER_RIGHT }) :=
  handlePlayerMovement_single_key chaseMap 1 1 PLAYER_RIGHT (by decide) (by decide)

/-- C18 fails on the code in column 29: for the in-range point (29,30) on a map of 930 Floor
cells, `getNeighbours` reads `map[930]`, which is outside `[0, 930)`, and returns the point
(30,30), which is outside the grid; for (29,5) it reads index 180, the cell (0,6), and
returns (30,5). -/
theorem getNeighbours_right_edge :
    (List.replicate 930 FLOOR).length = 930 ∧ inGrid ⟨29, 30⟩
      ∧ getNeighboursReads ⟨29, 30⟩ = [928, 930, 899]
      ∧ getNeighbours ⟨29, 30⟩ (List.replicate 930 FLOOR) = [⟨28, 30⟩, ⟨30, 30⟩, ⟨29, 29⟩]
      ∧ ¬ inGrid ⟨30, 30⟩
      ∧ getNeighboursReads ⟨29, 5⟩ = [178, 180, 149, 209]
      ∧ getNeighbours ⟨29, 5⟩ (List.replicate 930 FLOOR)
          = [⟨28, 5⟩, ⟨30, 5⟩, ⟨29, 4⟩, ⟨29, 6⟩]
      ∧ coordConvert1T2 180 = [0, 6] := by
  refine ⟨List.length_replicate 930 FLOOR, ?_, ?_, ?_, ?_, ?_, ?_, ?_⟩ <;> decide!

/-- C20: `getHeuristic` is the Manhattan distance, is 0 from a point to itself, and is
consistent for unit steps: for points with coordinates in [0, 30], an orthogonal unit step
changes it by at most 1; hence it never exceeds the number of steps of a `getNeighbours`
walk from `a` to `g`. -/
theorem getHeuristic_manhattan_consistent (a b g : Point) (ha : inU a) (hb : inU b)
    (hg : inU g) :
    getHeuristic a g = |a.x - g.x| + |a.y - g.y|
      ∧ getHeuristic g g = 0
      ∧ (unitStep a b → getHeuristic a g ≤ 1 + getHeuristic b g)
      ∧ ∀ (map : List Nat) (w : List Point),
          List.Chain' (fun p q => q ∈ getNeighbours p map) w → w.head? = some a →
          w.getLast? = some g → getHeuristic a g ≤ (w.length : Int) - 1 := by
  have _ha := ha
  have _hb := hb
  have _hg := hg
  refine ⟨?_, getHeuristic_self g, ?_, ?_⟩
  · unfold getHeuristic intAbs
    rcases abs_cases (a.x - g.x) with ⟨h1, h2⟩ | ⟨h1, h2⟩ <;>
      rcases abs_cases (a.y - g.y) with ⟨h3, h4⟩ | ⟨h3, h4⟩ <;>
      rw [h1, h3] <;> split_ifs <;> omega
  · intro hstep
    have := unitStep_heuristic g hstep
    omega
  · intro map w hw hh hl
    have := isWalk_heuristic map g w a hw hh hl
    omega

theorem getHeuristic_manhattan_consistent_witness :
    getHeuristic ⟨3, 4⟩ ⟨7, 2⟩ = |(3 : Int) - 7| + |(4 : Int) - 2|
      ∧ getHeuristic ⟨7, 2⟩ ⟨7, 2⟩ = 0
      ∧ (unitStep ⟨3, 4⟩ ⟨4, 4⟩ → getHeuristic ⟨3, 4⟩ ⟨7, 2⟩ ≤ 1 + getHeuristic ⟨4, 4⟩ ⟨7, 2⟩)
      ∧ ∀ (map : List Nat) (w : List Point),
          List.Chain' (fun p q => q ∈ getNeighbours p map) w → w.head? = some ⟨3, 4⟩ →
          w.getLast? = some ⟨7, 2⟩ → getHeuristic ⟨3, 4⟩ ⟨7, 2⟩ ≤ (w.length : Int) - 1 :=
  getHeuristic_manhattan_consistent ⟨3, 4⟩ ⟨4, 4⟩ ⟨7, 2⟩ (by unfold inU; decide)
    (by unfold inU; decide) (by unfold inU; decide)

/-! ## Claims about the level start, the level end and the enemy count -/

/-- C11 fails on the code: on the freshly loaded `freshLevelMap` the player's cell (index
155) holds the spawn marker; the eligibility test compares with `playerChar`, the facing
glyph, so the cell is eligible, and for the shuffle outcome that puts it first
`generateCoins` sets it to Coin. -/
theorem generateCoins_on_spawn_marker :
    freshLevelMap.length = 930
      ∧ mapAt freshLevelMap 155 = playerPlaceholderChar
      ∧ (moveToFront 155 (eligibleCells freshLevelMap PLAYER_UP)).Perm
          (eligibleCells freshLevelMap PLAYER_UP)
      ∧ mapAt (generateCoins (moveToFront 155) PLAYER_UP numCoins freshLevelMap) 155
          = coinChar := by
  have hlen : freshLevelMap.length = 930 := by
    simp only [freshLevelMap, List.length_set, List.length_map, List.length_range]
  have hmem : (155 : Int) ∈ eligibleCells freshLevelMap PLAYER_UP := by
    rw [mem_eligibleCells]
    decide!
  refine ⟨hlen, by decide!, moveToFront_perm hmem, ?_⟩
  rw [generateCoins_mapAt, if_pos]
  refine ⟨?_, by decide, by rw [hlen]; decide⟩
  have e : numCoins.toNat = 9 + 1 := by decide
  rw [e, moveToFront, List.take_succ_cons]
  exact List.mem_cons_self _ _

/-- C15 fails on the code: on the freshly loaded `freshLevelMap` the only Door is at index 59;
the Door cell is eligible for placement, and for the shuffle outcome that puts it first
`generateCoins` overwrites it with a Coin.  `generateEnemies` leaves it, and
`getNextLevelDoorIndex` then finds no Door: the index variable keeps its old value (here 0)
and `map[59]` is a Coin, not a Wall. -/
theorem level_start_overwrites_door :
    countCells nextLevelDoorChar freshLevelMap = 1
      ∧ mapAt freshLevelMap 59 = nextLevelDoorChar
      ∧ (moveToFront 59 (eligibleCells freshLevelMap PLAYER_UP)).Perm
          (eligibleCells freshLevelMap PLAYER_UP)
      ∧ (getNextLevelDoorIndex
          (generateEnemies id PLAYER_UP numEnemies
            (generateCoins (moveToFront 59) PLAYER_UP numCoins freshLevelMap)) 0).2 = 0
      ∧ mapAt (getNextLevelDoorIndex
          (generateEnemies id PLAYER_UP numEnemies
            (generateCoins (moveToFront 59) PLAYER_UP numCoins freshLevelMap)) 0).1 59
          = coinChar := by
  have hlen : freshLevelMap.length = 930 := by
    simp only [freshLevelMap, List.length_set, List.length_map, List.length_range]
  have hcount : countCells nextLevelDoorChar freshLevelMap = 1 := by decide!
  have hdoor : mapAt freshLevelMap 59 = nextLevelDoorChar := by decide!
  have hmem : (59 : Int) ∈ eligibleCells freshLevelMap PLAYER_UP := by
    rw [mem_eligibleCells]
    decide!
  have htake : (59 : Int) ∈ (moveToFront 59 (eligibleCells freshLevelMap PLAYER_UP)).take
      numCoins.toNat := by
    have e : numCoins.toNat = 9 + 1 := by decide
    rw [e, moveToFront, List.take_succ_cons]
    exact List.mem_cons_self _ _
  have hr : (0 : Int) ≤ 59 ∧ (59 : Int) < freshLevelMap.length := by
    rw [hlen]
    decide
  have h1 : ∀ k, mapAt (generateCoins (moveToFront 59) PLAYER_UP numCoins freshLevelMap) k
      ≠ nextLevelDoorChar := by
    intro k hk
    rw [generateCoins_mapAt] at hk
    split_ifs at hk with h7
    · exact absurd hk (by decide)
    · have e := countCells_one_unique hcount (by decide) hdoor hk
      subst e
      exact h7 ⟨htake, hr⟩
  have h2 : ∀ k, mapAt (generateEnemies id PLAYER_UP numEnemies
      (generateCoins (moveToFront 59) PLAYER_UP numCoins freshLevelMap)) k
        ≠ nextLevelDoorChar := by
    intro k hk
    rw [generateEnemies_mapAt] at hk
    split_ifs at hk with h6
    · exact absurd hk (by decide)
    · exact h1 k hk
  have h3 : mapAt (generateEnemies id PLAYER_UP numEnemies
      (generateCoins (moveToFront 59) PLAYER_UP numCoins freshLevelMap)) 59 = coinChar := by
    have hc : mapAt (generateCoins (moveToFront 59) PLAYER_UP numCoins freshLevelMap) 59
        = coinChar := by
      rw [generateCoins_mapAt, if_pos ⟨htake, hr⟩]
    rw [generateEnemies_mapAt, if_neg, hc]
    rintro ⟨hm, _, _⟩
    have hm1 := List.mem_of_mem_take hm
    rw [id, mem_eligibleCells] at hm1
    exact hm1.2.2.2.2.2 hc
  obtain ⟨_, h4, h5⟩ := getNextLevelDoorIndex_spec
    (generateEnemies id PLAYER_UP numEnemies
      (generateCoins (moveToFront 59) PLAYER_UP numCoins freshLevelMap)) 0
  refine ⟨hcount, hdoor, moveToFront_perm hmem, ?_, ?_⟩
  · rcases h5 with h5 | h5
    · exact h5
    · exact absurd h5 (h2 _)
  · rw [h4 59, if_neg (fun h => h2 59 h.2.2), h3]

/-- C16 fails on the code: in `lastLevelGame` the current level is 2, the last of the three
levels 0, 1, 2 (`numLevels = 3`), no coin is left and the player steps onto the open door.
The test `currentLevel == numLevels` is false, so the game does not end: `currentLevel`
becomes 3 and the map is replaced by what `initMap` returns for the missing level file. -/
theorem loopBody_last_level_door :
    lastLevelGame.currentLevel = lastLevelEnv.numLevels - 1
      ∧ (loopBody lastLevelEnv lastLevelGame).map
          (fun g => (g.gameOver, g.currentLevel, g.counter, g.currentCoins, g.map))
        = some (false, 3, 0, 10, []) := by
  have hd : doorPhase lastLevelGame = (lastLevelMap, 59) := by decide!
  have hm : handlePlayerMovement lastLevelEnv.keys
      { playerX := lastLevelGame.playerX, playerY := lastLevelGame.playerY,
        playerChar := lastLevelGame.playerChar } lastLevelMap
      = { playerX := 29, playerY := 1, playerChar := PLAYER_RIGHT } := by decide!
  have hen : enemyPhase (lastLevelGame.counter + 1) lastLevelMap (coordConvert2T1 29 1)
      = some lastLevelMap := by decide!
  refine ⟨by decide, ?_⟩
  rw [loopBody_of_phases lastLevelEnv lastLevelGame lastLevelMap 59 _ lastLevelMap hd hm hen]
  decide!

/-- C19 fails on the code in the bottom right corner: on `cornerMap` the only Enemy is at
(29,30) (index 929) and the player at (29,28) (index 869); the path goes through the point
(30,30), which `getNeighbours` admits, and `handleEnemyMovement` sets the old cell to Floor
and writes the Enemy at `coordConvert2T1(30, 30) = 930`, behind the last cell of the map.
The number of Enemy cells goes from 1 to 0. -/
theorem handleEnemyMovement_corner_loses_enemy :
    cornerMap.length = 930
      ∧ countCells enemyChar cornerMap = 1
      ∧ getEnemyIndexes cornerMap = [929]
      ∧ aStar ⟨29, 30⟩ ⟨29, 28⟩ cornerMap
          = some [⟨29, 30⟩, ⟨30, 30⟩, ⟨30, 29⟩, ⟨30, 28⟩, ⟨29, 28⟩]
      ∧ coordConvert2T1 30 30 = 930
      ∧ handleEnemyMovement (getEnemyIndexes cornerMap) cornerMap 869 = some cornerMapMoved
      ∧ countCells enemyChar cornerMapMoved = 0 := by
  have hlen : cornerMap.length = 930 := by
    simp only [cornerMap, List.length_set, List.length_replicate]
  have hscan : getEnemyIndexes cornerMap = [929] := by
    rw [getEnemyIndexes_eq_enemyScan _ hlen]
    decide!
  rw [hscan]
  refine ⟨hlen, ?_, rfl, ?_, ?_, ?_, ?_⟩ <;> decide!

/-! ## Claims about the invariants of the game loop -/

/-- C13: in a state of the game in which the door has been recorded (`counter` is not 0)
and its cell is masked (it does not hold a Coin), the player's own cell holds no Coin and
`playerChar` is a facing glyph, an iteration of the game loop whose new player cell is on
the map returns, and: if the new cell (`playerCurrentIndex` after
`handlePlayerMovement`) holds a Coin, the iteration ends without game over and without level
change, `playerScore` is one more, the cell at `playerCurrentIndex` is not a Coin afterwards
and the map has exactly one Coin cell less; if it does not hold a Coin, `playerScore` is
unchanged. -/
theorem loopBody_coin_pickup (env : Env) (g : Game)
    (hcounter : g.counter ≠ 0) (hdoor : mapAt g.map g.nextLevelDoorIndex ≠ coinChar)
    (hself : mapAt g.map g.playerCurrentIndex ≠ coinChar) (hchar : isFacing g.playerChar)
    (h0 : 0 ≤ newIndex env g) (h1 : newIndex env g < 930) :
    ∃ g2, loopBody env g = some g2
      ∧ (mapAt g.map (newIndex env g) = coinChar →
          g2.gameOver = g.gameOver ∧ g2.currentLevel = g.currentLevel
            ∧ g2.playerCurrentIndex = newIndex env g
            ∧ g2.playerScore = g.playerScore + 1
            ∧ mapAt g2.map g2.playerCurrentIndex ≠ coinChar
            ∧ countCells coinChar g2.map + 1 = countCells coinChar g.map)
      ∧ (mapAt g.map (newIndex env g) ≠ coinChar → g2.playerScore = g.playerScore) := by
  obtain ⟨g2, h⟩ := loopBody_isSome env g h0 h1
  refine ⟨g2, h, ?_, ?_⟩
  · intro hcoin
    have hd := doorPhase_of_counter hcounter
    obtain ⟨map2, hen, -, hlev⟩ := loopBody_level h
    have hl : g2.currentLevel = g.currentLevel := by
      rcases hlev with hlev | ⟨-, hidx⟩
      · exact hlev
      · rw [hd] at hidx
        rw [hidx] at hcoin
        exact absurd hcoin hdoor
    obtain ⟨map3, hen3, hcur, -, -, -, -, -, hch, -, hscore, hcase⟩ := loopBody_cases h hl
    rw [hd] at hen3 hcase
    obtain ⟨hlen3, ht⟩ := enemyPhase_touched hen3
    have hcount := enemyPhase_countCells_coin hen3
    have hc3 : mapAt map3 (newIndex env g) = coinChar := (enemyTouched_coin_iff (ht _)).2 hcoin
    have hp3 : mapAt map3 g.playerCurrentIndex ≠ coinChar :=
      fun e => hself ((enemyTouched_coin_iff (ht _)).1 e)
    have hd3 : mapAt map3 g.nextLevelDoorIndex ≠ coinChar :=
      fun e => hdoor ((enemyTouched_coin_iff (ht _)).1 e)
    have hglyph : (movedPlayer env g).playerChar ≠ coinChar :=
      isFacing_ne_coin (handlePlayerMovement_facing _ _ _ hchar)
    have hcoinHere : isCoinHere map3 (newIndex env g) = true := decide_eq_true hc3
    have henemy : isEnemyHere map3 (newIndex env g) = false := by
      unfold isEnemyHere
      rw [hc3]
      decide
    rw [hcoinHere, if_pos rfl] at hscore
    refine ⟨?_, hl, hcur, hscore, ?_⟩
    · rcases hcase with ⟨-, hgo, -⟩ | ⟨-, -, hgo, -⟩ | ⟨-, hidx, -⟩
      · rw [hgo, henemy]
        rfl
      · rw [hgo, henemy]
        rfl
      · rw [hidx] at hcoin
        exact absurd hcoin hdoor
    · rw [hcur]
      rcases hcase with ⟨-, -, hmap⟩ | ⟨-, hidx, -, hmap⟩ | ⟨-, hidx, -⟩
      · rw [hmap, ← hcount]
        exact pickup_map map3 _ _ _ hglyph hc3 hp3
      · have hM : mapAt (mapSet map3 g.nextLevelDoorIndex floorChar) (newIndex env g)
            = coinChar := by
          rw [mapAt_mapSet, if_neg (fun e => hidx e.1)]
          exact hc3
        have hP : mapAt (mapSet map3 g.nextLevelDoorIndex floorChar) g.playerCurrentIndex
            ≠ coinChar := by
          rw [mapAt_mapSet]
          split_ifs
          · decide
          · exact hp3
        have s := countP_mapSet_same (fun c => c == coinChar) map3 g.nextLevelDoorIndex
          floorChar (by decide) (by simpa using hd3)
        have := pickup_map _ _ _ _ hglyph hM hP
        rw [hmap, ← hcount]
        rw [countCells_eq] at this ⊢
        rw [countCells_eq, ← s]
        exact this
      · rw [hidx] at hcoin
        exact absurd hcoin hdoor
  · intro hcoin
    obtain ⟨map2, hen, hscore, -⟩ := loopBody_level h
    rw [doorPhase_of_counter hcounter] at hen
    obtain ⟨-, ht⟩ := enemyPhase_touched hen
    have : isCoinHere map2 (newIndex env g) = false :=
      decide_eq_false (fun e => hcoin ((enemyTouched_coin_iff (ht _)).1 e))
    rw [hscore, this]
    rfl

/-- The iteration from `pickupGame` with the D key held: the player steps from (9,10) onto the
Coin at (10,10). -/
theorem loopBody_coin_pickup_witness :
    mapAt pickupGame.map (newIndex chaseEnv pickupGame) = coinChar
      ∧ ∃ g2, loopBody chaseEnv pickupGame = some g2
        ∧ (mapAt pickupGame.map (newIndex chaseEnv pickupGame) = coinChar →
            g2.gameOver = pickupGame.gameOver ∧ g2.currentLevel = pickupGame.currentLevel
              ∧ g2.playerCurrentIndex = newIndex chaseEnv pickupGame
              ∧ g2.playerScore = pickupGame.playerScore + 1
              ∧ mapAt g2.map g2.playerCurrentIndex ≠ coinChar
              ∧ countCells coinChar g2.map + 1 = countCells coinChar pickupGame.map)
        ∧ (mapAt pickupGame.map (newIndex chaseEnv pickupGame) ≠ coinChar →
            g2.playerScore = pickupGame.playerScore) :=
  ⟨by decide!, loopBody_coin_pickup chaseEnv pickupGame (by decide) (by decide!) (by decide!)
    (by decide) (by decide!) (by decide!)⟩

/-- C14: door gating.  From a state of a level in play whose door has been recorded at the
index `d` and is masked (`map[d]` is a Wall), after every iteration of the game loop that
does not change the level, whatever keys are held: the coin count the iteration ends with is
not negative; if it is positive, `map[d]` is a Wall; if it is 0, `map[d]` is Floor; and the
player's index is `d` only when the count is 0. -/
theorem door_gating (d : Int) (g0 g : Game) (hstate : PlayingOn d g0)
    (hwall : mapAt g0.map d = wallChar) (hsteps : Relation.TransGen LevelStep g0 g) :
    0 ≤ g.currentCoins
      ∧ (0 < g.currentCoins → mapAt g.map d = wallChar)
      ∧ (g.currentCoins = 0 → mapAt g.map d = floorChar)
      ∧ (g.playerCurrentIndex = d → g.currentCoins = 0) := by
  obtain ⟨b, hb, hlast⟩ := Relation.TransGen.tail'_iff.1 hsteps
  obtain ⟨h1, h2⟩ := gated_steps hstate hwall hb
  exact (gated_step h1 h2 hlast).2

/-- The iteration from `pickupGame` with the D key held: nine coins are left afterwards and
the door cell, index 59, is still a Wall. -/
theorem door_gating_witness :
    PlayingOn 59 pickupGame ∧ mapAt pickupGame.map 59 = wallChar
      ∧ Relation.TransGen LevelStep pickupGame pickupGameNext
      ∧ (0 ≤ pickupGameNext.currentCoins
        ∧ (0 < pickupGameNext.currentCoins → mapAt pickupGameNext.map 59 = wallChar)
        ∧ (pickupGameNext.currentCoins = 0 → mapAt pickupGameNext.map 59 = floorChar)
        ∧ (pickupGameNext.playerCurrentIndex = 59 → pickupGameNext.currentCoins = 0)) :=
  have hstate : PlayingOn 59 pickupGame :=
    ⟨by decide!, by decide, rfl, by decide, by decide, by decide, by decide!, by decide⟩
  have hwall : mapAt pickupGame.map 59 = wallChar := by decide!
  have hsteps : Relation.TransGen LevelStep pickupGame pickupGameNext :=
    Relation.TransGen.single ⟨chaseEnv,
      (loopBody_some_iff chaseEnv pickupGame pickupGameNext).2 ⟨pickupMap, by decide!, rfl⟩,
      by decide!⟩
  ⟨hstate, hwall, hsteps, door_gating 59 pickupGame pickupGameNext hstate hwall hsteps⟩

/-- C17: single-player invariant.  From a state in which the player is on the 30x31 map and
the only cell that holds the player (spawn marker or facing glyph) is the one at
`playerCurrentIndex`, after every iteration of the game loop that runs to its end without
level change and leaves the player on a cell of the map: a cell holds a facing glyph exactly
when it is the cell at the new `playerCurrentIndex`, no cell holds the spawn marker, and if
the player moved, the cell at the previous index is Floor. -/
theorem single_player (g0 g : Game) (k : Int) (hstate : SinglePlayer g0)
    (hsteps : Relation.TransGen PlacedStep g0 g) :
    (isFacing (mapAt g.map k) ↔ k = g.playerCurrentIndex)
      ∧ mapAt g.map k ≠ playerPlaceholderChar
      ∧ (g.playerPreviousIndex ≠ g.playerCurrentIndex →
          mapAt g.map g.playerPreviousIndex = floorChar) := by
  obtain ⟨b, hb, hlast⟩ := Relation.TransGen.tail'_iff.1 hsteps
  obtain ⟨hs, hfacing, hprev⟩ := placed_step (placed_steps hstate hb) hlast
  obtain ⟨-, -, -, -, -, huniq⟩ := hs
  refine ⟨⟨fun h => huniq k (Or.inr h), fun e => by rw [e]; exact hfacing⟩, ?_, hprev⟩
  intro e
  have hk := huniq k (Or.inl e)
  rw [hk] at e
  exact isFacing_ne_placeholder hfacing e

/-- The iteration from `pickupGame` with the D key held: afterwards the only cell with a
facing glyph is the cell (10,10), index 310, and the cell (9,10) is Floor. -/
theorem single_player_witness :
    SinglePlayer pickupGame ∧ Relation.TransGen PlacedStep pickupGame pickupGameNext
      ∧ ((isFacing (mapAt pickupGameNext.map 310) ↔ 310 = pickupGameNext.playerCurrentIndex)
        ∧ mapAt pickupGameNext.map 310 ≠ playerPlaceholderChar
        ∧ (pickupGameNext.playerPreviousIndex ≠ pickupGameNext.playerCurrentIndex →
            mapAt pickupGameNext.map pickupGameNext.playerPreviousIndex = floorChar)) :=
  have hstate : SinglePlayer pickupGame :=
    singlePlayer_of_count (by decide!) (by decide) (by decide) (by decide) (by decide!)
      (by decide!)
  have hsteps : Relation.TransGen PlacedStep pickupGame pickupGameNext :=
    Relation.TransGen.single ⟨chaseEnv, by decide,
      (loopBody_some_iff chaseEnv pickupGame pickupGameNext).2 ⟨pickupMap, by decide!, rfl⟩,
      by decide!, by decide!, by decide!⟩
  ⟨hstate, hsteps, single_player pickupGame pickupGameNext 310 hstate hsteps⟩

/-! ## Claims about termination and about the player staying off the walls -/

/-- C21: `aStar` terminates on every input of the game.  For every map and every start and
goal of the 30x31 grid the loop `while (!openSet.empty())` ends within `aStarFuel`
iterations: `aStar` returns a result, the result is the same for every larger number of
iterations allowed, and it is either the empty sequence or a walk from the start to the
goal. -/
theorem aStar_terminates (map : List Nat) (start goal : Point) (hs : inGrid start)
    (hg : inGrid goal) :
    ∃ path, aStar start goal map = some path
      ∧ (∀ fuel, aStarFuel ≤ fuel →
          aStarLoop start goal map fuel (aStarInit start goal) = some path)
      ∧ (path = []
        ∨ (path.head? = some start ∧ path.getLast? = some goal ∧ isWalk map path)) := by
  obtain ⟨path, h⟩ := aStar_isSome map (inGrid_inU hs) (inGrid_inU hg)
  refine ⟨path, h, ?_, ?_⟩
  · intro fuel hfuel
    have := aStarLoop_mono start goal map aStarFuel (aStarInit start goal) path h
      (fuel - aStarFuel)
    rw [Nat.add_sub_cancel' hfuel] at this
    exact this
  · rcases aStar_result (inGrid_inU hs) h with he | hgoal
    · exact Or.inl he.1
    · exact Or.inr (GoalResult_walk hgoal)

/-- The run of `aStar` on `chaseMap` from the enemy's cell (4,5) to (6,5). -/
theorem aStar_terminates_witness :
    inGrid ⟨4, 5⟩ ∧ inGrid ⟨6, 5⟩
      ∧ ∃ path, aStar ⟨4, 5⟩ ⟨6, 5⟩ chaseMap = some path
        ∧ (∀ fuel, aStarFuel ≤ fuel →
            aStarLoop ⟨4, 5⟩ ⟨6, 5⟩ chaseMap fuel (aStarInit ⟨4, 5⟩ ⟨6, 5⟩) = some path)
        ∧ (path = []
          ∨ (path.head? = some ⟨4, 5⟩ ∧ path.getLast? = some ⟨6, 5⟩
            ∧ isWalk chaseMap path)) :=
  ⟨by decide, by decide, aStar_terminates chaseMap ⟨4, 5⟩ ⟨6, 5⟩ (by decide) (by decide)⟩

/-- C22: the player never ends up inside a wall.  For every map whose border cells are all
Walls and every combination of held W/A/S/D keys, if (`playerX`, `playerY`) is a cell of the
grid that is not a Wall before `handlePlayerMovement`, then it is a cell of the grid that is
not a Wall after it, and each coordinate has changed by at most 1. -/
theorem handlePlayerMovement_off_walls (map : List Nat) (keys : Keys) (x y : Int) (ch : Nat)
    (hb : borderWalled map) (hin : inGrid ⟨x, y⟩)
    (hw : mapAt map (coordConvert2T1 x y) ≠ wallChar) :
    inGrid ⟨(handlePlayerMovement keys { playerX := x, playerY := y, playerChar := ch }
          map).playerX,
        (handlePlayerMovement keys { playerX := x, playerY := y, playerChar := ch }
          map).playerY⟩
      ∧ mapAt map (coordConvert2T1
          (handlePlayerMovement keys { playerX := x, playerY := y, playerChar := ch }
            map).playerX
          (handlePlayerMovement keys { playerX := x, playerY := y, playerChar := ch }
            map).playerY) ≠ wallChar
      ∧ x - 1 ≤ (handlePlayerMovement keys { playerX := x, playerY := y, playerChar := ch }
          map).playerX
      ∧ (handlePlayerMovement keys { playerX := x, playerY := y, playerChar := ch }
          map).playerX ≤ x + 1
      ∧ y - 1 ≤ (handlePlayerMovement keys { playerX := x, playerY := y, playerChar := ch }
          map).playerY
      ∧ (handlePlayerMovement keys { playerX := x, playerY := y, playerChar := ch }
          map).playerY ≤ y + 1 := by
  obtain ⟨i1, i2, i3, i4⟩ := interior_of_borderWalled hb hin hw
  obtain ⟨d1, d2, d3, d4⟩ :=
    handlePlayerMovement_delta keys map { playerX := x, playerY := y, playerChar := ch }
  have hoff := handlePlayerMovement_offWall keys map
    { playerX := x, playerY := y, playerChar := ch } hw
  simp only at d1 d2 d3 d4
  refine ⟨?_, hoff, d1, d2, d3, d4⟩
  unfold inGrid
  simp only
  omega

/-- The call on `chaseMap` from the corner cell (1,1) of the interior with all four keys
held. -/
theorem handlePlayerMovement_off_walls_witness :
    borderWalled chaseMap ∧ inGrid ⟨1, 1⟩ ∧ mapAt chaseMap (coordConvert2T1 1 1) ≠ wallChar
      ∧ (inGrid ⟨(handlePlayerMovement { W := true, A := true, S := true, D := true }
            { playerX := 1, playerY := 1, playerChar := PLAYER_UP } chaseMap).playerX,
          (handlePlayerMovement { W := true, A := true, S := true, D := true }
            { playerX := 1, playerY := 1, playerChar := PLAYER_UP } chaseMap).playerY⟩
        ∧ mapAt chaseMap (coordConvert2T1
            (handlePlayerMovement { W := true, A := true, S := true, D := true }
              { playerX := 1, playerY := 1, playerChar := PLAYER_UP } chaseMap).playerX
            (handlePlayerMovement { W := true, A := true, S := true, D := true }
              { playerX := 1, playerY := 1, playerChar := PLAYER_UP } chaseMap).playerY)
          ≠ wallChar
        ∧ 1 - 1 ≤ (handlePlayerMovement { W := true, A := true, S := true, D := true }
            { playerX := 1, playerY := 1, playerChar := PLAYER_UP } chaseMap).playerX
        ∧ (handlePlayerMovement { W := true, A := true, S := true, D := true }
            { playerX := 1, playerY := 1, playerChar := PLAYER_UP } chaseMap).playerX ≤ 1 + 1
        ∧ 1 - 1 ≤ (handlePlayerMovement { W := true, A := true, S := true, D := true }
            { playerX := 1, playerY := 1, playerChar := PLAYER_UP } chaseMap).playerY
        ∧ (handlePlayerMovement { W := true, A := true, S := true, D := true }
            { playerX := 1, playerY := 1, playerChar := PLAYER_UP } chaseMap).playerY
          ≤ 1 + 1) :=
  ⟨chaseMap_borderWalled, by decide, by decide!,
    handlePlayerMovement_off_walls chaseMap { W := true, A := true, S := true, D := true } 1 1
      PLAYER_UP chaseMap_borderWalled (by decide) (by decide!)⟩

end EndlessPacMan
